import Mathlib

/-! # B-tree of minimum degree `t` (`cpp-Btree/b-tree.h`)

Shallow embedding of the class templates `BTreeNode<T>` and `BTree<T>` at
`T = int`, followed by the proofs of the properties of the specification.

Representation.  A C++ node owns two raw arrays, `keys` (capacity `2t-1`) and
`C` (capacity `2t`), together with the counter `n`.  Only the slots
`keys[0..n-1]` and, for an internal node, `C[0..n]` are live: every slot the
code reads lies in that range or has been written by the same call before it
is read, as long as the preconditions stated in the source comments hold (a
split child is full, merged siblings hold `t-1` keys).  The embedding keeps
exactly the live prefix of each array as a list, so `n` is the length of
`keys`; a leaf, whose child slots are all `nullptr`, has the empty child list.
The shifting loops of the source become insertions into and deletions from
these lists at the same index.

Recursion.  `traverse` is structural.  The functions that recurse into a
child they have just rebuilt (`search`, `insertNonFull`, `remove`, and the
loops of `getPred` / `getSucc`) take a recursion budget; `BTree` passes the
height of the root.  On the trees the interface builds every descent ends at
a leaf within that budget, and a larger budget gives the same result
(`search_budget`, `insert_budget`, `remove_budget`).

Keys.  The element type is `int`; keys are only compared, never computed
with, so they are taken in `Int`.
-/

/-- Largest value of the C++ type `int` (32 bits): the type of `t`, of `n` and
of the array sizes `2 * t - 1` and `2 * t` that the constructor
`BTreeNode(int _t, bool _leaf)` computes.  When `2 * t` exceeds it the size
overflows, `new` throws, and no node with this `t` is made. -/
def INT_MAX : Nat := 2147483647

/-- Node of the tree, `class BTreeNode<int>`: the fields `t`, `keys` (live
prefix, so `n = keys.length`), `C` (live prefix) and `leaf`. -/
inductive BTreeNode where
  | mk (t : Nat) (keys : List Int) (C : List BTreeNode) (leaf : Bool)

namespace BTreeNode

/-- Field `t`. -/
def t : BTreeNode → Nat
  | mk t _ _ _ => t

/-- Field `keys`, restricted to its first `n` slots. -/
def keys : BTreeNode → List Int
  | mk _ ks _ _ => ks

/-- Field `C`, restricted to its live slots. -/
def C : BTreeNode → List BTreeNode
  | mk _ _ cs _ => cs

/-- Field `leaf`. -/
def leaf : BTreeNode → Bool
  | mk _ _ _ l => l

/-- Field `n`, the current number of keys. -/
def n (x : BTreeNode) : Nat := x.keys.length

/-- Constructor `BTreeNode(int _t, bool _leaf)`: no key, all child slots
`nullptr`. -/
def new (t : Nat) (leaf : Bool) : BTreeNode := mk t [] [] leaf

instance : Inhabited BTreeNode := ⟨new 0 true⟩

/-- The pointer `C[i]`.  A slot outside the live range is read as an empty
leaf; on the trees built by `BTree` this never happens. -/
def child (x : BTreeNode) (i : Nat) : BTreeNode := x.C.getD i (new x.t true)

/-- The key `keys[i]` (`0` outside the live range, which is never read). -/
def key (x : BTreeNode) (i : Nat) : Int := x.keys.getD i 0

/-- Effect on the node `x` of a call that updates the node `C[i]` in place to `c`. -/
def setChild (x : BTreeNode) (i : Nat) (c : BTreeNode) : BTreeNode :=
  mk x.t x.keys (x.C.set i c) x.leaf

mutual
/-- In-order walk `BTreeNode::traverse`, returning the keys written to the
stream in order. -/
def traverse : BTreeNode → List Int
  | mk _ keys C leaf => traverseLoop keys C leaf
/-- The loop of `traverse` from index `i` on, given `keys[i..]` and `C[i..]`:
before each key the child to its left is walked when the node is internal, and
after the last key the last child. -/
def traverseLoop : List Int → List BTreeNode → Bool → List Int
  | [], [], _ => []
  | [], c :: _, leaf => if !leaf then traverse c else []
  | k :: ks, [], _ => k :: ks
  | k :: ks, c :: cs, leaf =>
    (if !leaf then traverse c else []) ++ k :: traverseLoop ks cs leaf
end

mutual
/-- Number of nodes on the longest path from the node down to a leaf. -/
def height : BTreeNode → Nat
  | mk _ _ C _ => heightList C + 1
/-- Largest height among a list of nodes. -/
def heightList : List BTreeNode → Nat
  | [] => 0
  | c :: cs => max (height c) (heightList cs)
end

/-- The scan `while (i < n && k > keys[i]) i++` of `search`, started at
`i = 0` on the keys given; returns the final `i`. -/
def searchIdx (k : Int) : List Int → Nat
  | [] => 0
  | x :: xs => if k > x then searchIdx k xs + 1 else 0

/-- Method `BTreeNode::search`: the node of the subtree that holds `k`, or `none` for
`nullptr`. -/
def search : Nat → BTreeNode → Int → Option BTreeNode
  | 0, _, _ => none
  | fuel + 1, x, k =>
    let i := searchIdx k x.keys
    if i < x.n ∧ x.key i = k then some x
    else if x.leaf then none
    else search fuel (x.child i) k

/-- The scan `while (i >= 0 && keys[i] > k) i--` of `insertNonFull`; the
argument is `i + 1` and so is the result. -/
def scanDown (keys : List Int) (k : Int) : Nat → Nat
  | 0 => 0
  | i + 1 => if keys.getD i 0 > k then scanDown keys k i else i + 1

/-- Method `BTreeNode::splitChild(i, y)` on the node `x`, where `y` is the pointer
`C[i]` (as at both call sites), so that the truncation of `y` is a write to
slot `i`.  The new node `z` takes `keys[t..2t-2]` and `C[t..2t-1]` of `y`, `y`
keeps its first `t-1` keys, and `keys[t-1]` of `y` moves up to slot `i`. -/
def splitChild (x : BTreeNode) (i : Nat) (y : BTreeNode) : BTreeNode :=
  let z := mk y.t ((y.keys.drop x.t).take (x.t - 1))
    (if !y.leaf then (y.C.drop x.t).take x.t else []) y.leaf
  let y1 := mk y.t (y.keys.take (x.t - 1)) (y.C.take x.t) y.leaf
  mk x.t (x.keys.take i ++ y.key (x.t - 1) :: x.keys.drop i)
    ((x.C.set i y1).take (i + 1) ++ z :: x.C.drop (i + 1)) x.leaf

/-- Method `BTreeNode::insertNonFull`. -/
def insertNonFull : Nat → BTreeNode → Int → BTreeNode
  | 0, x, _ => x
  | fuel + 1, x, k =>
    let i := scanDown x.keys k x.n
    if x.leaf then
      mk x.t (x.keys.take i ++ k :: x.keys.drop i) x.C x.leaf
    else
      if (x.child i).n = 2 * x.t - 1 then
        let x1 := x.splitChild i (x.child i)
        let i1 := if x1.key i < k then i + 1 else i
        x1.setChild i1 (insertNonFull fuel (x1.child i1) k)
      else
        x.setChild i (insertNonFull fuel (x.child i) k)

/-- Method `BTreeNode::findKey`: the scan `while (idx < n && keys[idx] < k) ++idx`. -/
def findKeyLoop (k : Int) : List Int → Nat
  | [] => 0
  | x :: xs => if x < k then findKeyLoop k xs + 1 else 0

/-- Method `BTreeNode::findKey`. -/
def findKey (x : BTreeNode) (k : Int) : Nat := findKeyLoop k x.keys

/-- Method `BTreeNode::removeFromLeaf`. -/
def removeFromLeaf (x : BTreeNode) (idx : Nat) : BTreeNode :=
  mk x.t (x.keys.eraseIdx idx) x.C x.leaf

/-- The loop of `getPred`: from `cur` follow the last child down to a leaf and
return its last key. -/
def lastKey : Nat → BTreeNode → Int
  | 0, cur => cur.key (cur.n - 1)
  | fuel + 1, cur =>
    if !cur.leaf then lastKey fuel (cur.child cur.n) else cur.key (cur.n - 1)

/-- The loop of `getSucc`: from `cur` follow the first child down to a leaf and
return its first key. -/
def firstKey : Nat → BTreeNode → Int
  | 0, cur => cur.key 0
  | fuel + 1, cur =>
    if !cur.leaf then firstKey fuel (cur.child 0) else cur.key 0

/-- Method `BTreeNode::getPred`. -/
def getPred (fuel : Nat) (x : BTreeNode) (idx : Nat) : Int :=
  lastKey fuel (x.child idx)

/-- Method `BTreeNode::getSucc`. -/
def getSucc (fuel : Nat) (x : BTreeNode) (idx : Nat) : Int :=
  firstKey fuel (x.child (idx + 1))

/-- Method `BTreeNode::borrowFromPrev`. -/
def borrowFromPrev (x : BTreeNode) (idx : Nat) : BTreeNode :=
  let child := x.child idx
  let sibling := x.child (idx - 1)
  let child1 := mk child.t (x.key (idx - 1) :: child.keys)
    (if !child.leaf then sibling.child sibling.n :: child.C else child.C) child.leaf
  let sibling1 := mk sibling.t (sibling.keys.take (sibling.n - 1))
    (sibling.C.take sibling.n) sibling.leaf
  mk x.t (x.keys.set (idx - 1) (sibling.key (sibling.n - 1)))
    ((x.C.set idx child1).set (idx - 1) sibling1) x.leaf

/-- Method `BTreeNode::borrowFromNext`. -/
def borrowFromNext (x : BTreeNode) (idx : Nat) : BTreeNode :=
  let child := x.child idx
  let sibling := x.child (idx + 1)
  let child1 := mk child.t (child.keys ++ [x.key idx])
    (if !child.leaf then child.C ++ [sibling.child 0] else child.C) child.leaf
  let sibling1 := mk sibling.t (sibling.keys.drop 1)
    (if !sibling.leaf then sibling.C.drop 1 else sibling.C) sibling.leaf
  mk x.t (x.keys.set idx (sibling.key 0))
    ((x.C.set idx child1).set (idx + 1) sibling1) x.leaf

/-- Method `BTreeNode::merge`: `C[idx]`, `keys[idx]` and `C[idx+1]` become one node in
slot `idx`.  The source writes the separator to slot `t-1` of the child and
the sibling's keys from slot `t` on, which appends them when the child holds
`t-1` keys. -/
def merge (x : BTreeNode) (idx : Nat) : BTreeNode :=
  let child := x.child idx
  let sibling := x.child (idx + 1)
  let child1 := mk child.t (child.keys ++ x.key idx :: sibling.keys)
    (if !child.leaf then child.C ++ sibling.C else child.C) child.leaf
  mk x.t (x.keys.eraseIdx idx) ((x.C.set idx child1).eraseIdx (idx + 1)) x.leaf

/-- Method `BTreeNode::fill`. -/
def fill (x : BTreeNode) (idx : Nat) : BTreeNode :=
  if idx ≠ 0 ∧ (x.child (idx - 1)).n ≥ x.t then x.borrowFromPrev idx
  else if idx ≠ x.n ∧ (x.child (idx + 1)).n ≥ x.t then x.borrowFromNext idx
  else if idx ≠ x.n then x.merge idx
  else x.merge (idx - 1)

/-- Method `BTreeNode::removeFromNonLeaf`; `rm` is the recursive call
`BTreeNode::remove` and `fuel` the budget of the loops of `getPred` and
`getSucc`. -/
def removeFromNonLeaf (rm : BTreeNode → Int → BTreeNode) (fuel : Nat)
    (x : BTreeNode) (idx : Nat) : BTreeNode :=
  let k := x.key idx
  if (x.child idx).n ≥ x.t then
    let pred := x.getPred fuel idx
    let x1 := mk x.t (x.keys.set idx pred) x.C x.leaf
    x1.setChild idx (rm (x1.child idx) pred)
  else if (x.child (idx + 1)).n ≥ x.t then
    let succ := x.getSucc fuel idx
    let x1 := mk x.t (x.keys.set idx succ) x.C x.leaf
    x1.setChild (idx + 1) (rm (x1.child (idx + 1)) succ)
  else
    let x1 := x.merge idx
    x1.setChild idx (rm (x1.child idx) k)

/-- Method `BTreeNode::remove`. -/
def remove : Nat → BTreeNode → Int → BTreeNode
  | 0, x, _ => x
  | fuel + 1, x, k =>
    let idx := x.findKey k
    if idx < x.n ∧ x.key idx = k then
      if x.leaf then x.removeFromLeaf idx
      else removeFromNonLeaf (remove fuel) fuel x idx
    else
      if x.leaf then x
      else
        let flag : Bool := idx = x.n
        let x1 := if (x.child idx).n < x.t then x.fill idx else x
        if flag ∧ idx > x1.n then
          x1.setChild (idx - 1) (remove fuel (x1.child (idx - 1)) k)
        else
          x1.setChild idx (remove fuel (x1.child idx) k)

end BTreeNode

/-- Class `BTree<int>`: the root pointer (`none` for `nullptr`) and the minimum
degree. -/
structure BTree where
  root : Option BTreeNode
  t : Nat

namespace BTree

/-- Constructor `BTree(int _t)`: throws `std::invalid_argument` when `t < 2`. -/
def new (t : Int) : Except String BTree :=
  if t < 2 then Except.error "B-Tree minimum degree t must be >= 2"
  else Except.ok ⟨none, t.toNat⟩

/-- The tree a successful construction with minimum degree `t` yields. -/
def empty (t : Nat) : BTree := ⟨none, t⟩

/-- Method `BTree::traverse`. -/
def traverse (b : BTree) : List Int :=
  match b.root with
  | none => []
  | some r => r.traverse

/-- Method `BTree::search`. -/
def search (b : BTree) (k : Int) : Option BTreeNode :=
  match b.root with
  | none => none
  | some r => r.search r.height k

/-- Method `BTree::insert`.  On the empty tree it first constructs the root
node, which computes `2 * t` in `int`: when `2 * t` exceeds `INT_MAX` the
constructor throws and the root stays null.  A non-null root was constructed
with the same `t`, so the constructors called in the other branch succeed. -/
def insert (b : BTree) (k : Int) : BTree :=
  match b.root with
  | none =>
    if 2 * b.t ≤ INT_MAX then ⟨some (BTreeNode.mk b.t [k] [] true), b.t⟩ else b
  | some r =>
    if r.n = 2 * b.t - 1 then
      let s := BTreeNode.mk b.t [] [r] false
      let s := s.splitChild 0 r
      let i := if s.key 0 < k then 1 else 0
      ⟨some (s.setChild i ((s.child i).insertNonFull r.height k)), b.t⟩
    else
      ⟨some (r.insertNonFull r.height k), b.t⟩

/-- Method `BTree::remove`. -/
def remove (b : BTree) (k : Int) : BTree :=
  match b.root with
  | none => b
  | some r =>
    let r1 := r.remove r.height k
    if r1.n = 0 then
      if r1.leaf then ⟨none, b.t⟩ else ⟨some (r1.child 0), b.t⟩
    else ⟨some r1, b.t⟩

end BTree

/-- One call of the public interface that changes the tree. -/
inductive Op where
  | insert (k : Int)
  | remove (k : Int)

/-- Effect of one call on the tree. -/
def BTree.apply (b : BTree) : Op → BTree
  | Op.insert k => b.insert k
  | Op.remove k => b.remove k

/-- The tree obtained from the empty tree of minimum degree `t` by the calls
`ops`, in order. -/
def BTree.run (t : Nat) (ops : List Op) : BTree :=
  ops.foldl BTree.apply (BTree.empty t)


/-! ## Notions used to state the properties -/

namespace BTreeNode

/-- Keys written by the loop of `traverse` over a run of (child, key) pairs. -/
def pre : List Int → List BTreeNode → List Int
  | k :: ks, c :: cs => c.traverse ++ k :: pre ks cs
  | _, _ => []

/-- Keys written by the loop of `traverse` over a run of (key, child) pairs. -/
def suf : List Int → List BTreeNode → List Int
  | k :: ks, c :: cs => k :: (c.traverse ++ suf ks cs)
  | _, _ => []

/-- Shape and occupancy of the subtree of a node: `WF t m h x` says that all
leaves of `x` are `h` levels below it, that `x` holds between `m` and `2t-1`
keys, that every node below `x` holds between `t-1` and `2t-1` keys, that
every internal node with `n` keys has `n+1` children, and that every node
carries the minimum degree `t`. -/
inductive WF (t : Nat) : Nat → Nat → BTreeNode → Prop
  | leaf (m : Nat) (keys : List Int) (hm : m ≤ keys.length)
      (hM : keys.length ≤ 2 * t - 1) : WF t m 0 (mk t keys [] true)
  | node (m h : Nat) (keys : List Int) (C : List BTreeNode) (hm : m ≤ keys.length)
      (hM : keys.length ≤ 2 * t - 1) (hC : C.length = keys.length + 1)
      (hch : ∀ c ∈ C, WF t (t - 1) h c) : WF t m (h + 1) (mk t keys C false)

end BTreeNode

/-- Invariant of the tree: the minimum degree is at least 2 and, when there is
a root, it holds at least one key, its subtree is well formed, and its
traversal is in non-decreasing order. -/
def BTree.Inv (b : BTree) : Prop :=
  2 ≤ b.t ∧ ∀ r, b.root = some r →
    (∃ h, BTreeNode.WF b.t 1 h r) ∧ List.Pairwise (· ≤ ·) r.traverse

/-- Correctness of `BTreeNode::remove` for a given recursion budget: on a
well-formed node with at least one key and a sorted traversal whose leaves are
less than `fuel` levels down, the node stays well formed with at most one key
fewer and its traversal loses the first occurrence of `k`, if any. -/
def BTreeNode.RemoveOK (t : Nat) (k : Int) (fuel : Nat) : Prop :=
  ∀ (h m : Nat) (x : BTreeNode), BTreeNode.WF t m h x → 1 ≤ m → h < fuel →
    List.Pairwise (· ≤ ·) x.traverse →
    BTreeNode.WF t (m - 1) h (BTreeNode.remove fuel x k)
      ∧ (BTreeNode.remove fuel x k).traverse = x.traverse.erase k

namespace BTreeNode

mutual
/-- All nodes of the subtree of a node, the node itself first. -/
def nodes : BTreeNode → List BTreeNode
  | mk t keys C leaf => mk t keys C leaf :: nodesList C
/-- All nodes of the subtrees of a list of nodes. -/
def nodesList : List BTreeNode → List BTreeNode
  | [] => []
  | c :: cs => nodes c ++ nodesList cs
end

mutual
/-- Depth, below the node, of each of the leaves of its subtree. -/
def leafDepths : BTreeNode → List Nat
  | mk _ _ C leaf => if leaf then [0] else (leafDepthsList C).map (· + 1)
/-- Depths of the leaves of a list of subtrees. -/
def leafDepthsList : List BTreeNode → List Nat
  | [] => []
  | c :: cs => leafDepths c ++ leafDepthsList cs
end

/-- Strict search-tree order at a node: around every key `keys[i]`, the keys
of the subtree `C[i]` are smaller and those of the subtree `C[i+1]` larger. -/
def StrictAt (x : BTreeNode) : Prop :=
  ∀ i, i < x.n → (∀ a ∈ (x.child i).traverse, a < x.key i)
    ∧ (∀ a ∈ (x.child (i + 1)).traverse, x.key i < a)

/-- Search-tree order at a node that admits equal keys: around every key
`keys[i]`, the keys of the subtree `C[i]` are at most `keys[i]` and those of
the subtree `C[i+1]` at least `keys[i]`. -/
def OrderedAt (x : BTreeNode) : Prop :=
  ∀ i, i < x.n → (∀ a ∈ (x.child i).traverse, a ≤ x.key i)
    ∧ (∀ a ∈ (x.child (i + 1)).traverse, x.key i ≤ a)

end BTreeNode


/-! ## Calls made during an insertion or a removal -/

/-- A call made while `BTree::insert` runs, with the node it is made on as it
is at the moment of the call: `insertNonFull(k)` on the node `x`, or
`splitChild(i, y)` on the node `x`. -/
inductive InsertCall where
  | insertNonFull (x : BTreeNode) (k : Int)
  | splitChild (x : BTreeNode) (i : Nat) (y : BTreeNode)

/-- A call made while `BTreeNode::remove` runs on a node, with the node it is
made on as it is at the moment of the call: the recursive call `remove(k)` on
the child `x`, or `merge(idx)` on the node `x`. -/
inductive RemoveCall where
  | remove (x : BTreeNode) (k : Int)
  | merge (x : BTreeNode) (idx : Nat)

namespace BTreeNode

/-- Method `BTreeNode::insertNonFull` together with the list of the calls of
`insertNonFull` and `splitChild` it makes, itself included, in order. -/
def insertNonFullT : Nat → BTreeNode → Int → BTreeNode × List InsertCall
  | 0, x, k => (x, [InsertCall.insertNonFull x k])
  | fuel + 1, x, k =>
    let i := scanDown x.keys k x.n
    if x.leaf then
      (mk x.t (x.keys.take i ++ k :: x.keys.drop i) x.C x.leaf, [InsertCall.insertNonFull x k])
    else
      if (x.child i).n = 2 * x.t - 1 then
        let x1 := x.splitChild i (x.child i)
        let i1 := if x1.key i < k then i + 1 else i
        let r := insertNonFullT fuel (x1.child i1) k
        (x1.setChild i1 r.1,
          InsertCall.insertNonFull x k :: InsertCall.splitChild x i (x.child i) :: r.2)
      else
        let r := insertNonFullT fuel (x.child i) k
        (x.setChild i r.1, InsertCall.insertNonFull x k :: r.2)

/-- Method `BTreeNode::fill` together with the call of `merge` it makes, if any. -/
def fillT (x : BTreeNode) (idx : Nat) : BTreeNode × List RemoveCall :=
  if idx ≠ 0 ∧ (x.child (idx - 1)).n ≥ x.t then (x.borrowFromPrev idx, [])
  else if idx ≠ x.n ∧ (x.child (idx + 1)).n ≥ x.t then (x.borrowFromNext idx, [])
  else if idx ≠ x.n then (x.merge idx, [RemoveCall.merge x idx])
  else (x.merge (idx - 1), [RemoveCall.merge x (idx - 1)])

/-- Method `BTreeNode::removeFromNonLeaf` together with the calls of `merge`
and the recursive calls of `remove` made while it runs; `rm` is the recursive
call with its own list of calls. -/
def removeFromNonLeafT (rm : BTreeNode → Int → BTreeNode × List RemoveCall) (fuel : Nat)
    (x : BTreeNode) (idx : Nat) : BTreeNode × List RemoveCall :=
  let k := x.key idx
  if (x.child idx).n ≥ x.t then
    let pred := x.getPred fuel idx
    let x1 := mk x.t (x.keys.set idx pred) x.C x.leaf
    let r := rm (x1.child idx) pred
    (x1.setChild idx r.1, RemoveCall.remove (x1.child idx) pred :: r.2)
  else if (x.child (idx + 1)).n ≥ x.t then
    let succ := x.getSucc fuel idx
    let x1 := mk x.t (x.keys.set idx succ) x.C x.leaf
    let r := rm (x1.child (idx + 1)) succ
    (x1.setChild (idx + 1) r.1, RemoveCall.remove (x1.child (idx + 1)) succ :: r.2)
  else
    let x1 := x.merge idx
    let r := rm (x1.child idx) k
    (x1.setChild idx r.1,
      RemoveCall.merge x idx :: RemoveCall.remove (x1.child idx) k :: r.2)

/-- Method `BTreeNode::remove` together with the calls of `merge` and the
recursive calls of `remove` on children made while it runs, in order. -/
def removeT : Nat → BTreeNode → Int → BTreeNode × List RemoveCall
  | 0, x, _ => (x, [])
  | fuel + 1, x, k =>
    let idx := x.findKey k
    if idx < x.n ∧ x.key idx = k then
      if x.leaf then (x.removeFromLeaf idx, [])
      else removeFromNonLeafT (removeT fuel) fuel x idx
    else
      if x.leaf then (x, [])
      else
        let flag : Bool := idx = x.n
        let f := if (x.child idx).n < x.t then x.fillT idx else (x, [])
        if flag ∧ idx > f.1.n then
          let r := removeT fuel (f.1.child (idx - 1)) k
          (f.1.setChild (idx - 1) r.1,
            f.2 ++ RemoveCall.remove (f.1.child (idx - 1)) k :: r.2)
        else
          let r := removeT fuel (f.1.child idx) k
          (f.1.setChild idx r.1, f.2 ++ RemoveCall.remove (f.1.child idx) k :: r.2)

/-- The node as `BTreeNode::remove` leaves it before it descends, when the key
is not in the node: `fill(idx)` has run if `C[idx]` held fewer than `t` keys. -/
def fillBefore (x : BTreeNode) (idx : Nat) : BTreeNode :=
  if (x.child idx).n < x.t then x.fill idx else x

/-- The index of the child `BTreeNode::remove` descends into when the key is
not in the node: `idx - 1` if `flag && idx > n` holds after `fill`, else `idx`. -/
def descentIdx (x : BTreeNode) (idx : Nat) : Nat :=
  if idx = x.n ∧ idx > (x.fillBefore idx).n then idx - 1 else idx

/-- Whether, on the path `BTreeNode::remove` follows for `k` when it finds `k`
in no node, every child descended into holds at least `t` keys. -/
def richPath : Nat → BTreeNode → Int → Bool
  | 0, _, _ => true
  | fuel + 1, x, k =>
    x.leaf || (decide (x.t ≤ (x.child (x.findKey k)).n)
      && richPath fuel (x.child (x.findKey k)) k)

end BTreeNode

namespace BTree

/-- Method `BTree::insert` together with the list of the calls of
`insertNonFull` and `splitChild` made while it runs, in order. -/
def insertT (b : BTree) (k : Int) : BTree × List InsertCall :=
  match b.root with
  | none =>
    if 2 * b.t ≤ INT_MAX then (⟨some (BTreeNode.mk b.t [k] [] true), b.t⟩, []) else (b, [])
  | some r =>
    if r.n = 2 * b.t - 1 then
      let s0 := BTreeNode.mk b.t [] [r] false
      let s := s0.splitChild 0 r
      let i := if s.key 0 < k then 1 else 0
      let c := (s.child i).insertNonFullT r.height k
      (⟨some (s.setChild i c.1), b.t⟩, InsertCall.splitChild s0 0 r :: c.2)
    else
      let c := r.insertNonFullT r.height k
      (⟨some c.1, b.t⟩, c.2)

/-- The calls of `merge` and the recursive calls of `BTreeNode::remove` on
children made while `BTree::remove` runs, in order. -/
def removeCalls (b : BTree) (k : Int) : List RemoveCall :=
  match b.root with
  | none => []
  | some r => (r.removeT r.height k).2

/-- Number of levels of the tree: `0` for the empty tree, `1` for a lone leaf. -/
def height (b : BTree) : Nat :=
  match b.root with
  | none => 0
  | some r => r.height

end BTree

namespace BTreeNode

/-- The descent rule shared by `search` and `remove`, without the rebalancing
of `remove`: at each node take the first index `idx` with `keys[idx] >= k`
(`findKey`), stop with success if `keys[idx]` is `k`, stop with failure at a
leaf, and otherwise go down into `C[idx]`. -/
def reach : Nat → BTreeNode → Int → Bool
  | 0, _, _ => false
  | fuel + 1, x, k =>
    if x.findKey k < x.n ∧ x.key (x.findKey k) = k then true
    else if x.leaf then false
    else BTreeNode.reach fuel (x.child (x.findKey k)) k

end BTreeNode


/-! ## Lists cut at an index -/

section ListAux
variable {α : Type}

theorem getD_at {l1 l2 : List α} {i : Nat} (a d : α) (h : l1.length = i) :
    (l1 ++ a :: l2).getD i d = a := by
  subst h
  rw [List.getD_eq_getElem?_getD, List.getElem?_append_right (le_refl _)]
  simp

theorem set_at {l1 l2 : List α} {i : Nat} (a b : α) (h : l1.length = i) :
    (l1 ++ a :: l2).set i b = l1 ++ b :: l2 := by
  subst h; simp

theorem take_at {l1 l2 : List α} {i : Nat} (h : l1.length = i) :
    (l1 ++ l2).take i = l1 := by
  subst h; simp

theorem drop_at {l1 l2 : List α} {i : Nat} (h : l1.length = i) :
    (l1 ++ l2).drop i = l2 := by
  subst h; simp

theorem eraseIdx_at {l1 l2 : List α} {i : Nat} (a : α) (h : l1.length = i) :
    (l1 ++ a :: l2).eraseIdx i = l1 ++ l2 := by
  subst h; simp [List.eraseIdx_append_of_length_le]

theorem exists_window (l : List α) (i : Nat) (h : i < l.length) :
    ∃ l1 a l2, l = l1 ++ a :: l2 ∧ l1.length = i := by
  refine ⟨l.take i, l[i], l.drop (i+1), ?_, ?_⟩
  · simp
  · simp; omega

theorem exists_split (l : List α) (i : Nat) (h : i ≤ l.length) :
    ∃ l1 l2, l = l1 ++ l2 ∧ l1.length = i := by
  refine ⟨l.take i, l.drop i, ?_, ?_⟩
  · simp
  · simp; omega

theorem eq_nil_or_snoc (l : List α) : l = [] ∨ ∃ l0 a, l = l0 ++ [a] := by
  rcases List.eq_nil_or_concat l with h | ⟨l0, a, h⟩
  · exact Or.inl h
  · exact Or.inr ⟨l0, a, by simpa using h⟩

end ListAux

namespace BTreeNode

@[simp] theorem t_mk (t ks cs l) : (mk t ks cs l).t = t := rfl
@[simp] theorem keys_mk (t ks cs l) : (mk t ks cs l).keys = ks := rfl
@[simp] theorem C_mk (t ks cs l) : (mk t ks cs l).C = cs := rfl
@[simp] theorem leaf_mk (t ks cs l) : (mk t ks cs l).leaf = l := rfl
@[simp] theorem n_mk (t ks cs l) : (mk t ks cs l).n = ks.length := rfl

/-! ## Traversal of a node cut at a child -/

@[simp] theorem traverse_mk (t ks cs l) :
    (mk t ks cs l).traverse = traverseLoop ks cs l := by
  simp [traverse]

@[simp] theorem traverseLoop_nil_children (ks : List Int) (l : Bool) :
    traverseLoop ks [] l = ks := by
  cases ks <;> simp [traverseLoop]

theorem traverseLoop_internal (ks : List Int) (c : BTreeNode) (cs : List BTreeNode)
    (h : ks.length = cs.length) :
    traverseLoop ks (c :: cs) false = c.traverse ++ suf ks cs := by
  induction ks generalizing c cs with
  | nil => simp [traverseLoop, suf]
  | cons k ks ih =>
    cases cs with
    | nil => simp at h
    | cons c1 cs =>
      simp only [List.length_cons, Nat.add_right_cancel_iff] at h
      simp [traverseLoop, suf, ih c1 cs h]

theorem traverseLoop_append (K1 K2 : List Int) (C1 C2 : List BTreeNode)
    (h : K1.length = C1.length) :
    traverseLoop (K1 ++ K2) (C1 ++ C2) false = pre K1 C1 ++ traverseLoop K2 C2 false := by
  induction K1 generalizing C1 with
  | nil =>
    cases C1 with
    | nil => simp [pre]
    | cons c cs => simp at h
  | cons k ks ih =>
    cases C1 with
    | nil => simp at h
    | cons c cs =>
      simp only [List.length_cons, Nat.add_right_cancel_iff] at h
      simp [traverseLoop, pre, ih cs h]

/-- Traversal of an internal node, cut at a key. -/
theorem traverseLoop_cut_key (A B : List Int) (m : Int) (Ca Cb : List BTreeNode)
    (h : Ca.length = A.length + 1) :
    traverseLoop (A ++ m :: B) (Ca ++ Cb) false
      = traverseLoop A Ca false ++ m :: traverseLoop B Cb false := by
  induction A generalizing Ca with
  | nil =>
    match Ca, h with
    | [c], _ => simp [traverseLoop]
  | cons a A ih =>
    match Ca, h with
    | c :: c1 :: Ca, h =>
      have := ih (c1 :: Ca) (by simpa using h)
      simp only [List.cons_append] at this ⊢
      simp [traverseLoop, this]

/-- Traversal of an internal node, cut at the child `c`. -/
theorem traverse_window (t : Nat) (K1 K2 : List Int) (C1 C2 : List BTreeNode) (c : BTreeNode)
    (h1 : K1.length = C1.length) (h2 : K2.length = C2.length) :
    (mk t (K1 ++ K2) (C1 ++ c :: C2) false).traverse
      = pre K1 C1 ++ (c.traverse ++ suf K2 C2) := by
  rw [traverse_mk, traverseLoop_append _ _ _ _ h1, traverseLoop_internal _ _ _ h2]

@[simp] theorem suf_cons (k : Int) (ks : List Int) (c : BTreeNode) (cs : List BTreeNode) :
    suf (k :: ks) (c :: cs) = k :: (c.traverse ++ suf ks cs) := by
  simp [suf]

@[simp] theorem pre_cons (k : Int) (ks : List Int) (c : BTreeNode) (cs : List BTreeNode) :
    pre (k :: ks) (c :: cs) = c.traverse ++ k :: pre ks cs := by
  simp [pre]

@[simp] theorem suf_nil_left (cs : List BTreeNode) : suf [] cs = [] := by
  simp [suf]

@[simp] theorem pre_nil_left (cs : List BTreeNode) : pre [] cs = [] := by
  simp [pre]

@[simp] theorem suf_nil_right (ks : List Int) : suf ks [] = [] := by
  cases ks <;> simp [suf]

@[simp] theorem pre_nil_right (ks : List Int) : pre ks [] = [] := by
  cases ks <;> simp [pre]

theorem pre_append (K1 K2 : List Int) (C1 C2 : List BTreeNode) (h : K1.length = C1.length) :
    pre (K1 ++ K2) (C1 ++ C2) = pre K1 C1 ++ pre K2 C2 := by
  induction K1 generalizing C1 with
  | nil =>
    cases C1 with
    | nil => simp
    | cons c cs => simp at h
  | cons k ks ih =>
    cases C1 with
    | nil => simp at h
    | cons c cs =>
      simp only [List.length_cons, Nat.add_right_cancel_iff] at h
      simp [ih cs h]

theorem suf_append (K1 K2 : List Int) (C1 C2 : List BTreeNode) (h : K1.length = C1.length) :
    suf (K1 ++ K2) (C1 ++ C2) = suf K1 C1 ++ suf K2 C2 := by
  induction K1 generalizing C1 with
  | nil =>
    cases C1 with
    | nil => simp
    | cons c cs => simp at h
  | cons k ks ih =>
    cases C1 with
    | nil => simp at h
    | cons c cs =>
      simp only [List.length_cons, Nat.add_right_cancel_iff] at h
      simp [ih cs h]

/-- A run of (child, key) pairs ends with its last key. -/
theorem pre_snoc (K : List Int) (C : List BTreeNode) (a : Int) (c : BTreeNode)
    (h : K.length = C.length) :
    pre (K ++ [a]) (C ++ [c]) = pre K C ++ (c.traverse ++ [a]) := by
  rw [pre_append _ _ _ _ h]; simp

end BTreeNode


/-! ## Sorted lists -/

section SortedAux

theorem sorted_replace (P T T1 S : List Int) (k : Int)
    (hs : List.Pairwise (· ≤ ·) (P ++ (T ++ S))) (hT1 : List.Pairwise (· ≤ ·) T1)
    (hperm : T1.Perm (k :: T)) (hP : ∀ p ∈ P, p ≤ k) (hS : ∀ s ∈ S, k ≤ s) :
    List.Pairwise (· ≤ ·) (P ++ (T1 ++ S)) := by
  rw [List.pairwise_append, List.pairwise_append] at hs ⊢
  obtain ⟨h1, ⟨h2, h3, h4⟩, h5⟩ := hs
  refine ⟨h1, ⟨hT1, h3, ?_⟩, ?_⟩
  · intro a ha b hb
    rcases List.mem_cons.1 (hperm.mem_iff.1 ha) with rfl | ha
    · exact hS b hb
    · exact h4 a ha b hb
  · intro a ha b hb
    rcases List.mem_append.1 hb with hb | hb
    · rcases List.mem_cons.1 (hperm.mem_iff.1 hb) with rfl | hb
      · exact hP a ha
      · exact h5 a ha b (List.mem_append.2 (Or.inl hb))
    · exact h5 a ha b (List.mem_append.2 (Or.inr hb))

theorem le_last_of_sorted (K : List Int) (hs : List.Pairwise (· ≤ ·) K) :
    ∀ p ∈ K, ∃ a, K.getLast? = some a ∧ p ≤ a := by
  intro p hp
  rcases eq_nil_or_snoc K with rfl | ⟨K0, a, rfl⟩
  · simp at hp
  · refine ⟨a, by simp, ?_⟩
    rw [List.pairwise_append] at hs
    rcases List.mem_append.1 hp with h | h
    · exact hs.2.2 p h a (by simp)
    · simp at h; omega

theorem head_le_of_sorted (K : List Int) (hs : List.Pairwise (· ≤ ·) K) :
    ∀ p ∈ K, ∃ b, K.head? = some b ∧ b ≤ p := by
  intro p hp
  cases K with
  | nil => simp at hp
  | cons b K0 =>
    refine ⟨b, by simp, ?_⟩
    rcases List.mem_cons.1 hp with rfl | h
    · exact le_refl _
    · exact (List.pairwise_cons.1 hs).1 p h

end SortedAux

namespace BTreeNode

theorem pre_le_last (K : List Int) (C : List BTreeNode) (h : K.length = C.length)
    (hs : List.Pairwise (· ≤ ·) (pre K C)) :
    ∀ p ∈ pre K C, ∃ a, K.getLast? = some a ∧ p ≤ a := by
  intro p hp
  rcases eq_nil_or_snoc K with rfl | ⟨K0, a, rfl⟩
  · simp at hp
  · rcases eq_nil_or_snoc C with rfl | ⟨C0, c, rfl⟩
    · simp at h
    · have h0 : K0.length = C0.length := by simpa using h
      rw [pre_snoc _ _ _ _ h0] at hs hp
      obtain ⟨b, hb, hpb⟩ := le_last_of_sorted _ hs p hp
      refine ⟨a, by simp, ?_⟩
      have : a = b := by
        rw [← List.append_assoc, List.getLast?_append] at hb
        simpa using hb
      omega

theorem suf_ge_head (K : List Int) (C : List BTreeNode)
    (hs : List.Pairwise (· ≤ ·) (suf K C)) :
    ∀ p ∈ suf K C, ∃ b, K.head? = some b ∧ b ≤ p := by
  intro p hp
  cases K with
  | nil => simp at hp
  | cons b K0 =>
    cases C with
    | nil => simp at hp
    | cons c C0 =>
      obtain ⟨b1, hb1, h⟩ := head_le_of_sorted _ hs p hp
      simp at hb1
      exact ⟨b, by simp, by omega⟩

/-! ## The scans -/

theorem scanDown_append (L R : List Int) (k : Int) :
    ∃ K1 K2, L = K1 ++ K2 ∧ K1.length = scanDown (L ++ R) k L.length
      ∧ (∀ a, K1.getLast? = some a → a ≤ k) ∧ (∀ b ∈ K2, k < b) := by
  induction L using List.reverseRecOn generalizing R with
  | nil => exact ⟨[], [], by simp [scanDown]⟩
  | append_singleton L a ih =>
    have hget : (L ++ [a] ++ R).getD L.length 0 = a := by
      rw [List.append_assoc]; exact getD_at _ _ rfl
    by_cases hak : a > k
    · obtain ⟨K1, K2, h1, h2, h3, h4⟩ := ih ([a] ++ R)
      refine ⟨K1, K2 ++ [a], by simp [h1], ?_, h3, ?_⟩
      · simp only [List.length_append, List.length_singleton, scanDown, hget, hak, if_true]
        rw [h2]; simp
      · intro b hb
        rcases List.mem_append.1 hb with h | h
        · exact h4 b h
        · simp at h; omega
    · refine ⟨L ++ [a], [], by simp, ?_, ?_, by simp⟩
      · simp only [List.length_append, List.length_singleton, scanDown, hget, hak, if_false]
      · intro b hb
        simp at hb
        omega

theorem scanDown_window (keys : List Int) (k : Int) :
    ∃ K1 K2, keys = K1 ++ K2 ∧ K1.length = scanDown keys k keys.length
      ∧ (∀ a, K1.getLast? = some a → a ≤ k) ∧ (∀ b ∈ K2, k < b) := by
  simpa using scanDown_append keys [] k

end BTreeNode


namespace BTreeNode

/-! ## Well-formed nodes -/

theorem WF.t_eq {t m h : Nat} {x : BTreeNode} (hx : WF t m h x) : x.t = t := by
  cases hx <;> rfl

theorem WF.le_n {t m h : Nat} {x : BTreeNode} (hx : WF t m h x) : m ≤ x.n := by
  cases hx <;> simpa

theorem WF.n_le {t m h : Nat} {x : BTreeNode} (hx : WF t m h x) : x.n ≤ 2 * t - 1 := by
  cases hx <;> simpa

theorem WF.mono {t m m1 h : Nat} {x : BTreeNode} (hx : WF t m h x) (hm : m1 ≤ x.n) :
    WF t m1 h x := by
  cases hx with
  | leaf _ keys h1 h2 => exact WF.leaf _ _ hm h2
  | node _ _ keys C h1 h2 h3 h4 => exact WF.node _ _ _ _ hm h2 h3 h4

theorem WF.height_eq {t m h : Nat} {x : BTreeNode} (hx : WF t m h x) : x.height = h + 1 := by
  induction hx with
  | leaf _ keys h1 h2 => simp [height, heightList]
  | node m h keys C h1 h2 h3 h4 ih =>
    simp only [height, Nat.add_right_cancel_iff]
    have key : ∀ (D : List BTreeNode), D ≠ [] → (∀ c ∈ D, c.height = h + 1) →
        heightList D = h + 1 := by
      intro D
      induction D with
      | nil => intro h0; exact absurd rfl h0
      | cons d D ihD =>
        intro _ hall
        cases D with
        | nil => simp [heightList, hall d (by simp)]
        | cons d1 D =>
          have := ihD (by simp) (fun c hc => hall c (List.mem_cons_of_mem _ hc))
          simp only [heightList] at this ⊢
          rw [this, hall d (by simp)]; simp
    apply key C _ ih
    intro h0; rw [h0] at h3; simp at h3

/-! ## `splitChild` -/

theorem splitChild_window (t : Nat) (K1 K2 : List Int) (C1 C2 : List BTreeNode)
    (y : BTreeNode) (lf : Bool) (i : Nat) (hK : K1.length = i) (hC : C1.length = i) :
    splitChild (mk t (K1 ++ K2) (C1 ++ y :: C2) lf) i y
      = mk t (K1 ++ y.key (t - 1) :: K2)
          (C1 ++ mk y.t (y.keys.take (t - 1)) (y.C.take t) y.leaf
            :: mk y.t ((y.keys.drop t).take (t - 1))
                (if !y.leaf then (y.C.drop t).take t else []) y.leaf :: C2) lf := by
  have h1 : (C1 ++ y :: C2).drop (i + 1) = C2 := by
    have : C1 ++ y :: C2 = (C1 ++ [y]) ++ C2 := by simp
    rw [this]; exact drop_at (by simp [hC])
  have h2 : ∀ y1 : BTreeNode, ((C1 ++ y :: C2).set i y1).take (i + 1) = C1 ++ [y1] := by
    intro y1
    rw [set_at _ _ hC]
    have : C1 ++ y1 :: C2 = (C1 ++ [y1]) ++ C2 := by simp
    rw [this]; exact take_at (by simp [hC])
  simp only [splitChild, t_mk, keys_mk, C_mk, leaf_mk, take_at hK, drop_at hK, h1, h2]
  simp

/-- The two halves of a full well-formed node. -/
theorem split_halves (t m h : Nat) (ht : 1 ≤ t) (y : BTreeNode) (hy : WF t m h y)
    (hn : y.n = 2 * t - 1) :
    WF t (t - 1) h (mk y.t (y.keys.take (t - 1)) (y.C.take t) y.leaf)
    ∧ WF t (t - 1) h (mk y.t ((y.keys.drop t).take (t - 1))
        (if !y.leaf then (y.C.drop t).take t else []) y.leaf)
    ∧ y.traverse = (mk y.t (y.keys.take (t - 1)) (y.C.take t) y.leaf).traverse
        ++ y.key (t - 1) :: (mk y.t ((y.keys.drop t).take (t - 1))
        (if !y.leaf then (y.C.drop t).take t else []) y.leaf).traverse := by
  have hkeys : ∀ keys : List Int, keys.length = 2 * t - 1 →
      keys = keys.take (t - 1) ++ keys.getD (t - 1) 0 :: (keys.drop t).take (t - 1) := by
    intro keys hl
    obtain ⟨A, a, B, rfl, hA⟩ := exists_window keys (t - 1) (by omega)
    have hB : B.length = t - 1 := by simp at hl; omega
    have hd : (A ++ a :: B).drop t = B := by
      have : A ++ a :: B = (A ++ [a]) ++ B := by simp
      rw [this]; exact drop_at (by simp; omega)
    rw [take_at hA, getD_at _ _ hA, hd, ← hB]; simp
  cases hy with
  | leaf _ keys h1 h2 =>
    simp only [n_mk] at hn
    refine ⟨?_, ?_, ?_⟩
    · simp only [t_mk, keys_mk, C_mk, leaf_mk, List.take_nil]
      exact WF.leaf _ _ (by simp; omega) (by simp; omega)
    · simp only [t_mk, keys_mk, C_mk, leaf_mk]
      exact WF.leaf _ _ (by simp; omega) (by simp; omega)
    · simp only [t_mk, keys_mk, C_mk, leaf_mk, key, traverse_mk, List.take_nil,
        traverseLoop_nil_children]
      simpa using hkeys keys hn
  | node _ h keys C h1 h2 h3 h4 =>
    simp only [n_mk] at hn
    refine ⟨?_, ?_, ?_⟩
    · simp only [t_mk, keys_mk, C_mk, leaf_mk]
      exact WF.node _ _ _ _ (by simp; omega) (by simp; omega) (by simp; omega)
        (fun c hc => h4 c (List.mem_of_mem_take hc))
    · simp only [t_mk, keys_mk, C_mk, leaf_mk]
      exact WF.node _ _ _ _ (by simp; omega) (by simp; omega) (by simp; omega)
        (fun c hc => h4 c (List.mem_of_mem_drop (List.mem_of_mem_take (by simpa using hc))))
    · simp only [t_mk, keys_mk, C_mk, leaf_mk, key, traverse_mk]
      have hC : C = C.take t ++ (C.drop t).take t := by
        have : (C.drop t).take t = C.drop t := by
          apply List.take_of_length_le; simp; omega
        rw [this]; simp
      conv_lhs => rw [hkeys keys hn, hC]
      rw [traverseLoop_cut_key _ _ _ _ _ (by simp; omega)]
      simp

end BTreeNode


namespace BTreeNode

theorem WF.node_inv {t m h t1 : Nat} {K : List Int} {C : List BTreeNode} {lf : Bool}
    (hC : C ≠ []) (hx : WF t m h (mk t1 K C lf)) :
    ∃ h1, h = h1 + 1 ∧ t1 = t ∧ lf = false ∧ m ≤ K.length ∧ K.length ≤ 2 * t - 1
      ∧ C.length = K.length + 1 ∧ ∀ c ∈ C, WF t (t - 1) h1 c := by
  cases hx with
  | leaf _ keys h1 h2 => exact absurd rfl hC
  | node _ h keys C h1 h2 h3 h4 => exact ⟨h, rfl, rfl, rfl, h1, h2, h3, h4⟩

theorem WF.replace_child {t m h : Nat} {K : List Int} {C1 C2 : List BTreeNode}
    {c c1 : BTreeNode} (hx : WF t m (h + 1) (mk t K (C1 ++ c :: C2) false))
    (hc : WF t (t - 1) h c1) : WF t m (h + 1) (mk t K (C1 ++ c1 :: C2) false) := by
  obtain ⟨h1, e, -, -, hm, hM, hC, hch⟩ := WF.node_inv (by simp) hx
  obtain rfl : h = h1 := by omega
  refine WF.node _ _ _ _ hm hM (by simpa using hC) ?_
  intro d hd
  rcases List.mem_append.1 hd with hd | hd
  · exact hch d (List.mem_append.2 (Or.inl hd))
  · rcases List.mem_cons.1 hd with rfl | hd
    · exact hc
    · exact hch d (List.mem_append.2 (Or.inr (List.mem_cons_of_mem _ hd)))

theorem child_window (t : Nat) (K : List Int) (C1 C2 : List BTreeNode) (c : BTreeNode)
    (lf : Bool) (i : Nat) (h : C1.length = i) :
    (mk t K (C1 ++ c :: C2) lf).child i = c := by
  simp only [child, C_mk]; exact getD_at _ _ h

theorem child_window_succ (t : Nat) (K : List Int) (C1 C2 : List BTreeNode) (a c : BTreeNode)
    (lf : Bool) (i : Nat) (h : C1.length = i) :
    (mk t K (C1 ++ a :: c :: C2) lf).child (i + 1) = c := by
  have : C1 ++ a :: c :: C2 = (C1 ++ [a]) ++ c :: C2 := by simp
  rw [this]; exact child_window _ _ _ _ _ _ _ (by simp [h])

theorem setChild_window (t : Nat) (K : List Int) (C1 C2 : List BTreeNode) (c c1 : BTreeNode)
    (lf : Bool) (i : Nat) (h : C1.length = i) :
    (mk t K (C1 ++ c :: C2) lf).setChild i c1 = mk t K (C1 ++ c1 :: C2) lf := by
  simp only [setChild, C_mk, t_mk, keys_mk, leaf_mk, set_at _ _ h]

theorem setChild_window_succ (t : Nat) (K : List Int) (C1 C2 : List BTreeNode)
    (a c c1 : BTreeNode) (lf : Bool) (i : Nat) (h : C1.length = i) :
    (mk t K (C1 ++ a :: c :: C2) lf).setChild (i + 1) c1 = mk t K (C1 ++ a :: c1 :: C2) lf := by
  have e1 : C1 ++ a :: c :: C2 = (C1 ++ [a]) ++ c :: C2 := by simp
  have e2 : C1 ++ a :: c1 :: C2 = (C1 ++ [a]) ++ c1 :: C2 := by simp
  rw [e1, e2]; exact setChild_window _ _ _ _ _ _ _ _ (by simp [h])

theorem key_window (t : Nat) (K1 K2 : List Int) (a : Int) (C : List BTreeNode)
    (lf : Bool) (i : Nat) (h : K1.length = i) :
    (mk t (K1 ++ a :: K2) C lf).key i = a := by
  simp only [key, keys_mk]; exact getD_at _ _ h

/-! ## `insertNonFull` -/

theorem insertNonFull_leaf (fuel t : Nat) (keys : List Int) (C : List BTreeNode) (k : Int) :
    insertNonFull (fuel + 1) (mk t keys C true) k
      = mk t (keys.take (scanDown keys k keys.length) ++ k
          :: keys.drop (scanDown keys k keys.length)) C true := by
  simp [insertNonFull]

theorem insertNonFull_internal (fuel t : Nat) (keys : List Int) (C : List BTreeNode) (k : Int) :
    insertNonFull (fuel + 1) (mk t keys C false) k
      = if ((mk t keys C false).child (scanDown keys k keys.length)).n = 2 * t - 1 then
          ((mk t keys C false).splitChild (scanDown keys k keys.length)
              ((mk t keys C false).child (scanDown keys k keys.length))).setChild
            (if ((mk t keys C false).splitChild (scanDown keys k keys.length)
                ((mk t keys C false).child (scanDown keys k keys.length))).key
                  (scanDown keys k keys.length) < k
              then scanDown keys k keys.length + 1 else scanDown keys k keys.length)
            (insertNonFull fuel
              (((mk t keys C false).splitChild (scanDown keys k keys.length)
                ((mk t keys C false).child (scanDown keys k keys.length))).child
                (if ((mk t keys C false).splitChild (scanDown keys k keys.length)
                  ((mk t keys C false).child (scanDown keys k keys.length))).key
                    (scanDown keys k keys.length) < k
                then scanDown keys k keys.length + 1 else scanDown keys k keys.length)) k)
        else
          (mk t keys C false).setChild (scanDown keys k keys.length)
            (insertNonFull fuel ((mk t keys C false).child (scanDown keys k keys.length)) k) := by
  simp [insertNonFull]

theorem insertNonFull_spec (t : Nat) (ht : 2 ≤ t) (k : Int) (fuel : Nat) :
    ∀ (h m : Nat) (x : BTreeNode), WF t m h x → h < fuel → x.n < 2 * t - 1 →
      List.Pairwise (· ≤ ·) x.traverse →
      WF t m h (insertNonFull fuel x k)
      ∧ (insertNonFull fuel x k).traverse.Perm (k :: x.traverse)
      ∧ List.Pairwise (· ≤ ·) (insertNonFull fuel x k).traverse := by
  induction fuel with
  | zero => intro h m x _ hf; omega
  | succ fuel ih =>
    intro h m x hx hf hn hs
    cases hx with
    | leaf _ keys h1 h2 =>
      obtain ⟨K1, K2, rfl, hi, hlast, hgt⟩ := scanDown_window keys k
      have e : insertNonFull (fuel + 1) (mk t (K1 ++ K2) [] true) k
          = mk t (K1 ++ k :: K2) [] true := by
        rw [insertNonFull_leaf, ← hi, take_at rfl, drop_at rfl]
      rw [e]
      simp only [traverse_mk, traverseLoop_nil_children, n_mk] at hs hn ⊢
      refine ⟨WF.leaf _ _ (by simp at h1 ⊢; omega) (by simp at hn ⊢; omega), ?_, ?_⟩
      · exact List.perm_middle
      · have := sorted_replace K1 [] [k] K2 k (by simpa using hs) (by simp)
          (List.Perm.refl _) ?_ ?_
        · simpa using this
        · intro p hp
          obtain ⟨a, ha, hpa⟩ := le_last_of_sorted K1 (List.pairwise_append.1 hs).1 p hp
          have := hlast a ha
          omega
        · intro s hs'
          exact le_of_lt (hgt s hs')
    | node _ h keys C h1 h2 h3 h4 =>
      have hx : WF t m (h + 1) (mk t keys C false) := WF.node _ _ _ _ h1 h2 h3 h4
      obtain ⟨K1, K2, rfl, hi, hlast, hgt⟩ := scanDown_window keys k
      obtain ⟨C1, c, C2, rfl, hC1⟩ := exists_window C K1.length (by simp at h3 ⊢; omega)
      have hC2 : K2.length = C2.length := by simp at h3; omega
      have hK1 : K1.length = C1.length := hC1.symm
      have hc : WF t (t - 1) h c := h4 c (by simp)
      rw [traverse_window _ _ _ _ _ _ hK1 hC2] at hs
      have hsP : List.Pairwise (· ≤ ·) (pre K1 C1) := (List.pairwise_append.1 hs).1
      have hsc : List.Pairwise (· ≤ ·) c.traverse :=
        (List.pairwise_append.1 (List.pairwise_append.1 hs).2.1).1
      have hsS : List.Pairwise (· ≤ ·) (suf K2 C2) :=
        (List.pairwise_append.1 (List.pairwise_append.1 hs).2.1).2.1
      have hP : ∀ p ∈ pre K1 C1, p ≤ k := by
        intro p hp
        obtain ⟨a, ha, hpa⟩ := pre_le_last K1 C1 hK1 hsP p hp
        have := hlast a ha
        omega
      have hS : ∀ s ∈ suf K2 C2, k ≤ s := by
        intro s hs'
        obtain ⟨b, hb, hbs⟩ := suf_ge_head K2 C2 hsS s hs'
        have := hgt b (List.mem_of_mem_head? hb)
        omega
      have hchild : (mk t (K1 ++ K2) (C1 ++ c :: C2) false).child K1.length = c :=
        child_window _ _ _ _ _ _ _ hC1
      by_cases hfull : c.n = 2 * t - 1
      · obtain ⟨y1, z, hsplit, hy1, hz, hn1, hnz, htr⟩ : ∃ y1 z,
            splitChild (mk t (K1 ++ K2) (C1 ++ c :: C2) false) K1.length c
              = mk t (K1 ++ c.key (t - 1) :: K2) (C1 ++ y1 :: z :: C2) false
            ∧ WF t (t - 1) h y1 ∧ WF t (t - 1) h z ∧ y1.n = t - 1 ∧ z.n = t - 1
            ∧ c.traverse = y1.traverse ++ c.key (t - 1) :: z.traverse := by
          obtain ⟨a1, a2, a3⟩ := split_halves t (t - 1) h (by omega) c hc hfull
          refine ⟨_, _, splitChild_window t K1 K2 C1 C2 c false K1.length rfl hC1,
            a1, a2, ?_, ?_, a3⟩
          · simp only [n_mk, List.length_take]
            change min (t - 1) c.n = t - 1
            omega
          · simp only [n_mk, List.length_take, List.length_drop]
            change min (t - 1) (c.n - t) = t - 1
            omega
        rw [htr] at hs hsc
        have hx1 : WF t m (h + 1) (mk t (K1 ++ c.key (t - 1) :: K2) (C1 ++ y1 :: z :: C2) false) := by
          refine WF.node _ _ _ _ (by simp at h1 ⊢; omega) (by simp at hn ⊢; omega)
            (by simp at h3 ⊢; omega) ?_
          intro d hd
          simp only [List.mem_append, List.mem_cons] at hd
          rcases hd with hd | rfl | rfl | hd
          · exact h4 d (by simp [hd])
          · exact hy1
          · exact hz
          · exact h4 d (by simp [hd])
        have hsy : List.Pairwise (· ≤ ·) y1.traverse := (List.pairwise_append.1 hsc).1
        have hsz : List.Pairwise (· ≤ ·) z.traverse :=
          (List.pairwise_cons.1 (List.pairwise_append.1 hsc).2.1).2
        have hkey : (mk t (K1 ++ c.key (t - 1) :: K2) (C1 ++ y1 :: z :: C2) false).key K1.length
            = c.key (t - 1) := by
          simp only [key, keys_mk]; exact getD_at _ _ rfl
        by_cases hlt : c.key (t - 1) < k
        · have hC1' : (C1 ++ [y1]).length = K1.length + 1 := by simp [hC1]
          have e : insertNonFull (fuel + 1) (mk t (K1 ++ K2) (C1 ++ c :: C2) false) k
              = mk t ((K1 ++ [c.key (t - 1)]) ++ K2)
                  ((C1 ++ [y1]) ++ insertNonFull fuel z k :: C2) false := by
            rw [insertNonFull_internal, ← hi]
            simp only [hchild, hfull, if_true, hsplit, hkey, hlt]
            rw [child_window_succ _ _ _ _ _ _ _ _ hC1, setChild_window_succ _ _ _ _ _ _ _ _ _ hC1]
            simp
          rw [e]
          obtain ⟨w1, w2, w3⟩ := ih h (t - 1) z hz (by omega) (by omega) hsz
          have hK1' : (K1 ++ [c.key (t - 1)]).length = (C1 ++ [y1]).length := by simp [hC1]
          have hx1' : WF t m (h + 1) (mk t ((K1 ++ [c.key (t - 1)]) ++ K2)
              ((C1 ++ [y1]) ++ z :: C2) false) := by simpa using hx1
          have hs' : List.Pairwise (· ≤ ·)
              ((pre K1 C1 ++ (y1.traverse ++ [c.key (t - 1)])) ++ (z.traverse ++ suf K2 C2)) := by
            simpa using hs
          have hP' : ∀ p ∈ pre K1 C1 ++ (y1.traverse ++ [c.key (t - 1)]), p ≤ k := by
            intro p hp
            rcases List.mem_append.1 hp with hp | hp
            · exact hP p hp
            · obtain ⟨a, ha, hpa⟩ := le_last_of_sorted _
                (List.pairwise_append.1 (List.pairwise_append.1 hs').1).2.1 p hp
              simp at ha
              omega
          refine ⟨WF.replace_child hx1' w1, ?_, ?_⟩
          · rw [traverse_window _ _ _ _ _ _ hK1' hC2, traverse_window _ _ _ _ _ _ hK1 hC2,
              pre_snoc _ _ _ _ hK1, htr]
            have : List.Perm ((insertNonFull fuel z k).traverse ++ suf K2 C2)
                (k :: (z.traverse ++ suf K2 C2)) := by
              simpa using w2.append_right (suf K2 C2)
            have := (this.append_left (pre K1 C1 ++ (y1.traverse ++ [c.key (t - 1)]))).trans
              List.perm_middle
            simpa using this
          · rw [traverse_window _ _ _ _ _ _ hK1' hC2, pre_snoc _ _ _ _ hK1]
            exact sorted_replace _ _ _ _ k hs' w3 w2 hP' hS
        · have e : insertNonFull (fuel + 1) (mk t (K1 ++ K2) (C1 ++ c :: C2) false) k
              = mk t (K1 ++ c.key (t - 1) :: K2)
                  (C1 ++ insertNonFull fuel y1 k :: z :: C2) false := by
            rw [insertNonFull_internal, ← hi]
            simp only [hchild, hfull, if_true, hsplit, hkey, hlt, if_false]
            rw [child_window _ _ _ _ _ _ _ hC1, setChild_window _ _ _ _ _ _ _ _ hC1]
          rw [e]
          obtain ⟨w1, w2, w3⟩ := ih h (t - 1) y1 hy1 (by omega) (by omega) hsy
          have hC2' : (c.key (t - 1) :: K2).length = (z :: C2).length := by simp [hC2]
          have hs' : List.Pairwise (· ≤ ·)
              (pre K1 C1 ++ (y1.traverse ++ (c.key (t - 1) :: (z.traverse ++ suf K2 C2)))) := by
            simpa using hs
          have hS' : ∀ s ∈ c.key (t - 1) :: (z.traverse ++ suf K2 C2), k ≤ s := by
            intro s hs1
            obtain ⟨b, hb, hbs⟩ := head_le_of_sorted _
              (List.pairwise_append.1 (List.pairwise_append.1 hs').2.1).2.1 s hs1
            simp at hb
            omega
          refine ⟨WF.replace_child hx1 w1, ?_, ?_⟩
          · rw [traverse_window _ _ _ _ _ _ hK1 hC2', traverse_window _ _ _ _ _ _ hK1 hC2, htr]
            have : List.Perm ((insertNonFull fuel y1 k).traverse
                  ++ suf (c.key (t - 1) :: K2) (z :: C2))
                (k :: (y1.traverse ++ suf (c.key (t - 1) :: K2) (z :: C2))) := by
              simpa using w2.append_right (suf (c.key (t - 1) :: K2) (z :: C2))
            have := (this.append_left (pre K1 C1)).trans List.perm_middle
            simpa using this
          · rw [traverse_window _ _ _ _ _ _ hK1 hC2']
            simp only [suf_cons]
            exact sorted_replace _ _ _ _ k hs' w3 w2 hP hS'
      · have e : insertNonFull (fuel + 1) (mk t (K1 ++ K2) (C1 ++ c :: C2) false) k
            = mk t (K1 ++ K2) (C1 ++ insertNonFull fuel c k :: C2) false := by
          rw [insertNonFull_internal, ← hi]
          simp only [hchild, hfull, if_false]
          rw [setChild_window _ _ _ _ _ _ _ _ hC1]
        rw [e]
        obtain ⟨w1, w2, w3⟩ := ih h (t - 1) c hc (by omega)
          (by have := hc.n_le; omega) hsc
        refine ⟨WF.replace_child hx w1, ?_, ?_⟩
        · rw [traverse_window _ _ _ _ _ _ hK1 hC2, traverse_window _ _ _ _ _ _ hK1 hC2]
          have : List.Perm ((insertNonFull fuel c k).traverse ++ suf K2 C2)
              (k :: (c.traverse ++ suf K2 C2)) := by
            simpa using w2.append_right (suf K2 C2)
          exact ((this.append_left (pre K1 C1)).trans List.perm_middle)
        · rw [traverse_window _ _ _ _ _ _ hK1 hC2]
          exact sorted_replace _ _ _ _ k hs w3 w2 hP hS

end BTreeNode


/-! ## `BTree::insert` -/

namespace BTree

open BTreeNode

@[simp] theorem traverse_none (t : Nat) : (BTree.mk none t).traverse = [] := rfl

@[simp] theorem traverse_some (r : BTreeNode) (t : Nat) :
    (BTree.mk (some r) t).traverse = r.traverse := rfl

@[simp] theorem insert_t (b : BTree) (k : Int) : (b.insert k).t = b.t := by
  unfold BTree.insert
  split
  · split <;> rfl
  · split <;> rfl

theorem insert_none (t : Nat) (k : Int) (hT : 2 * t ≤ INT_MAX) :
    (BTree.mk none t).insert k = ⟨some (BTreeNode.mk t [k] [] true), t⟩ := by
  simp [BTree.insert, hT]

theorem insert_none_overflow (t : Nat) (k : Int) (hT : ¬ 2 * t ≤ INT_MAX) :
    (BTree.mk none t).insert k = BTree.mk none t := by
  simp [BTree.insert, hT]

theorem insert_full (t : Nat) (r : BTreeNode) (k : Int) (hfull : r.n = 2 * t - 1) :
    (BTree.mk (some r) t).insert k
      = ⟨some (insertNonFull (r.height + 1) (BTreeNode.mk t [] [r] false) k), t⟩ := by
  rw [insertNonFull_internal]
  simp [BTree.insert, hfull, scanDown, child]

theorem insert_nonfull (t : Nat) (r : BTreeNode) (k : Int) (hfull : ¬ r.n = 2 * t - 1) :
    (BTree.mk (some r) t).insert k = ⟨some (insertNonFull r.height r k), t⟩ := by
  simp [BTree.insert, hfull]

theorem insert_spec (b : BTree) (k : Int) (hb : b.Inv) :
    (b.insert k).Inv
    ∧ (2 * b.t ≤ INT_MAX → (b.insert k).traverse.Perm (k :: b.traverse)) := by
  obtain ⟨root, t⟩ := b
  have hb0 := hb
  obtain ⟨ht, hr⟩ := hb
  simp only at ht hr
  cases root with
  | none =>
    by_cases hT : 2 * t ≤ INT_MAX
    · rw [insert_none _ _ hT]
      refine ⟨⟨ht, ?_⟩, by simp⟩
      intro r hr1
      simp only [Option.some.injEq] at hr1
      subst hr1
      exact ⟨⟨0, WF.leaf _ _ (by simp) (by simp; omega)⟩, by simp⟩
    · rw [insert_none_overflow _ _ hT]
      exact ⟨hb0, fun h => absurd h hT⟩
  | some r =>
    obtain ⟨⟨h, hwf⟩, hs⟩ := hr r rfl
    have hh := hwf.height_eq
    by_cases hfull : r.n = 2 * t - 1
    · rw [insert_full _ _ _ hfull]
      have hws : WF t 0 (h + 1) (BTreeNode.mk t [] [r] false) :=
        WF.node _ _ _ _ (by simp) (by simp) (by simp)
          (fun c hc => by
            simp only [List.mem_singleton] at hc
            subst hc
            exact hwf.mono (by omega))
      have htr : (BTreeNode.mk t [] [r] false).traverse = r.traverse := by
        simp [traverseLoop]
      obtain ⟨w1, w2, w3⟩ := insertNonFull_spec t ht k (r.height + 1) (h + 1) 0 _ hws
        (by omega) (by simp; omega) (by rw [htr]; exact hs)
      have hn : (insertNonFull (r.height + 1) (BTreeNode.mk t [] [r] false) k).n = 1 := by
        rw [insertNonFull_internal]
        simp [scanDown, child, hfull, setChild, splitChild]
      refine ⟨⟨ht, ?_⟩, ?_⟩
      · intro r1 hr1
        simp only [Option.some.injEq] at hr1
        subst hr1
        exact ⟨⟨h + 1, w1.mono (by omega)⟩, w3⟩
      · intro _; simpa [htr] using w2
    · rw [insert_nonfull _ _ _ hfull]
      obtain ⟨w1, w2, w3⟩ := insertNonFull_spec t ht k r.height h 1 r hwf
        (by omega) (by have := hwf.n_le; omega) hs
      refine ⟨⟨ht, ?_⟩, ?_⟩
      · intro r1 hr1
        simp only [Option.some.injEq] at hr1
        subst hr1
        exact ⟨⟨h, w1⟩, w3⟩
      · intro _; simpa using w2

end BTree


/-! ## `search` -/

namespace BTreeNode

theorem searchIdx_eq_findKeyLoop (k : Int) (keys : List Int) :
    searchIdx k keys = findKeyLoop k keys := by
  induction keys with
  | nil => rfl
  | cons a keys ih => simp only [searchIdx, findKeyLoop, ih]

theorem findKeyLoop_window (keys : List Int) (k : Int) :
    ∃ K1 K2, keys = K1 ++ K2 ∧ K1.length = findKeyLoop k keys
      ∧ (∀ a ∈ K1, a < k) ∧ (∀ b, K2.head? = some b → k ≤ b) := by
  induction keys with
  | nil => exact ⟨[], [], by simp [findKeyLoop]⟩
  | cons a keys ih =>
    by_cases hak : a < k
    · obtain ⟨K1, K2, h1, h2, h3, h4⟩ := ih
      refine ⟨a :: K1, K2, by simp [h1], by simp [findKeyLoop, hak, h2], ?_, h4⟩
      intro b hb
      rcases List.mem_cons.1 hb with rfl | hb
      · exact hak
      · exact h3 b hb
    · refine ⟨[], a :: keys, by simp, by simp [findKeyLoop, hak], by simp, ?_⟩
      intro b hb
      simp at hb
      omega

/-- Whether the scan stopped on a key equal to `k`, read on the cut list. -/
theorem found_iff (K1 K2 : List Int) (k : Int) :
    (K1.length < (K1 ++ K2).length ∧ (K1 ++ K2).getD K1.length 0 = k)
      ↔ K2.head? = some k := by
  cases K2 with
  | nil => simp
  | cons b K2 =>
    rw [getD_at b 0 (rfl : K1.length = K1.length)]
    simp

/-- Below the first key that is at least `k` and is not `k`, the keys equal
to `k` all lie in the child at the index where the scan stopped. -/
theorem descent (K1 K2 : List Int) (C1 C2 : List BTreeNode) (c : BTreeNode) (k : Int)
    (hK1 : K1.length = C1.length)
    (hs : List.Pairwise (· ≤ ·) (pre K1 C1 ++ (c.traverse ++ suf K2 C2)))
    (hlt : ∀ a ∈ K1, a < k) (hge : ∀ b, K2.head? = some b → k ≤ b)
    (hne : ¬ K2.head? = some k) :
    k ∉ pre K1 C1 ∧ k ∉ suf K2 C2 := by
  have hsP : List.Pairwise (· ≤ ·) (pre K1 C1) := (List.pairwise_append.1 hs).1
  have hsS : List.Pairwise (· ≤ ·) (suf K2 C2) :=
    (List.pairwise_append.1 (List.pairwise_append.1 hs).2.1).2.1
  constructor
  · intro hk
    obtain ⟨a, ha, hka⟩ := pre_le_last K1 C1 hK1 hsP k hk
    have := hlt a (List.mem_of_mem_getLast? ha)
    omega
  · intro hk
    obtain ⟨b, hb, hbk⟩ := suf_ge_head K2 C2 hsS k hk
    have := hge b hb
    have : b = k := by omega
    exact hne (this ▸ hb)

theorem search_keys (fuel : Nat) :
    ∀ (x y : BTreeNode) (k : Int), search fuel x k = some y → k ∈ y.keys := by
  induction fuel with
  | zero => intro x y k h; simp [search] at h
  | succ fuel ih =>
    intro x y k h
    simp only [search] at h
    split_ifs at h with h1 h2
    · simp only [Option.some.injEq] at h
      subst h
      obtain ⟨h3, h4⟩ := h1
      rw [← h4, key, List.getD_eq_getElem _ _ h3]
      exact List.getElem_mem _
    · exact ih _ _ _ h

theorem search_isSome (t : Nat) (k : Int) (fuel : Nat) :
    ∀ (h m : Nat) (x : BTreeNode), WF t m h x → h < fuel →
      List.Pairwise (· ≤ ·) x.traverse →
      ((search fuel x k).isSome ↔ k ∈ x.traverse) := by
  induction fuel with
  | zero => intro h m x _ hf; omega
  | succ fuel ih =>
    intro h m x hx hf hs
    cases hx with
    | leaf _ keys h1 h2 =>
      obtain ⟨K1, K2, rfl, hi, hlt, hge⟩ := findKeyLoop_window keys k
      simp only [search, keys_mk, n_mk, key, leaf_mk, searchIdx_eq_findKeyLoop, ← hi,
        found_iff, traverse_mk, traverseLoop_nil_children] at hs ⊢
      by_cases hf : K2.head? = some k
      · simp only [hf, if_true, Option.isSome_some, true_iff]
        exact List.mem_append.2 (Or.inr (List.mem_of_mem_head? hf))
      · simp only [hf, if_false, if_true, Option.isSome_none, Bool.false_eq_true, false_iff]
        intro hk
        rcases List.mem_append.1 hk with hk | hk
        · have := hlt k hk; omega
        · obtain ⟨b, hb, hbk⟩ := head_le_of_sorted K2 (List.pairwise_append.1 hs).2.1 k hk
          have := hge b hb
          have : b = k := by omega
          exact hf (this ▸ hb)
    | node _ h keys C h1 h2 h3 h4 =>
      obtain ⟨K1, K2, rfl, hi, hlt, hge⟩ := findKeyLoop_window keys k
      obtain ⟨C1, c, C2, rfl, hC1⟩ := exists_window C K1.length (by simp at h3 ⊢; omega)
      have hC2 : K2.length = C2.length := by simp at h3; omega
      have hK1 : K1.length = C1.length := hC1.symm
      have hc : WF t (t - 1) h c := h4 c (by simp)
      rw [traverse_window _ _ _ _ _ _ hK1 hC2] at hs ⊢
      have hsc : List.Pairwise (· ≤ ·) c.traverse :=
        (List.pairwise_append.1 (List.pairwise_append.1 hs).2.1).1
      simp only [search, keys_mk, n_mk, key, leaf_mk, searchIdx_eq_findKeyLoop, ← hi,
        found_iff]
      by_cases hf : K2.head? = some k
      · simp only [hf, if_true, Option.isSome_some, true_iff]
        cases K2 with
        | nil => simp at hf
        | cons b K2 =>
          cases C2 with
          | nil => simp at hC2
          | cons c2 C2 =>
            simp only [List.head?_cons, Option.some.injEq] at hf
            subst hf
            simp
      · obtain ⟨hkP, hkS⟩ := descent K1 K2 C1 C2 c k hK1 hs hlt hge hf
        simp only [hf, if_false, Bool.false_eq_true]
        rw [child_window _ _ _ _ _ _ _ hC1, ih h (t - 1) c hc (by omega) hsc]
        simp [hkP, hkS]

end BTreeNode


/-! ## `merge`, `borrowFromPrev`, `borrowFromNext` on a node cut at two children -/

namespace BTreeNode

theorem merge_window (t : Nat) (K1 K2 : List Int) (s : Int) (C1 C2 : List BTreeNode)
    (c d : BTreeNode) (lf : Bool) (i : Nat) (hK : K1.length = i) (hC : C1.length = i) :
    merge (mk t (K1 ++ s :: K2) (C1 ++ c :: d :: C2) lf) i
      = mk t (K1 ++ K2)
          (C1 ++ mk c.t (c.keys ++ s :: d.keys) (if !c.leaf then c.C ++ d.C else c.C) c.leaf
            :: C2) lf := by
  have e : ∀ c1 : BTreeNode, (C1 ++ c1 :: d :: C2).eraseIdx (i + 1) = C1 ++ c1 :: C2 := by
    intro c1
    have : C1 ++ c1 :: d :: C2 = (C1 ++ [c1]) ++ d :: C2 := by simp
    rw [this, eraseIdx_at _ (by simp [hC])]; simp
  simp only [merge, child_window _ _ _ _ _ _ _ hC, child_window_succ _ _ _ _ _ _ _ _ hC,
    key_window _ _ _ _ _ _ _ hK, t_mk, keys_mk, C_mk, leaf_mk, eraseIdx_at _ hK,
    set_at _ _ hC, e]

theorem borrowFromPrev_window (t : Nat) (K1 K2 : List Int) (s : Int) (C1 C2 : List BTreeNode)
    (a c : BTreeNode) (lf : Bool) (i : Nat) (hK : K1.length = i) (hC : C1.length = i) :
    borrowFromPrev (mk t (K1 ++ s :: K2) (C1 ++ a :: c :: C2) lf) (i + 1)
      = mk t (K1 ++ a.key (a.n - 1) :: K2)
          (C1 ++ mk a.t (a.keys.take (a.n - 1)) (a.C.take a.n) a.leaf
            :: mk c.t (s :: c.keys) (if !c.leaf then a.child a.n :: c.C else c.C) c.leaf
            :: C2) lf := by
  have e : ∀ c1 : BTreeNode, (C1 ++ a :: c :: C2).set (i + 1) c1 = C1 ++ a :: c1 :: C2 := by
    intro c1
    have : C1 ++ a :: c :: C2 = (C1 ++ [a]) ++ c :: C2 := by simp
    rw [this, set_at _ _ (by simp [hC])]; simp
  simp only [borrowFromPrev, Nat.add_sub_cancel, child_window _ _ _ _ _ _ _ hC,
    child_window_succ _ _ _ _ _ _ _ _ hC, key_window _ _ _ _ _ _ _ hK, t_mk, keys_mk, C_mk,
    leaf_mk, set_at _ _ hK, set_at _ _ hC, e]

theorem borrowFromNext_window (t : Nat) (K1 K2 : List Int) (s : Int) (C1 C2 : List BTreeNode)
    (c d : BTreeNode) (lf : Bool) (i : Nat) (hK : K1.length = i) (hC : C1.length = i) :
    borrowFromNext (mk t (K1 ++ s :: K2) (C1 ++ c :: d :: C2) lf) i
      = mk t (K1 ++ d.key 0 :: K2)
          (C1 ++ mk c.t (c.keys ++ [s]) (if !c.leaf then c.C ++ [d.child 0] else c.C) c.leaf
            :: mk d.t (d.keys.drop 1) (if !d.leaf then d.C.drop 1 else d.C) d.leaf
            :: C2) lf := by
  have e : ∀ c1 d1 : BTreeNode, (C1 ++ c1 :: d :: C2).set (i + 1) d1 = C1 ++ c1 :: d1 :: C2 := by
    intro c1 d1
    have : C1 ++ c1 :: d :: C2 = (C1 ++ [c1]) ++ d :: C2 := by simp
    rw [this, set_at _ _ (by simp [hC])]; simp
  simp only [borrowFromNext, child_window _ _ _ _ _ _ _ hC,
    child_window_succ _ _ _ _ _ _ _ _ hC, key_window _ _ _ _ _ _ _ hK, t_mk, keys_mk, C_mk,
    leaf_mk, set_at _ _ hK, set_at _ _ hC, e]

/-- The node `merge` builds from two siblings of `t-1` keys and their separator. -/
theorem merged_node (t h : Nat) (ht : 1 ≤ t) (c d : BTreeNode) (s : Int)
    (hc : WF t (t - 1) h c) (hd : WF t (t - 1) h d) (hcn : c.n = t - 1) (hdn : d.n = t - 1) :
    WF t t h (mk c.t (c.keys ++ s :: d.keys) (if !c.leaf then c.C ++ d.C else c.C) c.leaf)
    ∧ (mk c.t (c.keys ++ s :: d.keys) (if !c.leaf then c.C ++ d.C else c.C) c.leaf).traverse
        = c.traverse ++ s :: d.traverse := by
  cases hc with
  | leaf _ Kc h1 h2 =>
    cases hd with
    | leaf _ Kd h3 h4 =>
      simp only [n_mk] at hcn hdn
      refine ⟨?_, ?_⟩
      · simp only [t_mk, keys_mk, C_mk, leaf_mk]
        exact WF.leaf _ _ (by simp; omega) (by simp; omega)
      · simp
  | node _ h Kc Cc h1 h2 h3 h4 =>
    cases hd with
    | node _ _ Kd Cd h5 h6 h7 h8 =>
      simp only [n_mk] at hcn hdn
      refine ⟨?_, ?_⟩
      · simp only [t_mk, keys_mk, C_mk, leaf_mk]
        refine WF.node _ _ _ _ (by simp; omega) (by simp; omega) (by simp; omega) ?_
        intro x hx
        simp only [Bool.not_false, if_true, List.mem_append] at hx
        rcases hx with hx | hx
        · exact h4 x hx
        · exact h8 x hx
      · simp only [t_mk, keys_mk, C_mk, leaf_mk, traverse_mk, Bool.not_false, if_true]
        exact traverseLoop_cut_key _ _ _ _ _ h3

/-- The two nodes `borrowFromPrev` rebuilds. -/
theorem borrowed_prev (t h : Nat) (ht : 1 ≤ t) (a c : BTreeNode) (s : Int)
    (ha : WF t (t - 1) h a) (hc : WF t (t - 1) h c) (han : t ≤ a.n) (hcn : c.n = t - 1) :
    WF t (t - 1) h (mk a.t (a.keys.take (a.n - 1)) (a.C.take a.n) a.leaf)
    ∧ WF t t h (mk c.t (s :: c.keys) (if !c.leaf then a.child a.n :: c.C else c.C) c.leaf)
    ∧ (mk a.t (a.keys.take (a.n - 1)) (a.C.take a.n) a.leaf).traverse
        ++ a.key (a.n - 1)
        :: (mk c.t (s :: c.keys) (if !c.leaf then a.child a.n :: c.C else c.C) c.leaf).traverse
        = a.traverse ++ s :: c.traverse
    ∧ ∀ p ∈ (mk a.t (a.keys.take (a.n - 1)) (a.C.take a.n) a.leaf).traverse
        ++ [a.key (a.n - 1)], p ∈ a.traverse := by
  cases ha with
  | leaf _ Ka h1 h2 =>
    cases hc with
    | leaf _ Kc h3 h4 =>
      simp only [n_mk] at hcn han
      obtain ⟨Ka0, l, rfl⟩ : ∃ Ka0 l, Ka = Ka0 ++ [l] := by
        rcases eq_nil_or_snoc Ka with rfl | h
        · simp at han; omega
        · exact h
      have e1 : (Ka0 ++ [l]).take ((Ka0 ++ [l]).length - 1) = Ka0 := by
        apply take_at; simp
      have e2 : (mk t (Ka0 ++ [l]) [] true).key ((Ka0 ++ [l]).length - 1) = l := by
        apply key_window; simp
      simp only [t_mk, keys_mk, C_mk, leaf_mk, n_mk, e1, e2, List.take_nil]
      refine ⟨WF.leaf _ _ (by simp at han; omega) (by simp at h2; omega),
        WF.leaf _ _ (by simp; omega) (by simp; omega), by simp, by simp⟩
  | node _ h Ka Ca h1 h2 h3 h4 =>
    cases hc with
    | node _ _ Kc Cc h5 h6 h7 h8 =>
      simp only [n_mk] at hcn han
      obtain ⟨Ka0, l, rfl⟩ : ∃ Ka0 l, Ka = Ka0 ++ [l] := by
        rcases eq_nil_or_snoc Ka with rfl | h
        · simp at han; omega
        · exact h
      obtain ⟨Ca0, cl, rfl⟩ : ∃ Ca0 cl, Ca = Ca0 ++ [cl] := by
        rcases eq_nil_or_snoc Ca with rfl | h
        · simp at h3
        · exact h
      have hl : Ca0.length = Ka0.length + 1 := by simpa using h3
      have e1 : (Ka0 ++ [l]).take ((Ka0 ++ [l]).length - 1) = Ka0 := by
        apply take_at; simp
      have e2 : ∀ D lf, (mk t (Ka0 ++ [l]) D lf).key ((Ka0 ++ [l]).length - 1) = l := by
        intro D lf; apply key_window; simp
      have e3 : (Ca0 ++ [cl]).take (Ka0 ++ [l]).length = Ca0 := by
        apply take_at; simp [hl]
      have e4 : (mk t (Ka0 ++ [l]) (Ca0 ++ [cl]) false).child (Ka0 ++ [l]).length = cl := by
        apply child_window; simp [hl]
      simp only [t_mk, keys_mk, C_mk, leaf_mk, n_mk, e1, e2, e3, e4, Bool.not_false, if_true]
      refine ⟨?_, ?_, ?_, ?_⟩
      · refine WF.node _ _ _ _ (by simp at han; omega) (by simp at h2; omega) hl ?_
        intro x hx
        exact h4 x (List.mem_append.2 (Or.inl hx))
      · refine WF.node _ _ _ _ (by simp; omega) (by simp; omega) (by simp; omega) ?_
        intro x hx
        rcases List.mem_cons.1 hx with rfl | hx
        · exact h4 x (by simp)
        · exact h8 x hx
      · simp only [traverse_mk]
        rw [traverseLoop_cut_key Ka0 [] l Ca0 [cl] hl]
        simp [traverseLoop]
      · simp only [traverse_mk]
        rw [traverseLoop_cut_key Ka0 [] l Ca0 [cl] hl]
        intro p hp
        simp only [List.mem_append, List.mem_singleton, List.mem_cons] at hp ⊢
        tauto

/-- The two nodes `borrowFromNext` rebuilds. -/
theorem borrowed_next (t h : Nat) (ht : 1 ≤ t) (c d : BTreeNode) (s : Int)
    (hc : WF t (t - 1) h c) (hd : WF t (t - 1) h d) (hcn : c.n = t - 1) (hdn : t ≤ d.n) :
    WF t t h (mk c.t (c.keys ++ [s]) (if !c.leaf then c.C ++ [d.child 0] else c.C) c.leaf)
    ∧ WF t (t - 1) h (mk d.t (d.keys.drop 1) (if !d.leaf then d.C.drop 1 else d.C) d.leaf)
    ∧ (mk c.t (c.keys ++ [s]) (if !c.leaf then c.C ++ [d.child 0] else c.C) c.leaf).traverse
        ++ d.key 0
        :: (mk d.t (d.keys.drop 1) (if !d.leaf then d.C.drop 1 else d.C) d.leaf).traverse
        = c.traverse ++ s :: d.traverse
    ∧ ∀ p ∈ d.key 0
        :: (mk d.t (d.keys.drop 1) (if !d.leaf then d.C.drop 1 else d.C) d.leaf).traverse,
        p ∈ d.traverse := by
  cases hc with
  | leaf _ Kc h1 h2 =>
    cases hd with
    | leaf _ Kd h3 h4 =>
      simp only [n_mk] at hcn hdn
      obtain ⟨f, Kd0, rfl⟩ : ∃ f Kd0, Kd = f :: Kd0 := by
        cases Kd with
        | nil => simp at hdn; omega
        | cons f Kd0 => exact ⟨f, Kd0, rfl⟩
      simp only [t_mk, keys_mk, C_mk, leaf_mk, key, List.drop_one, List.tail_cons,
        List.getD_cons_zero]
      refine ⟨WF.leaf _ _ (by simp; omega) (by simp; omega),
        WF.leaf _ _ (by simp at hdn; omega) (by simp at h4; omega), by simp, by simp⟩
  | node _ h Kc Cc h1 h2 h3 h4 =>
    cases hd with
    | node _ _ Kd Cd h5 h6 h7 h8 =>
      simp only [n_mk] at hcn hdn
      obtain ⟨f, Kd0, rfl⟩ : ∃ f Kd0, Kd = f :: Kd0 := by
        cases Kd with
        | nil => simp at hdn; omega
        | cons f Kd0 => exact ⟨f, Kd0, rfl⟩
      obtain ⟨d0, Cd0, rfl⟩ : ∃ d0 Cd0, Cd = d0 :: Cd0 := by
        cases Cd with
        | nil => simp at h7
        | cons d0 Cd0 => exact ⟨d0, Cd0, rfl⟩
      simp only [t_mk, keys_mk, C_mk, leaf_mk, key, child, List.drop_one, List.tail_cons,
        List.getD_cons_zero, Bool.not_false, if_true]
      refine ⟨?_, ?_, ?_, ?_⟩
      · refine WF.node _ _ _ _ (by simp; omega) (by simp; omega) (by simp; omega) ?_
        intro x hx
        rcases List.mem_append.1 hx with hx | hx
        · exact h4 x hx
        · simp only [List.mem_singleton] at hx
          subst hx
          exact h8 _ (by simp)
      · refine WF.node _ _ _ _ (by simp at hdn; omega) (by simp at h6; omega)
          (by simp at h7; omega) ?_
        intro x hx
        exact h8 x (List.mem_cons_of_mem _ hx)
      · simp only [traverse_mk]
        rw [traverseLoop_cut_key Kc [] s Cc [d0] h3]
        simp [traverseLoop]
      · intro p hp
        simp only [traverse_mk, traverseLoop, Bool.not_false, if_true, List.mem_append,
          List.mem_cons] at hp ⊢
        tauto

end BTreeNode


/-! ## Erasing from a sorted list -/

section EraseAux

theorem erase_max_append (T : List Int) (a : Int) (hs : List.Pairwise (· ≤ ·) T)
    (hmax : ∀ x ∈ T, x ≤ a) (hmem : a ∈ T) : T.erase a ++ [a] = T := by
  refine List.eq_of_perm_of_sorted (r := (· ≤ ·)) ?_ ?_ hs
  · exact (List.perm_append_comm.trans (List.perm_cons_erase hmem).symm)
  · refine List.pairwise_append.2 ⟨hs.sublist (List.erase_sublist a T), by simp, ?_⟩
    intro x hx y hy
    simp only [List.mem_singleton] at hy
    subst hy
    exact hmax x (List.mem_of_mem_erase hx)

theorem erase_sep (T R : List Int) (k : Int) (hs : List.Pairwise (· ≤ ·) (T ++ k :: R)) :
    (T ++ k :: R).erase k = T ++ R := by
  by_cases hk : k ∈ T
  · rw [List.erase_append_left _ hk]
    have h1 := List.pairwise_append.1 hs
    have := erase_max_append T k h1.1 (fun x hx => h1.2.2 x hx k (by simp)) hk
    calc T.erase k ++ k :: R = (T.erase k ++ [k]) ++ R := by simp
      _ = T ++ R := by rw [this]
  · rw [List.erase_append_right _ hk]
    simp

theorem erase_mid (P X S : List Int) (k : Int) (hP : k ∉ P) (hS : k ∉ X → k ∉ S) :
    (P ++ (X ++ S)).erase k = P ++ (X.erase k ++ S) := by
  rw [List.erase_append_right _ hP]
  by_cases hk : k ∈ X
  · rw [List.erase_append_left _ hk]
  · rw [List.erase_append_right _ hk, List.erase_of_not_mem (hS hk),
      List.erase_of_not_mem hk]

end EraseAux

namespace BTreeNode

/-! ## `getPred` and `getSucc` -/

theorem lastKey_spec (t : Nat) (ht : 2 ≤ t) (fuel : Nat) :
    ∀ (h m : Nat) (x : BTreeNode), WF t m h x → 1 ≤ m → h ≤ fuel →
      ∃ T0, x.traverse = T0 ++ [lastKey fuel x] := by
  induction fuel with
  | zero =>
    intro h m x hx hm hf
    cases hx with
    | leaf _ keys h1 h2 =>
      rcases eq_nil_or_snoc keys with rfl | ⟨K0, l, rfl⟩
      · simp at h1; omega
      · refine ⟨K0, ?_⟩
        have : (mk t (K0 ++ [l]) [] true).key K0.length = l := key_window _ _ _ _ _ _ _ rfl
        simp [lastKey, this]
    | node _ h keys C h1 h2 h3 h4 => omega
  | succ fuel ih =>
    intro h m x hx hm hf
    cases hx with
    | leaf _ keys h1 h2 =>
      rcases eq_nil_or_snoc keys with rfl | ⟨K0, l, rfl⟩
      · simp at h1; omega
      · refine ⟨K0, ?_⟩
        have : (mk t (K0 ++ [l]) [] true).key K0.length = l := key_window _ _ _ _ _ _ _ rfl
        simp [lastKey, this]
    | node _ h keys C h1 h2 h3 h4 =>
      obtain ⟨C0, cl, rfl⟩ : ∃ C0 cl, C = C0 ++ [cl] := by
        rcases eq_nil_or_snoc C with rfl | h
        · simp at h3
        · exact h
      have hl : C0.length = keys.length := by simpa using h3
      obtain ⟨T0, hT0⟩ := ih h (t - 1) cl (h4 cl (by simp)) (by omega) (by omega)
      refine ⟨pre keys C0 ++ T0, ?_⟩
      have e : (mk t keys (C0 ++ [cl]) false).child keys.length = cl :=
        child_window _ _ _ _ _ _ _ hl
      have := traverse_window t keys [] C0 [] cl hl.symm rfl
      simp only [List.append_nil, suf_nil_left] at this
      simp only [lastKey, leaf_mk, Bool.not_false, if_true, n_mk, e, this, hT0]
      simp

theorem firstKey_spec (t : Nat) (ht : 2 ≤ t) (fuel : Nat) :
    ∀ (h m : Nat) (x : BTreeNode), WF t m h x → 1 ≤ m → h ≤ fuel →
      ∃ T0, x.traverse = firstKey fuel x :: T0 := by
  induction fuel with
  | zero =>
    intro h m x hx hm hf
    cases hx with
    | leaf _ keys h1 h2 =>
      cases keys with
      | nil => simp at h1; omega
      | cons f K0 => exact ⟨K0, by simp [firstKey, key]⟩
    | node _ h keys C h1 h2 h3 h4 => omega
  | succ fuel ih =>
    intro h m x hx hm hf
    cases hx with
    | leaf _ keys h1 h2 =>
      cases keys with
      | nil => simp at h1; omega
      | cons f K0 => exact ⟨K0, by simp [firstKey, key]⟩
    | node _ h keys C h1 h2 h3 h4 =>
      cases C with
      | nil => simp at h3
      | cons c0 C0 =>
        have hl : keys.length = C0.length := by simpa using h3.symm
        obtain ⟨T0, hT0⟩ := ih h (t - 1) c0 (h4 c0 (by simp)) (by omega) (by omega)
        refine ⟨T0 ++ suf keys C0, ?_⟩
        simp only [firstKey, leaf_mk, Bool.not_false, if_true, child, C_mk,
          List.getD_cons_zero, traverse_mk, traverseLoop_internal _ _ _ hl, hT0]
        simp

end BTreeNode


/-! ## `remove`: unfolding -/

namespace BTreeNode

theorem remove_leaf (fuel t : Nat) (K1 K2 : List Int) (C : List BTreeNode) (k : Int)
    (hi : K1.length = findKeyLoop k (K1 ++ K2)) :
    remove (fuel + 1) (mk t (K1 ++ K2) C true) k
      = if K2.head? = some k then mk t ((K1 ++ K2).eraseIdx K1.length) C true
        else mk t (K1 ++ K2) C true := by
  rw [remove]
  simp only [findKey, keys_mk, ← hi, n_mk, key, found_iff, leaf_mk, if_true, removeFromLeaf,
    t_mk, C_mk]

theorem remove_found (fuel t : Nat) (K1 K2 : List Int) (C : List BTreeNode) (k : Int)
    (hi : K1.length = findKeyLoop k (K1 ++ K2)) (hf : K2.head? = some k) :
    remove (fuel + 1) (mk t (K1 ++ K2) C false) k
      = removeFromNonLeaf (remove fuel) fuel (mk t (K1 ++ K2) C false) K1.length := by
  rw [remove]
  simp only [findKey, keys_mk, ← hi, n_mk, key, found_iff, leaf_mk, hf, if_true]
  simp

end BTreeNode


/-! ## `remove`: descent into a child -/

namespace BTreeNode

theorem fill_prev (t : Nat) (K1 K2 : List Int) (s : Int) (C1 C2 : List BTreeNode)
    (a c : BTreeNode) (lf : Bool) (i : Nat) (hC : C1.length = i) (ha : t ≤ a.n) :
    fill (mk t (K1 ++ s :: K2) (C1 ++ a :: c :: C2) lf) (i + 1)
      = borrowFromPrev (mk t (K1 ++ s :: K2) (C1 ++ a :: c :: C2) lf) (i + 1) := by
  simp only [fill, Nat.add_sub_cancel, child_window _ _ _ _ _ _ _ hC, t_mk]
  simp [ha]

theorem fill_next (t : Nat) (K1 K2 : List Int) (s : Int) (C1 C2 : List BTreeNode)
    (c d : BTreeNode) (lf : Bool) (i : Nat) (hK : K1.length = i) (hC : C1.length = i)
    (hA : ¬ (i ≠ 0 ∧ t ≤ ((mk t (K1 ++ s :: K2) (C1 ++ c :: d :: C2) lf).child (i - 1)).n))
    (hd : t ≤ d.n) :
    fill (mk t (K1 ++ s :: K2) (C1 ++ c :: d :: C2) lf) i
      = borrowFromNext (mk t (K1 ++ s :: K2) (C1 ++ c :: d :: C2) lf) i := by
  simp only [fill, t_mk, ge_iff_le, hA, if_false, child_window_succ _ _ _ _ _ _ _ _ hC, hd,
    and_true, n_mk]
  rw [if_pos]
  simp; omega

theorem fill_merge_right (t : Nat) (K1 K2 : List Int) (s : Int) (C1 C2 : List BTreeNode)
    (c d : BTreeNode) (lf : Bool) (i : Nat) (hK : K1.length = i) (hC : C1.length = i)
    (hA : ¬ (i ≠ 0 ∧ t ≤ ((mk t (K1 ++ s :: K2) (C1 ++ c :: d :: C2) lf).child (i - 1)).n))
    (hd : ¬ t ≤ d.n) :
    fill (mk t (K1 ++ s :: K2) (C1 ++ c :: d :: C2) lf) i
      = merge (mk t (K1 ++ s :: K2) (C1 ++ c :: d :: C2) lf) i := by
  simp only [fill, t_mk, ge_iff_le, hA, if_false, child_window_succ _ _ _ _ _ _ _ _ hC, hd,
    and_false, n_mk]
  rw [if_pos]
  simp; omega

theorem fill_merge_left (t : Nat) (K1 : List Int) (s : Int) (C1 : List BTreeNode)
    (a c : BTreeNode) (lf : Bool) (i : Nat) (hK : K1.length = i) (hC : C1.length = i)
    (ha : ¬ t ≤ a.n) :
    fill (mk t (K1 ++ [s]) (C1 ++ [a, c]) lf) (i + 1)
      = merge (mk t (K1 ++ [s]) (C1 ++ [a, c]) lf) i := by
  simp only [fill, t_mk, ge_iff_le, Nat.add_sub_cancel, child_window _ _ _ _ _ _ _ hC, ha,
    and_false, if_false, n_mk]
  simp [hK]

theorem descend_finish (t m h fuel : Nat) (k : Int) (ht : 2 ≤ t) (ih : RemoveOK t k fuel)
    (hf : h < fuel)
    (K1 K2 : List Int) (C1 C2 : List BTreeNode) (c : BTreeNode)
    (hx : WF t m (h + 1) (mk t (K1 ++ K2) (C1 ++ c :: C2) false)) (hcn : t ≤ c.n)
    (hK1 : K1.length = C1.length)
    (hs : List.Pairwise (· ≤ ·) (pre K1 C1 ++ (c.traverse ++ suf K2 C2)))
    (hkP : k ∉ pre K1 C1) (hkS : k ∉ c.traverse → k ∉ suf K2 C2) :
    WF t m (h + 1) (mk t (K1 ++ K2) (C1 ++ remove fuel c k :: C2) false)
    ∧ (mk t (K1 ++ K2) (C1 ++ remove fuel c k :: C2) false).traverse
        = (pre K1 C1 ++ (c.traverse ++ suf K2 C2)).erase k := by
  obtain ⟨h1, e, -, -, hmK, hMK, hCl, hch⟩ := WF.node_inv (by simp) hx
  obtain rfl : h = h1 := by omega
  have hC2 : K2.length = C2.length := by simp at hCl; omega
  have hc : WF t t h c := (hch c (by simp)).mono hcn
  have hsc : List.Pairwise (· ≤ ·) c.traverse :=
    (List.pairwise_append.1 (List.pairwise_append.1 hs).2.1).1
  obtain ⟨w1, w2⟩ := ih h t c hc (by omega) hf hsc
  refine ⟨WF.replace_child hx w1, ?_⟩
  rw [traverse_window _ _ _ _ _ _ hK1 hC2, w2, erase_mid _ _ _ _ hkP hkS]

end BTreeNode


namespace BTreeNode

theorem remove_notfound_idx (fuel t : Nat) (keys : List Int) (C : List BTreeNode) (k : Int)
    (idx : Nat) (hidx : idx = findKeyLoop k keys)
    (hnf : ¬ (idx < keys.length ∧ keys.getD idx 0 = k)) :
    remove (fuel + 1) (mk t keys C false) k
      = if idx = keys.length ∧ idx >
            (if ((mk t keys C false).child idx).n < t
              then (mk t keys C false).fill idx else mk t keys C false).n
        then (if ((mk t keys C false).child idx).n < t
              then (mk t keys C false).fill idx
              else mk t keys C false).setChild (idx - 1)
            (remove fuel ((if ((mk t keys C false).child idx).n < t
              then (mk t keys C false).fill idx
              else mk t keys C false).child (idx - 1)) k)
        else (if ((mk t keys C false).child idx).n < t
              then (mk t keys C false).fill idx
              else mk t keys C false).setChild idx
            (remove fuel ((if ((mk t keys C false).child idx).n < t
              then (mk t keys C false).fill idx
              else mk t keys C false).child idx) k) := by
  rw [remove]
  simp only [findKey, keys_mk, ← hidx, n_mk, key, leaf_mk, hnf, if_false, t_mk]
  simp

/-- Descent without `fill`: the child already holds `t` keys. -/
theorem descend_plain (t m h fuel : Nat) (k : Int) (ht : 2 ≤ t) (ih : RemoveOK t k fuel)
    (hf : h < fuel) (K1 K2 : List Int) (C1 C2 : List BTreeNode) (c : BTreeNode)
    (hx : WF t m (h + 1) (mk t (K1 ++ K2) (C1 ++ c :: C2) false))
    (hC : C1.length = K1.length)
    (hidx : K1.length = findKeyLoop k (K1 ++ K2))
    (hnf : ¬ (K1.length < (K1 ++ K2).length ∧ (K1 ++ K2).getD K1.length 0 = k))
    (hcn : ¬ c.n < t)
    (hs : List.Pairwise (· ≤ ·) (mk t (K1 ++ K2) (C1 ++ c :: C2) false).traverse)
    (hkP : k ∉ pre K1 C1) (hkS : k ∉ suf K2 C2) :
    WF t m (h + 1) (remove (fuel + 1) (mk t (K1 ++ K2) (C1 ++ c :: C2) false) k)
    ∧ (remove (fuel + 1) (mk t (K1 ++ K2) (C1 ++ c :: C2) false) k).traverse
        = (mk t (K1 ++ K2) (C1 ++ c :: C2) false).traverse.erase k := by
  obtain ⟨h1, e, -, -, hmK, hMK, hCl, hch⟩ := WF.node_inv (by simp) hx
  have hC2 : K2.length = C2.length := by simp at hCl; omega
  rw [remove_notfound_idx _ _ _ _ _ _ hidx hnf, child_window _ _ _ _ _ _ _ hC]
  simp only [hcn, if_false, n_mk]
  rw [if_neg (by omega), child_window _ _ _ _ _ _ _ hC, setChild_window _ _ _ _ _ _ _ _ hC]
  have htr := traverse_window t K1 K2 C1 C2 c hC.symm hC2
  rw [htr] at hs ⊢
  exact descend_finish t m h fuel k ht ih hf K1 K2 C1 C2 c hx (by omega) hC.symm hs hkP
    (fun _ => hkS)

/-- Descent after `borrowFromPrev`. -/
theorem descend_prev (t m h fuel : Nat) (k : Int) (ht : 2 ≤ t) (ih : RemoveOK t k fuel)
    (hf : h < fuel) (K1 K2 : List Int) (s : Int) (C1 C2 : List BTreeNode) (a c : BTreeNode)
    (hx : WF t m (h + 1) (mk t (K1 ++ s :: K2) (C1 ++ a :: c :: C2) false))
    (hC : C1.length = K1.length)
    (hidx : K1.length + 1 = findKeyLoop k (K1 ++ s :: K2))
    (hnf : ¬ (K1.length + 1 < (K1 ++ s :: K2).length
      ∧ (K1 ++ s :: K2).getD (K1.length + 1) 0 = k))
    (hcn : c.n < t) (han : t ≤ a.n)
    (hs : List.Pairwise (· ≤ ·) (mk t (K1 ++ s :: K2) (C1 ++ a :: c :: C2) false).traverse)
    (hkP : k ∉ pre K1 C1 ++ (a.traverse ++ [s])) (hkS : k ∉ suf K2 C2) :
    WF t m (h + 1) (remove (fuel + 1) (mk t (K1 ++ s :: K2) (C1 ++ a :: c :: C2) false) k)
    ∧ (remove (fuel + 1) (mk t (K1 ++ s :: K2) (C1 ++ a :: c :: C2) false) k).traverse
        = (mk t (K1 ++ s :: K2) (C1 ++ a :: c :: C2) false).traverse.erase k := by
  obtain ⟨h1, e, -, -, hmK, hMK, hCl, hch⟩ := WF.node_inv (by simp) hx
  obtain rfl : h = h1 := by omega
  have hC2 : K2.length = C2.length := by simp at hCl; omega
  have ha : WF t (t - 1) h a := hch a (by simp)
  have hc : WF t (t - 1) h c := hch c (by simp)
  obtain ⟨b1, b2, b3, b4⟩ := borrowed_prev t h (by omega) a c s ha hc han
    (by have := hc.le_n; omega)
  rw [remove_notfound_idx _ _ _ _ _ _ hidx hnf, child_window_succ _ _ _ _ _ _ _ _ hC]
  simp only [hcn, if_true]
  rw [fill_prev _ _ _ _ _ _ _ _ _ _ hC han, borrowFromPrev_window _ _ _ _ _ _ _ _ _ _ rfl hC]
  simp only [n_mk]
  rw [if_neg (by simp), child_window_succ _ _ _ _ _ _ _ _ hC,
    setChild_window_succ _ _ _ _ _ _ _ _ _ hC]
  have hK' : (K1 ++ [a.key (a.n - 1)]).length
      = (C1 ++ [mk a.t (a.keys.take (a.n - 1)) (a.C.take a.n) a.leaf]).length := by
    simp [hC]
  have hx1 : WF t m (h + 1) (mk t ((K1 ++ [a.key (a.n - 1)]) ++ K2)
      ((C1 ++ [mk a.t (a.keys.take (a.n - 1)) (a.C.take a.n) a.leaf])
        ++ mk c.t (s :: c.keys) (if !c.leaf then a.child a.n :: c.C else c.C) c.leaf
        :: C2) false) := by
    refine WF.node _ _ _ _ (by simp at hmK ⊢; omega) (by simp at hMK ⊢; omega)
      (by simp at hCl ⊢; omega) ?_
    intro x hx'
    simp only [List.mem_append, List.mem_cons, List.mem_singleton, List.not_mem_nil,
      or_false] at hx'
    rcases hx' with (hx' | rfl) | rfl | hx'
    · exact hch x (by simp [hx'])
    · exact b1
    · exact b2.mono (by have := b2.le_n; omega)
    · exact hch x (by simp [hx'])
  have htr : pre (K1 ++ [a.key (a.n - 1)])
        (C1 ++ [mk a.t (a.keys.take (a.n - 1)) (a.C.take a.n) a.leaf])
      ++ ((mk c.t (s :: c.keys) (if !c.leaf then a.child a.n :: c.C else c.C) c.leaf).traverse
        ++ suf K2 C2)
      = (mk t (K1 ++ s :: K2) (C1 ++ a :: c :: C2) false).traverse := by
    rw [traverse_window t K1 (s :: K2) C1 (c :: C2) a hC.symm (by simp [hC2]),
      pre_snoc _ _ _ _ hC.symm, suf_cons]
    have := congrArg (· ++ suf K2 C2) b3
    simp only [List.append_assoc, List.cons_append] at this
    simp only [List.append_assoc, List.singleton_append, this]
  have := descend_finish t m h fuel k ht ih hf _ K2 _ C2 _ hx1 b2.le_n hK'
    (by rw [htr]; exact hs)
    (by
      rw [pre_snoc _ _ _ _ hC.symm]
      intro hk
      apply hkP
      rcases List.mem_append.1 hk with hk | hk
      · exact List.mem_append.2 (Or.inl hk)
      · exact List.mem_append.2 (Or.inr (List.mem_append.2 (Or.inl (b4 k hk)))))
    (fun _ => hkS)
  rw [htr] at this
  simpa using this

/-- Descent after `borrowFromNext`. -/
theorem descend_next (t m h fuel : Nat) (k : Int) (ht : 2 ≤ t) (ih : RemoveOK t k fuel)
    (hf : h < fuel) (K1 K2 : List Int) (s : Int) (C1 C2 : List BTreeNode) (c d : BTreeNode)
    (hx : WF t m (h + 1) (mk t (K1 ++ s :: K2) (C1 ++ c :: d :: C2) false))
    (hC : C1.length = K1.length)
    (hidx : K1.length = findKeyLoop k (K1 ++ s :: K2))
    (hnf : ¬ (K1.length < (K1 ++ s :: K2).length
      ∧ (K1 ++ s :: K2).getD K1.length 0 = k))
    (hcn : c.n < t)
    (hA : ¬ (K1.length ≠ 0
      ∧ t ≤ ((mk t (K1 ++ s :: K2) (C1 ++ c :: d :: C2) false).child (K1.length - 1)).n))
    (hdn : t ≤ d.n)
    (hs : List.Pairwise (· ≤ ·) (mk t (K1 ++ s :: K2) (C1 ++ c :: d :: C2) false).traverse)
    (hkP : k ∉ pre K1 C1) (hkS : k ∉ s :: (d.traverse ++ suf K2 C2)) :
    WF t m (h + 1) (remove (fuel + 1) (mk t (K1 ++ s :: K2) (C1 ++ c :: d :: C2) false) k)
    ∧ (remove (fuel + 1) (mk t (K1 ++ s :: K2) (C1 ++ c :: d :: C2) false) k).traverse
        = (mk t (K1 ++ s :: K2) (C1 ++ c :: d :: C2) false).traverse.erase k := by
  obtain ⟨h1, e, -, -, hmK, hMK, hCl, hch⟩ := WF.node_inv (by simp) hx
  obtain rfl : h = h1 := by omega
  have hC2 : K2.length = C2.length := by simp at hCl; omega
  have hc : WF t (t - 1) h c := hch c (by simp)
  have hd : WF t (t - 1) h d := hch d (by simp)
  obtain ⟨b1, b2, b3, b4⟩ := borrowed_next t h (by omega) c d s hc hd
    (by have := hc.le_n; omega) hdn
  rw [remove_notfound_idx _ _ _ _ _ _ hidx hnf, child_window _ _ _ _ _ _ _ hC]
  simp only [hcn, if_true]
  rw [fill_next _ _ _ _ _ _ _ _ _ _ rfl hC hA hdn,
    borrowFromNext_window _ _ _ _ _ _ _ _ _ _ rfl hC]
  simp only [n_mk]
  rw [if_neg (by simp), child_window _ _ _ _ _ _ _ hC, setChild_window _ _ _ _ _ _ _ _ hC]
  have hx1 : WF t m (h + 1) (mk t (K1 ++ d.key 0 :: K2)
      (C1 ++ mk c.t (c.keys ++ [s]) (if !c.leaf then c.C ++ [d.child 0] else c.C) c.leaf
        :: mk d.t (d.keys.drop 1) (if !d.leaf then d.C.drop 1 else d.C) d.leaf
        :: C2) false) := by
    refine WF.node _ _ _ _ (by simp at hmK ⊢; omega) (by simp at hMK ⊢; omega)
      (by simp at hCl ⊢; omega) ?_
    intro x hx'
    simp only [List.mem_append, List.mem_cons] at hx'
    rcases hx' with hx' | rfl | rfl | hx'
    · exact hch x (by simp [hx'])
    · exact b1.mono (by have := b1.le_n; omega)
    · exact b2
    · exact hch x (by simp [hx'])
  have htr : pre K1 C1
      ++ ((mk c.t (c.keys ++ [s]) (if !c.leaf then c.C ++ [d.child 0] else c.C)
            c.leaf).traverse
        ++ suf (d.key 0 :: K2)
            (mk d.t (d.keys.drop 1) (if !d.leaf then d.C.drop 1 else d.C) d.leaf :: C2))
      = (mk t (K1 ++ s :: K2) (C1 ++ c :: d :: C2) false).traverse := by
    rw [traverse_window t K1 (s :: K2) C1 (d :: C2) c hC.symm (by simp [hC2]), suf_cons,
      suf_cons]
    have := congrArg (· ++ suf K2 C2) b3
    simp only [List.append_assoc, List.cons_append] at this
    simp only [List.append_assoc, List.singleton_append, this]
  have := descend_finish t m h fuel k ht ih hf K1 (d.key 0 :: K2) C1 _ _ hx1 b1.le_n hC.symm
    (by rw [htr]; exact hs) hkP
    (by
      rw [suf_cons]
      intro _ hk
      apply hkS
      have hk' : k ∈ (d.key 0 :: (mk d.t (d.keys.drop 1)
          (if !d.leaf then d.C.drop 1 else d.C) d.leaf).traverse) ++ suf K2 C2 := by
        simpa using hk
      rcases List.mem_append.1 hk' with hk' | hk'
      · exact List.mem_cons_of_mem _ (List.mem_append.2 (Or.inl (b4 k hk')))
      · exact List.mem_cons_of_mem _ (List.mem_append.2 (Or.inr hk')))
  rw [htr] at this
  exact this

/-- Descent after `merge` with the right sibling. -/
theorem descend_merge_right (t m h fuel : Nat) (k : Int) (ht : 2 ≤ t)
    (ih : RemoveOK t k fuel)
    (hf : h < fuel) (K1 K2 : List Int) (s : Int) (C1 C2 : List BTreeNode) (c d : BTreeNode)
    (hx : WF t m (h + 1) (mk t (K1 ++ s :: K2) (C1 ++ c :: d :: C2) false))
    (hC : C1.length = K1.length)
    (hidx : K1.length = findKeyLoop k (K1 ++ s :: K2))
    (hnf : ¬ (K1.length < (K1 ++ s :: K2).length
      ∧ (K1 ++ s :: K2).getD K1.length 0 = k))
    (hcn : c.n < t)
    (hA : ¬ (K1.length ≠ 0
      ∧ t ≤ ((mk t (K1 ++ s :: K2) (C1 ++ c :: d :: C2) false).child (K1.length - 1)).n))
    (hdn : ¬ t ≤ d.n)
    (hs : List.Pairwise (· ≤ ·) (mk t (K1 ++ s :: K2) (C1 ++ c :: d :: C2) false).traverse)
    (hkP : k ∉ pre K1 C1) (hkS : k ∉ s :: (d.traverse ++ suf K2 C2)) :
    WF t (m - 1) (h + 1)
      (remove (fuel + 1) (mk t (K1 ++ s :: K2) (C1 ++ c :: d :: C2) false) k)
    ∧ (remove (fuel + 1) (mk t (K1 ++ s :: K2) (C1 ++ c :: d :: C2) false) k).traverse
        = (mk t (K1 ++ s :: K2) (C1 ++ c :: d :: C2) false).traverse.erase k := by
  obtain ⟨h1, e, -, -, hmK, hMK, hCl, hch⟩ := WF.node_inv (by simp) hx
  obtain rfl : h = h1 := by omega
  have hC2 : K2.length = C2.length := by simp at hCl; omega
  have hc : WF t (t - 1) h c := hch c (by simp)
  have hd : WF t (t - 1) h d := hch d (by simp)
  obtain ⟨b1, b2⟩ := merged_node t h (by omega) c d s hc hd
    (by have := hc.le_n; omega) (by have := hd.le_n; omega)
  rw [remove_notfound_idx _ _ _ _ _ _ hidx hnf, child_window _ _ _ _ _ _ _ hC]
  simp only [hcn, if_true]
  rw [fill_merge_right _ _ _ _ _ _ _ _ _ _ rfl hC hA hdn,
    merge_window _ _ _ _ _ _ _ _ _ _ rfl hC]
  simp only [n_mk]
  rw [if_neg (by simp), child_window _ _ _ _ _ _ _ hC, setChild_window _ _ _ _ _ _ _ _ hC]
  have hx1 : WF t (m - 1) (h + 1) (mk t (K1 ++ K2)
      (C1 ++ mk c.t (c.keys ++ s :: d.keys) (if !c.leaf then c.C ++ d.C else c.C) c.leaf
        :: C2) false) := by
    refine WF.node _ _ _ _ (by simp at hmK ⊢; omega) (by simp at hMK ⊢; omega)
      (by simp at hCl ⊢; omega) ?_
    intro x hx'
    simp only [List.mem_append, List.mem_cons] at hx'
    rcases hx' with hx' | rfl | hx'
    · exact hch x (by simp [hx'])
    · exact b1.mono (by have := b1.le_n; omega)
    · exact hch x (by simp [hx'])
  have htr : pre K1 C1
      ++ ((mk c.t (c.keys ++ s :: d.keys) (if !c.leaf then c.C ++ d.C else c.C)
            c.leaf).traverse ++ suf K2 C2)
      = (mk t (K1 ++ s :: K2) (C1 ++ c :: d :: C2) false).traverse := by
    rw [traverse_window t K1 (s :: K2) C1 (d :: C2) c hC.symm (by simp [hC2]), suf_cons, b2]
    simp
  have := descend_finish t (m - 1) h fuel k ht ih hf K1 K2 C1 _ _ hx1 b1.le_n hC.symm
    (by rw [htr]; exact hs) hkP
    (by
      intro _ hk
      exact hkS (List.mem_cons_of_mem _ (List.mem_append.2 (Or.inr hk))))
  rw [htr] at this
  exact this

/-- Descent after `merge` with the left sibling, when the child is the last one. -/
theorem descend_merge_left (t m h fuel : Nat) (k : Int) (ht : 2 ≤ t)
    (ih : RemoveOK t k fuel)
    (hf : h < fuel) (K1 : List Int) (s : Int) (C1 : List BTreeNode) (a c : BTreeNode)
    (hx : WF t m (h + 1) (mk t (K1 ++ [s]) (C1 ++ [a, c]) false))
    (hC : C1.length = K1.length)
    (hidx : K1.length + 1 = findKeyLoop k (K1 ++ [s]))
    (hnf : ¬ (K1.length + 1 < (K1 ++ [s]).length
      ∧ (K1 ++ [s]).getD (K1.length + 1) 0 = k))
    (hcn : c.n < t) (han : ¬ t ≤ a.n)
    (hs : List.Pairwise (· ≤ ·) (mk t (K1 ++ [s]) (C1 ++ [a, c]) false).traverse)
    (hkP : k ∉ pre K1 C1 ++ (a.traverse ++ [s])) :
    WF t (m - 1) (h + 1) (remove (fuel + 1) (mk t (K1 ++ [s]) (C1 ++ [a, c]) false) k)
    ∧ (remove (fuel + 1) (mk t (K1 ++ [s]) (C1 ++ [a, c]) false) k).traverse
        = (mk t (K1 ++ [s]) (C1 ++ [a, c]) false).traverse.erase k := by
  obtain ⟨h1, e, -, -, hmK, hMK, hCl, hch⟩ := WF.node_inv (by simp) hx
  obtain rfl : h = h1 := by omega
  have ha : WF t (t - 1) h a := hch a (by simp)
  have hc : WF t (t - 1) h c := hch c (by simp)
  obtain ⟨b1, b2⟩ := merged_node t h (by omega) a c s ha hc
    (by have := ha.le_n; omega) (by have := hc.le_n; omega)
  rw [remove_notfound_idx _ _ _ _ _ _ hidx hnf, child_window_succ _ _ _ _ _ _ _ _ hC]
  simp only [hcn, if_true]
  rw [fill_merge_left _ _ _ _ _ _ _ _ rfl hC han, merge_window _ _ _ _ _ _ _ _ _ _ rfl hC]
  simp only [n_mk, List.append_nil, Nat.add_sub_cancel]
  rw [if_pos (by simp), child_window _ _ _ _ _ _ _ hC, setChild_window _ _ _ _ _ _ _ _ hC]
  have hx1 : WF t (m - 1) (h + 1) (mk t (K1 ++ [])
      (C1 ++ mk a.t (a.keys ++ s :: c.keys) (if !a.leaf then a.C ++ c.C else a.C) a.leaf
        :: []) false) := by
    refine WF.node _ _ _ _ (by simp at hmK ⊢; omega) (by simp at hMK ⊢; omega)
      (by simp at hCl ⊢; omega) ?_
    intro x hx'
    simp only [List.mem_append, List.mem_cons, List.not_mem_nil, or_false] at hx'
    rcases hx' with hx' | rfl
    · exact hch x (by simp [hx'])
    · exact b1.mono (by have := b1.le_n; omega)
  have htr : pre K1 C1
      ++ ((mk a.t (a.keys ++ s :: c.keys) (if !a.leaf then a.C ++ c.C else a.C)
            a.leaf).traverse ++ suf [] [])
      = (mk t (K1 ++ [s]) (C1 ++ [a, c]) false).traverse := by
    rw [traverse_window t K1 [s] C1 [c] a hC.symm (by simp), suf_cons, b2]
    simp
  have := descend_finish t (m - 1) h fuel k ht ih hf K1 [] C1 [] _ hx1 b1.le_n hC.symm
    (by rw [htr]; exact hs)
    (by
      intro hk
      exact hkP (List.mem_append.2 (Or.inl hk)))
    (by simp)
  rw [htr] at this
  simpa using this

end BTreeNode


namespace BTreeNode

theorem WF.weaken {t m m1 h : Nat} {x : BTreeNode} (hx : WF t m h x) (hm : m1 ≤ m) :
    WF t m1 h x :=
  hx.mono (by have := hx.le_n; omega)

/-- The branch of `remove` taken when `k` is not among the keys of an internal
node: the child at the index where the scan stopped is filled if needed, and
the recursive call on the child then descended into removes `k` from the
subtree. -/
theorem remove_descend (t m h fuel : Nat) (k : Int) (ht : 2 ≤ t) (hm : 1 ≤ m)
    (ih : RemoveOK t k fuel) (hf : h < fuel)
    (K1 K2 : List Int) (C1 C2 : List BTreeNode) (c : BTreeNode)
    (hx : WF t m (h + 1) (mk t (K1 ++ K2) (C1 ++ c :: C2) false))
    (hC : C1.length = K1.length)
    (hidx : K1.length = findKeyLoop k (K1 ++ K2)) (hnf : ¬ K2.head? = some k)
    (hs : List.Pairwise (· ≤ ·) (mk t (K1 ++ K2) (C1 ++ c :: C2) false).traverse)
    (hkP : k ∉ pre K1 C1) (hkS : k ∉ suf K2 C2) :
    WF t (m - 1) (h + 1) (remove (fuel + 1) (mk t (K1 ++ K2) (C1 ++ c :: C2) false) k)
    ∧ (remove (fuel + 1) (mk t (K1 ++ K2) (C1 ++ c :: C2) false) k).traverse
        = (mk t (K1 ++ K2) (C1 ++ c :: C2) false).traverse.erase k := by
  have hnf1 : ¬ (K1.length < (K1 ++ K2).length ∧ (K1 ++ K2).getD K1.length 0 = k) := by
    rw [found_iff]; exact hnf
  obtain ⟨h1, e, -, -, hmK, hMK, hCl, hch⟩ := WF.node_inv (by simp) hx
  by_cases hcn : c.n < t
  swap
  · obtain ⟨w1, w2⟩ := descend_plain t m h fuel k ht ih hf K1 K2 C1 C2 c hx hC hidx hnf1 hcn
      hs hkP hkS
    exact ⟨w1.weaken (by omega), w2⟩
  by_cases hA : K1.length ≠ 0
      ∧ t ≤ ((mk t (K1 ++ K2) (C1 ++ c :: C2) false).child (K1.length - 1)).n
  · obtain ⟨hne, han⟩ := hA
    rcases eq_nil_or_snoc K1 with rfl | ⟨K0, s, rfl⟩
    · simp at hne
    rcases eq_nil_or_snoc C1 with rfl | ⟨C0, a, rfl⟩
    · simp at hC
    have hC0 : C0.length = K0.length := by simpa using hC
    have e1 : (K0 ++ [s]) ++ K2 = K0 ++ s :: K2 := by simp
    have e2 : (C0 ++ [a]) ++ c :: C2 = C0 ++ a :: c :: C2 := by simp
    have e3 : (K0 ++ [s]).length = K0.length + 1 := by simp
    rw [pre_snoc _ _ _ _ hC0.symm] at hkP
    rw [e1, e2, e3, Nat.add_sub_cancel, child_window _ _ _ _ _ _ _ hC0] at han
    rw [e1, e3] at hidx hnf1
    rw [e1, e2] at hx hs ⊢
    obtain ⟨w1, w2⟩ := descend_prev t m h fuel k ht ih hf K0 K2 s C0 C2 a c hx hC0 hidx hnf1
      hcn han hs hkP hkS
    exact ⟨w1.weaken (by omega), w2⟩
  · cases K2 with
    | nil =>
      obtain rfl : C2 = [] := by
        cases C2 with
        | nil => rfl
        | cons d C2 => simp at hCl; omega
      rcases eq_nil_or_snoc K1 with rfl | ⟨K0, s, rfl⟩
      · simp at hmK; omega
      rcases eq_nil_or_snoc C1 with rfl | ⟨C0, a, rfl⟩
      · simp at hC
      have hC0 : C0.length = K0.length := by simpa using hC
      have e1 : (K0 ++ [s]) ++ [] = K0 ++ [s] := by simp
      have e2 : (C0 ++ [a]) ++ [c] = C0 ++ [a, c] := by simp
      have e3 : (K0 ++ [s]).length = K0.length + 1 := by simp
      rw [pre_snoc _ _ _ _ hC0.symm] at hkP
      have han : ¬ t ≤ a.n := by
        intro han
        apply hA
        refine ⟨by simp, ?_⟩
        rw [e1, e2, e3, Nat.add_sub_cancel]
        have : C0 ++ [a, c] = C0 ++ a :: [c] := rfl
        rw [this, child_window _ _ _ _ _ _ _ hC0]
        exact han
      rw [e1, e3] at hidx hnf1
      rw [e1, e2] at hx hs ⊢
      exact descend_merge_left t m h fuel k ht ih hf K0 s C0 a c hx hC0 hidx (by simp) hcn
        han hs hkP
    | cons s K2 =>
      cases C2 with
      | nil => simp at hCl; omega
      | cons d C2 =>
        rw [suf_cons] at hkS
        by_cases hdn : t ≤ d.n
        · obtain ⟨w1, w2⟩ := descend_next t m h fuel k ht ih hf K1 K2 s C1 C2 c d hx hC hidx
            hnf1 hcn hA hdn hs hkP hkS
          exact ⟨w1.weaken (by omega), w2⟩
        · exact descend_merge_right t m h fuel k ht ih hf K1 K2 s C1 C2 c d hx hC hidx
            hnf1 hcn hA hdn hs hkP hkS

end BTreeNode


/-! ## `removeFromNonLeaf` -/

namespace BTreeNode

theorem WF.replace_keys {t m h : Nat} {K K1 : List Int} {C : List BTreeNode} {lf : Bool}
    (hx : WF t m h (mk t K C lf)) (hK : K1.length = K.length) : WF t m h (mk t K1 C lf) := by
  cases hx with
  | leaf _ keys h1 h2 => exact WF.leaf _ _ (by omega) (by omega)
  | node _ h keys C h1 h2 h3 h4 => exact WF.node _ _ _ _ (by omega) (by omega) (by omega) h4

theorem removeFromNonLeaf_pred (rm : BTreeNode → Int → BTreeNode) (fuel t : Nat)
    (K1 K2 : List Int) (s : Int) (C1 C2 : List BTreeNode) (c d : BTreeNode)
    (hC : C1.length = K1.length) (hcn : t ≤ c.n) :
    removeFromNonLeaf rm fuel (mk t (K1 ++ s :: K2) (C1 ++ c :: d :: C2) false) K1.length
      = mk t (K1 ++ lastKey fuel c :: K2) (C1 ++ rm c (lastKey fuel c) :: d :: C2) false := by
  simp only [removeFromNonLeaf, t_mk, keys_mk, C_mk, leaf_mk, child_window _ _ _ _ _ _ _ hC,
    ge_iff_le, hcn, if_true, getPred, set_at _ _ rfl, setChild_window _ _ _ _ _ _ _ _ hC]

theorem removeFromNonLeaf_succ (rm : BTreeNode → Int → BTreeNode) (fuel t : Nat)
    (K1 K2 : List Int) (s : Int) (C1 C2 : List BTreeNode) (c d : BTreeNode)
    (hC : C1.length = K1.length) (hcn : ¬ t ≤ c.n) (hdn : t ≤ d.n) :
    removeFromNonLeaf rm fuel (mk t (K1 ++ s :: K2) (C1 ++ c :: d :: C2) false) K1.length
      = mk t (K1 ++ firstKey fuel d :: K2) (C1 ++ c :: rm d (firstKey fuel d) :: C2) false := by
  simp only [removeFromNonLeaf, t_mk, keys_mk, C_mk, leaf_mk, child_window _ _ _ _ _ _ _ hC,
    child_window_succ _ _ _ _ _ _ _ _ hC, ge_iff_le, hcn, hdn, if_true, if_false, getSucc,
    set_at _ _ rfl, setChild_window_succ _ _ _ _ _ _ _ _ _ hC]

theorem removeFromNonLeaf_merge (rm : BTreeNode → Int → BTreeNode) (fuel t : Nat)
    (K1 K2 : List Int) (s : Int) (C1 C2 : List BTreeNode) (c d : BTreeNode)
    (hC : C1.length = K1.length) (hcn : ¬ t ≤ c.n) (hdn : ¬ t ≤ d.n) :
    removeFromNonLeaf rm fuel (mk t (K1 ++ s :: K2) (C1 ++ c :: d :: C2) false) K1.length
      = mk t (K1 ++ K2)
          (C1 ++ rm (mk c.t (c.keys ++ s :: d.keys) (if !c.leaf then c.C ++ d.C else c.C)
            c.leaf) s :: C2) false := by
  simp only [removeFromNonLeaf, t_mk, keys_mk, C_mk, leaf_mk, child_window _ _ _ _ _ _ _ hC,
    child_window_succ _ _ _ _ _ _ _ _ hC, ge_iff_le, hcn, hdn, if_false,
    merge_window _ _ _ _ _ _ _ _ _ _ rfl hC, key_window _ _ _ _ _ _ _ rfl,
    setChild_window _ _ _ _ _ _ _ _ hC]

/-- The branch of `remove` taken when `k` is a key of an internal node. -/
theorem remove_found_spec (t m h fuel : Nat) (k : Int) (ht : 2 ≤ t)
    (ih : ∀ k1, RemoveOK t k1 fuel) (hf : h < fuel)
    (K1 K2 : List Int) (C1 C2 : List BTreeNode) (c d : BTreeNode)
    (hx : WF t m (h + 1) (mk t (K1 ++ k :: K2) (C1 ++ c :: d :: C2) false))
    (hC : C1.length = K1.length)
    (hs : List.Pairwise (· ≤ ·) (mk t (K1 ++ k :: K2) (C1 ++ c :: d :: C2) false).traverse)
    (hkP : k ∉ pre K1 C1) :
    WF t (m - 1) (h + 1)
      (removeFromNonLeaf (remove fuel) fuel
        (mk t (K1 ++ k :: K2) (C1 ++ c :: d :: C2) false) K1.length)
    ∧ (removeFromNonLeaf (remove fuel) fuel
        (mk t (K1 ++ k :: K2) (C1 ++ c :: d :: C2) false) K1.length).traverse
        = (mk t (K1 ++ k :: K2) (C1 ++ c :: d :: C2) false).traverse.erase k := by
  obtain ⟨h1, e, -, -, hmK, hMK, hCl, hch⟩ := WF.node_inv (by simp) hx
  obtain rfl : h = h1 := by omega
  have hC2 : K2.length = C2.length := by simp at hCl; omega
  have hc : WF t (t - 1) h c := hch c (by simp)
  have hd : WF t (t - 1) h d := hch d (by simp)
  have htr := traverse_window t K1 (k :: K2) C1 (d :: C2) c hC.symm (by simp [hC2])
  rw [suf_cons] at htr
  rw [htr] at hs ⊢
  have hs1 := (List.pairwise_append.1 hs).2.1
  have hsc : List.Pairwise (· ≤ ·) c.traverse := (List.pairwise_append.1 hs1).1
  have hsd : List.Pairwise (· ≤ ·) d.traverse :=
    (List.pairwise_append.1 (List.pairwise_cons.1 (List.pairwise_append.1 hs1).2.1).2).1
  have hgoal : (pre K1 C1 ++ (c.traverse ++ k :: (d.traverse ++ suf K2 C2))).erase k
      = pre K1 C1 ++ (c.traverse ++ (d.traverse ++ suf K2 C2)) := by
    rw [List.erase_append_right _ hkP, erase_sep _ _ _ hs1]
  rw [hgoal]
  by_cases hcn : t ≤ c.n
  · rw [removeFromNonLeaf_pred _ _ _ _ _ _ _ _ _ _ hC hcn]
    obtain ⟨T0, hT0⟩ := lastKey_spec t ht fuel h (t - 1) c hc (by omega) (by omega)
    obtain ⟨w1, w2⟩ := ih (lastKey fuel c) h t c (hc.mono hcn) (by omega) hf hsc
    have hx1 : WF t m (h + 1)
        (mk t (K1 ++ lastKey fuel c :: K2) (C1 ++ c :: d :: C2) false) :=
      hx.replace_keys (by simp)
    refine ⟨(WF.replace_child hx1 w1).weaken (by omega), ?_⟩
    rw [traverse_window t K1 (lastKey fuel c :: K2) C1 (d :: C2) _ hC.symm (by simp [hC2]),
      suf_cons, w2]
    have := erase_max_append c.traverse (lastKey fuel c) hsc
      (by
        intro x hx'
        rw [hT0] at hx' hsc
        rcases List.mem_append.1 hx' with hx' | hx'
        · exact (List.pairwise_append.1 hsc).2.2 x hx' _ (by simp)
        · simp at hx'; omega)
      (by rw [hT0]; simp)
    calc pre K1 C1 ++ (c.traverse.erase (lastKey fuel c)
            ++ lastKey fuel c :: (d.traverse ++ suf K2 C2))
        = pre K1 C1 ++ ((c.traverse.erase (lastKey fuel c) ++ [lastKey fuel c])
            ++ (d.traverse ++ suf K2 C2)) := by simp
      _ = pre K1 C1 ++ (c.traverse ++ (d.traverse ++ suf K2 C2)) := by rw [this]
  · by_cases hdn : t ≤ d.n
    · rw [removeFromNonLeaf_succ _ _ _ _ _ _ _ _ _ _ hC hcn hdn]
      obtain ⟨T0, hT0⟩ := firstKey_spec t ht fuel h (t - 1) d hd (by omega) (by omega)
      obtain ⟨w1, w2⟩ := ih (firstKey fuel d) h t d (hd.mono hdn) (by omega) hf hsd
      have hx0 : WF t m (h + 1)
          (mk t (K1 ++ firstKey fuel d :: K2) (C1 ++ c :: d :: C2) false) :=
        hx.replace_keys (by simp)
      have hx1 : WF t m (h + 1)
          (mk t (K1 ++ firstKey fuel d :: K2) ((C1 ++ [c]) ++ d :: C2) false) := by
        simpa using hx0
      have hx2 := WF.replace_child hx1 w1
      simp only [List.append_assoc, List.singleton_append] at hx2
      refine ⟨hx2.weaken (by omega), ?_⟩
      rw [traverse_window t K1 (firstKey fuel d :: K2) C1 (_ :: C2) _ hC.symm
        (by simp [hC2]), suf_cons, w2, hT0]
      simp
    · rw [removeFromNonLeaf_merge _ _ _ _ _ _ _ _ _ _ hC hcn hdn]
      obtain ⟨b1, b2⟩ := merged_node t h (by omega) c d k hc hd
        (by have := hc.le_n; omega) (by have := hd.le_n; omega)
      have hx1 : WF t (m - 1) (h + 1) (mk t (K1 ++ K2)
          (C1 ++ mk c.t (c.keys ++ k :: d.keys) (if !c.leaf then c.C ++ d.C else c.C) c.leaf
            :: C2) false) := by
        refine WF.node _ _ _ _ (by simp at hmK ⊢; omega) (by simp at hMK ⊢; omega)
          (by simp at hCl ⊢; omega) ?_
        intro x hx'
        simp only [List.mem_append, List.mem_cons] at hx'
        rcases hx' with hx' | rfl | hx'
        · exact hch x (by simp [hx'])
        · exact b1.mono (by have := b1.le_n; omega)
        · exact hch x (by simp [hx'])
      have := descend_finish t (m - 1) h fuel k ht (ih k) hf K1 K2 C1 C2 _ hx1 b1.le_n hC.symm
        (by rw [b2]; simpa using hs) hkP
        (by intro hk; rw [b2] at hk; simp at hk)
      refine ⟨this.1, ?_⟩
      rw [this.2, b2]
      have := hgoal
      simpa using this

end BTreeNode


/-! ## `remove` -/

namespace BTreeNode

theorem remove_ok (t : Nat) (ht : 2 ≤ t) (fuel : Nat) : ∀ k, RemoveOK t k fuel := by
  induction fuel with
  | zero => intro k h m x _ _ hf; omega
  | succ fuel ih =>
    intro k h m x hx hm hf hs
    cases hx with
    | leaf _ keys h1 h2 =>
      obtain ⟨K1, K2, rfl, hi, hlt, hge⟩ := findKeyLoop_window keys k
      rw [remove_leaf _ _ _ _ _ _ hi]
      simp only [traverse_mk, traverseLoop_nil_children] at hs ⊢
      by_cases hfd : K2.head? = some k
      · cases K2 with
        | nil => simp at hfd
        | cons b K2 =>
          simp only [List.head?_cons, Option.some.injEq] at hfd
          subst hfd
          simp only [List.head?_cons, if_true, eraseIdx_at _ rfl, traverse_mk,
            traverseLoop_nil_children]
          refine ⟨WF.leaf _ _ (by simp at h1 ⊢; omega) (by simp at h2 ⊢; omega), ?_⟩
          rw [List.erase_append_right _ (fun hk => by have := hlt _ hk; omega)]
          simp
      · simp only [hfd, if_false, traverse_mk, traverseLoop_nil_children]
        refine ⟨WF.leaf _ _ (by omega) h2, ?_⟩
        rw [List.erase_of_not_mem]
        intro hk
        rcases List.mem_append.1 hk with hk | hk
        · have := hlt k hk; omega
        · obtain ⟨b, hb, hbk⟩ := head_le_of_sorted K2 (List.pairwise_append.1 hs).2.1 k hk
          have := hge b hb
          have : b = k := by omega
          exact hfd (this ▸ hb)
    | node _ h keys C h1 h2 h3 h4 =>
      have hx : WF t m (h + 1) (mk t keys C false) := WF.node _ _ _ _ h1 h2 h3 h4
      obtain ⟨K1, K2, rfl, hi, hlt, hge⟩ := findKeyLoop_window keys k
      obtain ⟨C1, c, C2, rfl, hC1⟩ := exists_window C K1.length (by simp at h3 ⊢; omega)
      have hC2 : K2.length = C2.length := by simp at h3; omega
      have hs1 := hs
      rw [traverse_window _ _ _ _ _ _ hC1.symm hC2] at hs1
      have hkP : k ∉ pre K1 C1 := by
        intro hk
        obtain ⟨a, ha, hka⟩ := pre_le_last K1 C1 hC1.symm (List.pairwise_append.1 hs1).1 k hk
        have := hlt a (List.mem_of_mem_getLast? ha)
        omega
      by_cases hfd : K2.head? = some k
      · rw [remove_found _ _ _ _ _ _ hi hfd]
        cases K2 with
        | nil => simp at hfd
        | cons b K2 =>
          cases C2 with
          | nil => simp at hC2
          | cons d C2 =>
            simp only [List.head?_cons, Option.some.injEq] at hfd
            subst hfd
            exact remove_found_spec t m h fuel b ht ih (by omega) K1 K2 C1 C2 c d hx hC1 hs hkP
      · obtain ⟨-, hkS⟩ := descent K1 K2 C1 C2 c k hC1.symm hs1 hlt hge hfd
        exact remove_descend t m h fuel k ht hm (ih k) (by omega) K1 K2 C1 C2 c hx hC1 hi hfd
          hs hkP hkS

end BTreeNode

/-! ## `BTree::remove` -/

namespace BTree

open BTreeNode

@[simp] theorem remove_t (b : BTree) (k : Int) : (b.remove k).t = b.t := by
  unfold BTree.remove
  split
  · rfl
  · simp only
    split_ifs <;> rfl

theorem remove_spec (b : BTree) (k : Int) (hb : b.Inv) :
    (b.remove k).Inv ∧ (b.remove k).traverse = b.traverse.erase k := by
  obtain ⟨root, t⟩ := b
  obtain ⟨ht, hr⟩ := hb
  simp only at ht hr
  cases root with
  | none => exact ⟨⟨ht, by intro r hr1; simp [BTree.remove] at hr1⟩, by simp [BTree.remove]⟩
  | some r =>
    obtain ⟨⟨h, hwf⟩, hs⟩ := hr r rfl
    have hh := hwf.height_eq
    obtain ⟨w1, w2⟩ := BTreeNode.remove_ok t ht r.height k h 1 r hwf (le_refl _) (by omega) hs
    simp only [BTree.remove, traverse_some]
    by_cases hn : (BTreeNode.remove r.height r k).n = 0
    · simp only [hn, if_true]
      rw [← w2]
      generalize BTreeNode.remove r.height r k = r1 at w1 w2 hn ⊢
      cases w1 with
      | leaf _ keys h1 h2 =>
        simp only [n_mk, List.length_eq_zero] at hn
        subst hn
        simp only [leaf_mk, if_true, traverse_none, traverse_mk, traverseLoop_nil_children]
        exact ⟨⟨ht, by intro r hr1; simp at hr1⟩, trivial⟩
      | node _ h keys C h1 h2 h3 h4 =>
        simp only [n_mk, List.length_eq_zero] at hn
        subst hn
        match C, h3 with
        | [c], _ =>
          simp only [leaf_mk, Bool.false_eq_true, if_false, child, C_mk, List.getD_cons_zero,
            traverse_some, traverse_mk, traverseLoop, Bool.not_false, if_true]
          refine ⟨⟨ht, ?_⟩, trivial⟩
          intro r1 hr1
          simp only [Option.some.injEq] at hr1
          subst hr1
          have hc := h4 _ (List.mem_singleton_self _)
          refine ⟨⟨h, hc.weaken (by omega)⟩, ?_⟩
          have := w2 ▸ hs.sublist (List.erase_sublist k r.traverse)
          simpa [traverseLoop] using this
    · simp only [hn, if_false, traverse_some]
      refine ⟨⟨ht, ?_⟩, w2⟩
      intro r1 hr1
      simp only [Option.some.injEq] at hr1
      subst hr1
      exact ⟨⟨h, w1.mono (by omega)⟩, w2 ▸ hs.sublist (List.erase_sublist k r.traverse)⟩

/-! ## Sequences of calls -/

theorem apply_spec (b : BTree) (op : Op) (hb : b.Inv) : (b.apply op).Inv := by
  cases op with
  | insert k => exact (insert_spec b k hb).1
  | remove k => exact (remove_spec b k hb).1

theorem empty_inv (t : Nat) (ht : 2 ≤ t) : (BTree.empty t).Inv :=
  ⟨ht, by intro r hr; simp [BTree.empty] at hr⟩

theorem run_snoc (t : Nat) (ops : List Op) (op : Op) :
    BTree.run t (ops ++ [op]) = (BTree.run t ops).apply op := by
  simp [BTree.run, List.foldl_append]

theorem run_inv (t : Nat) (ht : 2 ≤ t) (ops : List Op) : (BTree.run t ops).Inv := by
  induction ops using List.reverseRecOn with
  | nil => exact empty_inv t ht
  | append_singleton ops op ih => rw [run_snoc]; exact apply_spec _ op ih

end BTree


/-! ## Nodes of a well-formed tree -/

namespace BTreeNode

theorem mem_nodesList {x : BTreeNode} {C : List BTreeNode} :
    x ∈ nodesList C ↔ ∃ c ∈ C, x ∈ nodes c := by
  induction C with
  | nil => simp [nodesList]
  | cons c cs ih => simp [nodesList, ih]

theorem mem_leafDepthsList {d : Nat} {C : List BTreeNode} :
    d ∈ leafDepthsList C ↔ ∃ c ∈ C, d ∈ leafDepths c := by
  induction C with
  | nil => simp [leafDepthsList]
  | cons c cs ih => simp [leafDepthsList, ih]

theorem self_mem_nodes (x : BTreeNode) : x ∈ x.nodes := by
  cases x; simp [nodes]

theorem nodes_eq (x : BTreeNode) : x.nodes = x :: nodesList x.C := by
  cases x; simp [nodes]

/-- Every node of a well-formed subtree is itself well formed (with the lower
bound `t-1` when it is not the top node) and its traversal is a contiguous
part of the traversal of the subtree. -/
theorem WF.nodes_spec {t m h : Nat} {r : BTreeNode} (hr : WF t m h r) :
    (∀ x ∈ r.nodes, ∃ m1 h1, WF t m1 h1 x ∧ x.traverse.Sublist r.traverse)
    ∧ (∀ x ∈ nodesList r.C, t - 1 ≤ x.n)
    ∧ (∀ d ∈ r.leafDepths, d = h) := by
  induction hr with
  | leaf m keys h1 h2 =>
    refine ⟨?_, by simp [nodesList], by simp [leafDepths]⟩
    intro x hx
    simp only [nodes, nodesList, List.mem_singleton] at hx
    subst hx
    exact ⟨m, 0, WF.leaf _ _ h1 h2, List.Sublist.refl _⟩
  | node m h keys C h1 h2 h3 h4 ih =>
    have hsub : ∀ c ∈ C, c.traverse.Sublist (mk t keys C false).traverse := by
      intro c hc
      obtain ⟨C1, C2, rfl⟩ := List.append_of_mem hc
      obtain ⟨K1, K2, rfl, hK1⟩ := exists_split keys C1.length (by simp at h3; omega)
      rw [traverse_window _ _ _ _ _ _ hK1 (by simp at h3; omega)]
      exact (List.sublist_append_left _ _).trans (List.sublist_append_right _ _)
    refine ⟨?_, ?_, ?_⟩
    · intro x hx
      simp only [nodes, List.mem_cons, mem_nodesList] at hx
      rcases hx with rfl | ⟨c, hc, hx⟩
      · exact ⟨m, h + 1, WF.node _ _ _ _ h1 h2 h3 h4, List.Sublist.refl _⟩
      · obtain ⟨m1, h1', w1, w2⟩ := (ih c hc).1 x hx
        exact ⟨m1, h1', w1, w2.trans (hsub c hc)⟩
    · intro x hx
      simp only [C_mk, mem_nodesList] at hx
      obtain ⟨c, hc, hx⟩ := hx
      rw [nodes_eq] at hx
      rcases List.mem_cons.1 hx with rfl | hx
      · exact (h4 _ hc).le_n
      · exact (ih c hc).2.1 x hx
    · intro d hd
      simp only [leafDepths, Bool.false_eq_true, if_false, List.mem_map,
        mem_leafDepthsList] at hd
      obtain ⟨d1, ⟨c, hc, hd1⟩, rfl⟩ := hd
      rw [(ih c hc).2.2 d1 hd1]

/-- Order around the keys of an internal node whose traversal is sorted. -/
theorem orderedAt_of_sorted {t m h : Nat} {x : BTreeNode} (hx : WF t m h x)
    (hs : List.Pairwise (· ≤ ·) x.traverse) :
    OrderedAt x ∧ (x.traverse.Nodup → x.leaf = false → StrictAt x) := by
  cases hx with
  | leaf _ keys h1 h2 =>
    refine ⟨?_, by simp⟩
    intro i hi
    simp [child, new]
  | node _ h keys C h1 h2 h3 h4 =>
    have key : ∀ i, i < keys.length → ∃ K1 s K2 C1 c d C2,
        keys = K1 ++ s :: K2 ∧ C = C1 ++ c :: d :: C2 ∧ K1.length = i ∧ C1.length = i
        ∧ K2.length = C2.length := by
      intro i hi
      obtain ⟨K1, s, K2, rfl, hK1⟩ := exists_window keys i hi
      obtain ⟨C1, c, C2, rfl, hC1⟩ := exists_window C i (by omega)
      cases C2 with
      | nil => simp at h3; omega
      | cons d C2 => exact ⟨K1, s, K2, C1, c, d, C2, rfl, rfl, hK1, hC1, by simp at h3; omega⟩
    constructor
    · intro i hi
      obtain ⟨K1, s, K2, C1, c, d, C2, rfl, rfl, hK1, hC1, hC2⟩ := key i hi
      rw [traverse_window t K1 (s :: K2) C1 (d :: C2) c (by omega) (by simp [hC2]),
        suf_cons] at hs
      rw [child_window _ _ _ _ _ _ _ hC1, child_window_succ _ _ _ _ _ _ _ _ hC1,
        key_window _ _ _ _ _ _ _ hK1]
      have hs1 := (List.pairwise_append.1 hs).2.1
      have hs2 := List.pairwise_append.1 hs1
      refine ⟨fun a ha => hs2.2.2 a ha s (by simp), fun a ha => ?_⟩
      exact (List.pairwise_cons.1 hs2.2.1).1 a (List.mem_append.2 (Or.inl ha))
    · intro hnd _ i hi
      obtain ⟨K1, s, K2, C1, c, d, C2, rfl, rfl, hK1, hC1, hC2⟩ := key i hi
      rw [traverse_window t K1 (s :: K2) C1 (d :: C2) c (by omega) (by simp [hC2]),
        suf_cons] at hs hnd
      rw [child_window _ _ _ _ _ _ _ hC1, child_window_succ _ _ _ _ _ _ _ _ hC1,
        key_window _ _ _ _ _ _ _ hK1]
      have hs1 := (List.pairwise_append.1 hs).2.1
      have hs2 := List.pairwise_append.1 hs1
      have hn1 := (List.nodup_append.1 hnd).2.1
      have hn2 := List.nodup_append.1 hn1
      constructor
      · intro a ha
        have h1 := hs2.2.2 a ha s (by simp)
        have h2 : a ≠ s := fun e => hn2.2.2 ha (by simp [e])
        omega
      · intro a ha
        have h1 := (List.pairwise_cons.1 hs2.2.1).1 a (List.mem_append.2 (Or.inl ha))
        have h2 : s ≠ a := fun e =>
          (List.nodup_cons.1 hn2.2.1).1 (by simp [e, ha])
        omega

theorem traverse_ne_nil {t m h : Nat} {x : BTreeNode} (ht : 2 ≤ t) (hx : WF t m h x)
    (hm : 1 ≤ m) : x.traverse ≠ [] := by
  obtain ⟨T0, hT0⟩ := firstKey_spec t ht h h m x hx hm (le_refl _)
  rw [hT0]; simp

theorem search_mem_nodes (fuel : Nat) :
    ∀ (x y : BTreeNode) (k : Int), search fuel x k = some y → y ∈ x.nodes := by
  induction fuel with
  | zero => intro x y k h; simp [search] at h
  | succ fuel ih =>
    intro x y k h
    simp only [search] at h
    split_ifs at h with h1 h2
    · simp only [Option.some.injEq] at h
      subst h
      exact self_mem_nodes _
    · rw [nodes_eq]
      refine List.mem_cons_of_mem _ (mem_nodesList.2 ?_)
      by_cases hi : searchIdx k x.keys < x.C.length
      · refine ⟨x.child (searchIdx k x.keys), ?_, ih _ _ _ h⟩
        rw [child, List.getD_eq_getElem _ _ hi]
        exact List.getElem_mem _
      · exfalso
        have : x.child (searchIdx k x.keys) = new x.t true := by
          rw [child, List.getD_eq_default _ _ (by omega)]
        rw [this] at h
        cases fuel with
        | zero => simp [search] at h
        | succ fuel => simp [search, new, searchIdx] at h

end BTreeNode


/-! ## The recursion budget

On a well-formed subtree, every budget larger than the depth of the leaves
gives the same result: the descents of `search`, `insertNonFull`, `getPred`,
`getSucc` and `remove` end at a leaf before the budget is used up. -/

namespace BTreeNode

theorem searchIdx_le (k : Int) (keys : List Int) : searchIdx k keys ≤ keys.length := by
  induction keys with
  | nil => simp [searchIdx]
  | cons a keys ih =>
    simp only [searchIdx, List.length_cons]
    split_ifs <;> omega

theorem child_mem (x : BTreeNode) (i : Nat) (hi : i < x.C.length) : x.child i ∈ x.C := by
  rw [child, List.getD_eq_getElem _ _ hi]
  exact List.getElem_mem _

theorem WF.child {t m h : Nat} {keys : List Int} {C : List BTreeNode}
    (hx : WF t m (h + 1) (mk t keys C false)) (i : Nat) (hi : i ≤ keys.length) :
    WF t (t - 1) h ((mk t keys C false).child i) := by
  obtain ⟨h1, e, -, -, -, -, hC, hch⟩ := WF.node_inv
    (by intro h0; cases hx with | node _ _ _ _ _ _ h3 _ => rw [h0] at h3; simp at h3) hx
  obtain rfl : h = h1 := by omega
  exact hch _ (child_mem _ i (by simp; omega))

theorem search_fuel (t : Nat) (k : Int) (f1 : Nat) :
    ∀ (f2 h m : Nat) (x : BTreeNode), WF t m h x → h < f1 → h < f2 →
      search f1 x k = search f2 x k := by
  induction f1 with
  | zero => intro f2 h m x _ hf; omega
  | succ f1 ih =>
    intro f2 h m x hx hf1 hf2
    cases f2 with
    | zero => omega
    | succ f2 =>
      cases hx with
      | leaf _ keys h1 h2 => simp [search]
      | node _ h keys C h1 h2 h3 h4 =>
        have hx : WF t m (h + 1) (mk t keys C false) := WF.node _ _ _ _ h1 h2 h3 h4
        simp only [search, keys_mk, leaf_mk, Bool.false_eq_true, if_false]
        rw [ih f2 h (t - 1) _ (hx.child _ (searchIdx_le k keys)) (by omega) (by omega)]

theorem lastKey_fuel (t : Nat) (f1 : Nat) :
    ∀ (f2 h m : Nat) (x : BTreeNode), WF t m h x → h ≤ f1 → h ≤ f2 →
      lastKey f1 x = lastKey f2 x := by
  induction f1 with
  | zero =>
    intro f2 h m x hx hf1 hf2
    cases hx with
    | leaf _ keys h1 h2 => cases f2 <;> simp [lastKey]
    | node _ h keys C h1 h2 h3 h4 => omega
  | succ f1 ih =>
    intro f2 h m x hx hf1 hf2
    cases hx with
    | leaf _ keys h1 h2 => cases f2 <;> simp [lastKey]
    | node _ h keys C h1 h2 h3 h4 =>
      have hx : WF t m (h + 1) (mk t keys C false) := WF.node _ _ _ _ h1 h2 h3 h4
      cases f2 with
      | zero => omega
      | succ f2 =>
        simp only [lastKey, leaf_mk, Bool.not_false, if_true, n_mk]
        exact ih f2 h (t - 1) _ (hx.child _ (le_refl _)) (by omega) (by omega)

theorem firstKey_fuel (t : Nat) (f1 : Nat) :
    ∀ (f2 h m : Nat) (x : BTreeNode), WF t m h x → h ≤ f1 → h ≤ f2 →
      firstKey f1 x = firstKey f2 x := by
  induction f1 with
  | zero =>
    intro f2 h m x hx hf1 hf2
    cases hx with
    | leaf _ keys h1 h2 => cases f2 <;> simp [firstKey]
    | node _ h keys C h1 h2 h3 h4 => omega
  | succ f1 ih =>
    intro f2 h m x hx hf1 hf2
    cases hx with
    | leaf _ keys h1 h2 => cases f2 <;> simp [firstKey]
    | node _ h keys C h1 h2 h3 h4 =>
      have hx : WF t m (h + 1) (mk t keys C false) := WF.node _ _ _ _ h1 h2 h3 h4
      cases f2 with
      | zero => omega
      | succ f2 =>
        simp only [firstKey, leaf_mk, Bool.not_false, if_true]
        exact ih f2 h (t - 1) _ (hx.child _ (Nat.zero_le _)) (by omega) (by omega)

theorem insertNonFull_fuel (t : Nat) (ht : 2 ≤ t) (k : Int) (f1 : Nat) :
    ∀ (f2 h m : Nat) (x : BTreeNode), WF t m h x → x.n < 2 * t - 1 → h < f1 → h < f2 →
      insertNonFull f1 x k = insertNonFull f2 x k := by
  induction f1 with
  | zero => intro f2 h m x _ _ hf; omega
  | succ f1 ih =>
    intro f2 h m x hx hn hf1 hf2
    cases f2 with
    | zero => omega
    | succ f2 =>
      cases hx with
      | leaf _ keys h1 h2 => rw [insertNonFull_leaf, insertNonFull_leaf]
      | node _ h keys C h1 h2 h3 h4 =>
        obtain ⟨K1, K2, rfl, hi, -, -⟩ := scanDown_window keys k
        obtain ⟨C1, c, C2, rfl, hC1⟩ := exists_window C K1.length (by simp at h3 ⊢; omega)
        have hc : WF t (t - 1) h c := h4 c (by simp)
        rw [insertNonFull_internal, insertNonFull_internal, ← hi,
          child_window _ _ _ _ _ _ _ hC1]
        by_cases hfull : c.n = 2 * t - 1
        · simp only [hfull, if_true]
          obtain ⟨a1, a2, -⟩ := split_halves t (t - 1) h (by omega) c hc hfull
          rw [splitChild_window t K1 K2 C1 C2 c false K1.length rfl hC1,
            key_window _ _ _ _ _ _ _ rfl]
          have n1 : (mk c.t (c.keys.take (t - 1)) (c.C.take t) c.leaf).n < 2 * t - 1 := by
            simp only [n_mk, List.length_take]; omega
          have n2 : (mk c.t ((c.keys.drop t).take (t - 1))
              (if !c.leaf then (c.C.drop t).take t else []) c.leaf).n < 2 * t - 1 := by
            simp only [n_mk, List.length_take]; omega
          by_cases hlt : c.key (t - 1) < k
          · simp only [hlt, if_true]
            rw [child_window_succ _ _ _ _ _ _ _ _ hC1,
              ih f2 h (t - 1) _ a2 n2 (by omega) (by omega)]
          · simp only [hlt, if_false]
            rw [child_window _ _ _ _ _ _ _ hC1,
              ih f2 h (t - 1) _ a1 n1 (by omega) (by omega)]
        · simp only [hfull, if_false]
          rw [ih f2 h (t - 1) c hc (by have := hc.n_le; omega) (by omega) (by omega)]

end BTreeNode


namespace BTreeNode

/-- Method `fill` on a well-formed internal node with at least one key, for a
child that holds fewer than `t` keys: the node stays well formed, loses at
most one key, and its traversal is unchanged. -/
theorem fill_spec (t m h : Nat) (ht : 2 ≤ t) (hm : 1 ≤ m)
    (K1 K2 : List Int) (C1 C2 : List BTreeNode) (c : BTreeNode)
    (hx : WF t m (h + 1) (mk t (K1 ++ K2) (C1 ++ c :: C2) false))
    (hC : C1.length = K1.length) (hcn : c.n < t) :
    WF t (m - 1) (h + 1) (fill (mk t (K1 ++ K2) (C1 ++ c :: C2) false) K1.length)
    ∧ (fill (mk t (K1 ++ K2) (C1 ++ c :: C2) false) K1.length).traverse
        = (mk t (K1 ++ K2) (C1 ++ c :: C2) false).traverse
    ∧ (K1 ++ K2).length - 1 ≤ (fill (mk t (K1 ++ K2) (C1 ++ c :: C2) false) K1.length).n := by
  obtain ⟨h1, e, -, -, hmK, hMK, hCl, hch⟩ := WF.node_inv (by simp) hx
  obtain rfl : h = h1 := by omega
  have hc : WF t (t - 1) h c := hch c (by simp)
  have hcn1 : c.n = t - 1 := by have := hc.le_n; omega
  by_cases hA : K1.length ≠ 0
      ∧ t ≤ ((mk t (K1 ++ K2) (C1 ++ c :: C2) false).child (K1.length - 1)).n
  · obtain ⟨hne, han⟩ := hA
    rcases eq_nil_or_snoc K1 with rfl | ⟨K0, s, rfl⟩
    · simp at hne
    rcases eq_nil_or_snoc C1 with rfl | ⟨C0, a, rfl⟩
    · simp at hC
    have hC0 : C0.length = K0.length := by simpa using hC
    have hC2 : K2.length = C2.length := by simp at hCl; omega
    have e1 : (K0 ++ [s]) ++ K2 = K0 ++ s :: K2 := by simp
    have e2 : (C0 ++ [a]) ++ c :: C2 = C0 ++ a :: c :: C2 := by simp
    have e3 : (K0 ++ [s]).length = K0.length + 1 := by simp
    rw [e1, e2, e3, Nat.add_sub_cancel, child_window _ _ _ _ _ _ _ hC0] at han
    rw [e2] at hch hCl
    rw [e1] at hmK hMK hCl
    rw [e1, e2, e3]
    have ha : WF t (t - 1) h a := hch a (by simp)
    obtain ⟨b1, b2, b3, -⟩ := borrowed_prev t h (by omega) a c s ha hc han hcn1
    rw [fill_prev _ _ _ _ _ _ _ _ _ _ hC0 han,
      borrowFromPrev_window _ _ _ _ _ _ _ _ _ _ rfl hC0]
    refine ⟨?_, ?_, by simp⟩
    · refine WF.node _ _ _ _ (by simp at hmK ⊢; omega) (by simp at hMK ⊢; omega)
        (by simp at hCl ⊢; omega) ?_
      intro x hx'
      simp only [List.mem_append, List.mem_cons] at hx'
      rcases hx' with hx' | rfl | rfl | hx'
      · exact hch x (by simp [hx'])
      · exact b1
      · exact b2.mono (by have := b2.le_n; omega)
      · exact hch x (by simp [hx'])
    · rw [traverse_window t K0 (_ :: K2) C0 (_ :: C2) _ hC0.symm (by simp [hC2]),
        traverse_window t K0 (s :: K2) C0 (c :: C2) a hC0.symm (by simp [hC2]), suf_cons,
        suf_cons]
      have := congrArg (· ++ suf K2 C2) b3
      simp only [List.append_assoc, List.cons_append] at this
      rw [this]
  · cases K2 with
    | nil =>
      obtain rfl : C2 = [] := by
        cases C2 with
        | nil => rfl
        | cons d C2 => simp at hCl; omega
      rcases eq_nil_or_snoc K1 with rfl | ⟨K0, s, rfl⟩
      · simp at hmK; omega
      rcases eq_nil_or_snoc C1 with rfl | ⟨C0, a, rfl⟩
      · simp at hC
      have hC0 : C0.length = K0.length := by simpa using hC
      have e1 : (K0 ++ [s]) ++ [] = K0 ++ [s] := by simp
      have e2 : (C0 ++ [a]) ++ [c] = C0 ++ [a, c] := by simp
      have e3 : (K0 ++ [s]).length = K0.length + 1 := by simp
      have han : ¬ t ≤ a.n := by
        intro han
        apply hA
        refine ⟨by simp, ?_⟩
        rw [e1, e2, e3, Nat.add_sub_cancel]
        have : C0 ++ [a, c] = C0 ++ a :: [c] := rfl
        rw [this, child_window _ _ _ _ _ _ _ hC0]
        exact han
      rw [e2] at hch hCl
      rw [e1] at hmK hMK hCl
      rw [e1, e2, e3]
      have ha : WF t (t - 1) h a := hch a (by simp)
      obtain ⟨b1, b2⟩ := merged_node t h (by omega) a c s ha hc
        (by have := ha.le_n; omega) hcn1
      rw [fill_merge_left _ _ _ _ _ _ _ _ rfl hC0 han,
        merge_window _ _ _ _ _ _ _ _ _ _ rfl hC0]
      refine ⟨?_, ?_, by simp⟩
      · refine WF.node _ _ _ _ (by simp at hmK ⊢; omega) (by simp at hMK ⊢; omega)
          (by simp at hCl ⊢; omega) ?_
        intro x hx'
        simp only [List.mem_append, List.mem_cons, List.not_mem_nil, or_false] at hx'
        rcases hx' with hx' | rfl
        · exact hch x (by simp [hx'])
        · exact b1.mono (by have := b1.le_n; omega)
      · rw [traverse_window t K0 [] C0 [] _ hC0.symm rfl,
          traverse_window t K0 [s] C0 [c] a hC0.symm (by simp), suf_cons, b2]
        simp
    | cons s K2 =>
      cases C2 with
      | nil => simp at hCl; omega
      | cons d C2 =>
        have hC2 : K2.length = C2.length := by simp at hCl; omega
        have hd : WF t (t - 1) h d := hch d (by simp)
        by_cases hdn : t ≤ d.n
        · obtain ⟨b1, b2, b3, -⟩ := borrowed_next t h (by omega) c d s hc hd hcn1 hdn
          rw [fill_next _ _ _ _ _ _ _ _ _ _ rfl hC hA hdn,
            borrowFromNext_window _ _ _ _ _ _ _ _ _ _ rfl hC]
          refine ⟨?_, ?_, by simp⟩
          · refine WF.node _ _ _ _ (by simp at hmK ⊢; omega) (by simp at hMK ⊢; omega)
              (by simp at hCl ⊢; omega) ?_
            intro x hx'
            simp only [List.mem_append, List.mem_cons] at hx'
            rcases hx' with hx' | rfl | rfl | hx'
            · exact hch x (by simp [hx'])
            · exact b1.mono (by have := b1.le_n; omega)
            · exact b2
            · exact hch x (by simp [hx'])
          · rw [traverse_window t K1 (_ :: K2) C1 (_ :: C2) _ hC.symm (by simp [hC2]),
              traverse_window t K1 (s :: K2) C1 (d :: C2) c hC.symm (by simp [hC2]),
              suf_cons, suf_cons]
            have := congrArg (· ++ suf K2 C2) b3
            simp only [List.append_assoc, List.cons_append] at this
            rw [this]
        · obtain ⟨b1, b2⟩ := merged_node t h (by omega) c d s hc hd hcn1
            (by have := hd.le_n; omega)
          rw [fill_merge_right _ _ _ _ _ _ _ _ _ _ rfl hC hA hdn,
            merge_window _ _ _ _ _ _ _ _ _ _ rfl hC]
          refine ⟨?_, ?_, by simp⟩
          · refine WF.node _ _ _ _ (by simp at hmK ⊢; omega) (by simp at hMK ⊢; omega)
              (by simp at hCl ⊢; omega) ?_
            intro x hx'
            simp only [List.mem_append, List.mem_cons] at hx'
            rcases hx' with hx' | rfl | hx'
            · exact hch x (by simp [hx'])
            · exact b1.mono (by have := b1.le_n; omega)
            · exact hch x (by simp [hx'])
          · rw [traverse_window t K1 K2 C1 C2 _ hC.symm hC2,
              traverse_window t K1 (s :: K2) C1 (d :: C2) c hC.symm (by simp [hC2]),
              suf_cons, b2]
            simp

theorem remove_fuel (t : Nat) (ht : 2 ≤ t) (f1 : Nat) :
    ∀ (f2 h m : Nat) (x : BTreeNode) (k : Int), WF t m h x → 1 ≤ m → h < f1 → h < f2 →
      remove f1 x k = remove f2 x k := by
  induction f1 with
  | zero => intro f2 h m x k _ _ hf; omega
  | succ f1 ih =>
    intro f2 h m x k hx hm hf1 hf2
    cases f2 with
    | zero => omega
    | succ f2 =>
      cases hx with
      | leaf _ keys h1 h2 =>
        obtain ⟨K1, K2, rfl, hi, -, -⟩ := findKeyLoop_window keys k
        rw [remove_leaf _ _ _ _ _ _ hi, remove_leaf _ _ _ _ _ _ hi]
      | node _ h keys C h1 h2 h3 h4 =>
        have hx : WF t m (h + 1) (mk t keys C false) := WF.node _ _ _ _ h1 h2 h3 h4
        obtain ⟨K1, K2, rfl, hi, -, -⟩ := findKeyLoop_window keys k
        obtain ⟨C1, c, C2, rfl, hC1⟩ := exists_window C K1.length (by simp at h3 ⊢; omega)
        have hc : WF t (t - 1) h c := h4 c (by simp)
        by_cases hfd : K2.head? = some k
        · rw [remove_found _ _ _ _ _ _ hi hfd, remove_found _ _ _ _ _ _ hi hfd]
          cases K2 with
          | nil => simp at hfd
          | cons b K2 =>
            cases C2 with
            | nil => simp at h3; omega
            | cons d C2 =>
              have hd : WF t (t - 1) h d := h4 d (by simp)
              by_cases hcn : t ≤ c.n
              · rw [removeFromNonLeaf_pred _ _ _ _ _ _ _ _ _ _ hC1 hcn,
                  removeFromNonLeaf_pred _ _ _ _ _ _ _ _ _ _ hC1 hcn,
                  lastKey_fuel t f1 f2 h _ c hc (by omega) (by omega),
                  ih f2 h _ c _ hc (by omega) (by omega) (by omega)]
              · by_cases hdn : t ≤ d.n
                · rw [removeFromNonLeaf_succ _ _ _ _ _ _ _ _ _ _ hC1 hcn hdn,
                    removeFromNonLeaf_succ _ _ _ _ _ _ _ _ _ _ hC1 hcn hdn,
                    firstKey_fuel t f1 f2 h _ d hd (by omega) (by omega),
                    ih f2 h _ d _ hd (by omega) (by omega) (by omega)]
                · obtain ⟨b1, -⟩ := merged_node t h (by omega) c d b hc hd
                    (by have := hc.le_n; omega) (by have := hd.le_n; omega)
                  rw [removeFromNonLeaf_merge _ _ _ _ _ _ _ _ _ _ hC1 hcn hdn,
                    removeFromNonLeaf_merge _ _ _ _ _ _ _ _ _ _ hC1 hcn hdn,
                    ih f2 h _ _ _ b1 (by omega) (by omega) (by omega)]
        · have hnf : ¬ (K1.length < (K1 ++ K2).length ∧ (K1 ++ K2).getD K1.length 0 = k) := by
            rw [found_iff]; exact hfd
          rw [remove_notfound_idx _ _ _ _ _ _ hi hnf, remove_notfound_idx _ _ _ _ _ _ hi hnf,
            child_window _ _ _ _ _ _ _ hC1]
          obtain ⟨x1, hx1, hw, hn⟩ : ∃ x1, x1 = (if c.n < t
              then (mk t (K1 ++ K2) (C1 ++ c :: C2) false).fill K1.length
              else mk t (K1 ++ K2) (C1 ++ c :: C2) false)
              ∧ WF t (m - 1) (h + 1) x1 ∧ (K1 ++ K2).length - 1 ≤ x1.n := by
            refine ⟨_, rfl, ?_⟩
            by_cases hcn : c.n < t
            · simp only [hcn, if_true]
              obtain ⟨w1, -, w3⟩ := fill_spec t m h ht hm K1 K2 C1 C2 c hx hC1 hcn
              exact ⟨w1, w3⟩
            · simp only [hcn, if_false]
              exact ⟨hx.weaken (by omega), by simp⟩
          rw [← hx1]
          cases hw with
          | node _ _ keys1 D g1 g2 g3 g4 =>
            have hw : WF t (m - 1) (h + 1) (mk t keys1 D false) := WF.node _ _ _ _ g1 g2 g3 g4
            simp only [n_mk] at hn ⊢
            have h5 : K1.length ≤ (K1 ++ K2).length := by simp
            split_ifs with hcond
            · rw [ih f2 h _ _ k (hw.child (K1.length - 1) (by omega)) (by omega)
                (by omega) (by omega)]
            · rw [ih f2 h _ _ k (hw.child K1.length (by
                  by_contra hgt
                  exact hcond ⟨by omega, by omega⟩)) (by omega)
                (by omega) (by omega)]

end BTreeNode


namespace BTree

open BTreeNode

/-- On a tree that satisfies the invariant, `search` on the root gives the
same result with every budget that is at least the height of the root. -/
theorem search_budget (b : BTree) (hb : b.Inv) (r : BTreeNode) (hr : b.root = some r)
    (k : Int) (f : Nat) (hf : r.height ≤ f) : r.search f k = r.search r.height k := by
  obtain ⟨⟨h, hwf⟩, -⟩ := hb.2 r hr
  have hh := hwf.height_eq
  exact search_fuel b.t k f r.height h 1 r hwf (by omega) (by omega)

/-- On a tree that satisfies the invariant, `insertNonFull` on a root that is
not full gives the same result with every budget that is at least the height
of the root. -/
theorem insert_budget (b : BTree) (hb : b.Inv) (r : BTreeNode) (hr : b.root = some r)
    (hn : r.n < 2 * b.t - 1) (k : Int) (f : Nat) (hf : r.height ≤ f) :
    r.insertNonFull f k = r.insertNonFull r.height k := by
  obtain ⟨⟨h, hwf⟩, -⟩ := hb.2 r hr
  have hh := hwf.height_eq
  exact insertNonFull_fuel b.t hb.1 k f r.height h 1 r hwf hn (by omega) (by omega)

/-- On a tree that satisfies the invariant, `remove` on the root gives the
same result with every budget that is at least the height of the root. -/
theorem remove_budget (b : BTree) (hb : b.Inv) (r : BTreeNode) (hr : b.root = some r)
    (k : Int) (f : Nat) (hf : r.height ≤ f) : r.remove f k = r.remove r.height k := by
  obtain ⟨⟨h, hwf⟩, -⟩ := hb.2 r hr
  have hh := hwf.height_eq
  exact remove_fuel b.t hb.1 f r.height h 1 r k hwf (le_refl _) (by omega) (by omega)

end BTree


/-! ## The instrumented methods compute the same nodes -/

namespace BTreeNode

theorem insertNonFullT_fst (fuel : Nat) :
    ∀ (x : BTreeNode) (k : Int), (insertNonFullT fuel x k).1 = insertNonFull fuel x k := by
  induction fuel with
  | zero => intro x k; rfl
  | succ fuel ih =>
    intro x k
    simp only [insertNonFullT, insertNonFull]
    split_ifs <;> simp [ih]

theorem fillT_fst (x : BTreeNode) (idx : Nat) : (fillT x idx).1 = fill x idx := by
  simp only [fillT, fill]
  split_ifs <;> rfl

theorem removeFromNonLeafT_fst (rm : BTreeNode → Int → BTreeNode × List RemoveCall)
    (rm0 : BTreeNode → Int → BTreeNode) (h : ∀ x k, (rm x k).1 = rm0 x k)
    (fuel : Nat) (x : BTreeNode) (idx : Nat) :
    (removeFromNonLeafT rm fuel x idx).1 = removeFromNonLeaf rm0 fuel x idx := by
  simp only [removeFromNonLeafT, removeFromNonLeaf]
  split_ifs <;> simp [h]

theorem removeT_fst (fuel : Nat) :
    ∀ (x : BTreeNode) (k : Int), (removeT fuel x k).1 = remove fuel x k := by
  induction fuel with
  | zero => intro x k; rfl
  | succ fuel ih =>
    intro x k
    have hf : ∀ idx, (if (x.child idx).n < x.t then x.fillT idx else (x, [])).1
        = (if (x.child idx).n < x.t then x.fill idx else x) := by
      intro idx
      split_ifs <;> simp [fillT_fst]
    simp only [removeT, remove, hf]
    split_ifs <;>
      simp [ih, removeFromNonLeafT_fst (removeT fuel) (remove fuel) ih]

end BTreeNode

namespace BTree

theorem insertT_fst (b : BTree) (k : Int) : (b.insertT k).1 = b.insert k := by
  simp only [insertT, insert]
  split
  · split_ifs <;> rfl
  · split_ifs <;> simp [BTreeNode.insertNonFullT_fst]

end BTree


/-! ## Properties of the public interface -/

namespace BTree

open BTreeNode

@[simp] theorem apply_t (b : BTree) (op : Op) : (b.apply op).t = b.t := by
  cases op <;> simp [BTree.apply]

@[simp] theorem run_t (t : Nat) (ops : List Op) : (BTree.run t ops).t = t := by
  induction ops using List.reverseRecOn with
  | nil => rfl
  | append_singleton ops op ih => rw [run_snoc, apply_t, ih]

theorem run_inserts_perm (t : Nat) (ht : 2 ≤ t) (hT : 2 * t ≤ INT_MAX) (ks : List Int) :
    (BTree.run t (ks.map Op.insert)).traverse.Perm ks := by
  induction ks using List.reverseRecOn with
  | nil => simp [BTree.run, BTree.empty]
  | append_singleton ks k ih =>
    rw [List.map_append, List.map_singleton, run_snoc]
    have := (insert_spec _ k (run_inv t ht (ks.map Op.insert))).2 (by rw [run_t]; exact hT)
    exact (this.trans (List.Perm.cons k ih)).trans (List.perm_append_singleton k ks).symm

/-- When `2 * t` does not fit in `int` no node is ever made: every call
leaves the tree empty. -/
theorem run_overflow (t : Nat) (hT : ¬ 2 * t ≤ INT_MAX) (ops : List Op) :
    BTree.run t ops = BTree.empty t := by
  induction ops using List.reverseRecOn with
  | nil => rfl
  | append_singleton ops op ih =>
    rw [run_snoc, ih]
    cases op with
    | insert k => exact insert_none_overflow t k hT
    | remove k => rfl

theorem search_isSome_iff (b : BTree) (hb : b.Inv) (k : Int) :
    (b.search k).isSome ↔ k ∈ b.traverse := by
  obtain ⟨root, t⟩ := b
  cases root with
  | none => simp [BTree.search]
  | some r =>
    obtain ⟨⟨h, hwf⟩, hs⟩ := hb.2 r rfl
    simp only [BTree.search, traverse_some]
    exact search_isSome t k r.height h 1 r hwf (by rw [hwf.height_eq]; omega) hs

theorem removes_drain (ks : List Int) :
    ∀ b : BTree, b.Inv → b.traverse.Perm ks →
      ((ks.map Op.remove).foldl BTree.apply b).traverse = [] := by
  induction ks with
  | nil =>
    intro b _ hp
    simpa using hp.eq_nil
  | cons k ks ih =>
    intro b hb hp
    simp only [List.map_cons, List.foldl_cons, BTree.apply]
    obtain ⟨w1, w2⟩ := remove_spec b k hb
    apply ih _ w1
    rw [w2]
    simpa using hp.erase k

theorem root_none_of_traverse_nil (b : BTree) (hb : b.Inv) (h : b.traverse = []) :
    b.root = none := by
  obtain ⟨root, t⟩ := b
  cases root with
  | none => rfl
  | some r =>
    obtain ⟨⟨h1, hwf⟩, -⟩ := hb.2 r rfl
    exact absurd h (traverse_ne_nil hb.1 hwf (le_refl _))

end BTree

/-- C2: on every tree reachable from the empty tree (`t ≥ 2`) by inserts and
removes, `remove k` for a key `k` that occurs in the traversal removes one
occurrence of `k`: the traversal before is `l₁ ++ k :: l₂` and the traversal
after is `l₁ ++ l₂` (it is the traversal before with the first occurrence of
`k` erased), so its length decreases by exactly one. -/
theorem remove_present (t : Nat) (ht : 2 ≤ t) (ops : List Op) (k : Int)
    (hk : k ∈ (BTree.run t ops).traverse) :
    ((BTree.run t ops).remove k).traverse = (BTree.run t ops).traverse.erase k
    ∧ (∃ l₁ l₂, (BTree.run t ops).traverse = l₁ ++ k :: l₂
        ∧ ((BTree.run t ops).remove k).traverse = l₁ ++ l₂)
    ∧ ((BTree.run t ops).remove k).traverse.length + 1 = (BTree.run t ops).traverse.length := by
  have h := (BTree.remove_spec _ k (BTree.run_inv t ht ops)).2
  refine ⟨h, ?_, ?_⟩
  · obtain ⟨l₁, l₂, -, h1, h2⟩ := List.exists_erase_eq hk
    exact ⟨l₁, l₂, h1, h.trans h2⟩
  · rw [h, List.length_erase_of_mem hk]
    have := List.length_pos_of_mem hk
    omega

theorem remove_present_witness :
    2 ≤ 3 ∧ (6 : Int) ∈ (BTree.run 3 [Op.insert 10, Op.insert 20, Op.insert 5, Op.insert 6,
      Op.insert 12, Op.insert 30, Op.remove 20, Op.insert 6]).traverse
    ∧ (((BTree.run 3 [Op.insert 10, Op.insert 20, Op.insert 5, Op.insert 6,
          Op.insert 12, Op.insert 30, Op.remove 20, Op.insert 6]).remove 6).traverse
        = (BTree.run 3 [Op.insert 10, Op.insert 20, Op.insert 5, Op.insert 6,
          Op.insert 12, Op.insert 30, Op.remove 20, Op.insert 6]).traverse.erase 6
      ∧ (∃ l₁ l₂, (BTree.run 3 [Op.insert 10, Op.insert 20, Op.insert 5, Op.insert 6,
          Op.insert 12, Op.insert 30, Op.remove 20, Op.insert 6]).traverse = l₁ ++ 6 :: l₂
        ∧ ((BTree.run 3 [Op.insert 10, Op.insert 20, Op.insert 5, Op.insert 6,
          Op.insert 12, Op.insert 30, Op.remove 20, Op.insert 6]).remove 6).traverse
            = l₁ ++ l₂)
      ∧ ((BTree.run 3 [Op.insert 10, Op.insert 20, Op.insert 5, Op.insert 6,
          Op.insert 12, Op.insert 30, Op.remove 20, Op.insert 6]).remove 6).traverse.length + 1
        = (BTree.run 3 [Op.insert 10, Op.insert 20, Op.insert 5, Op.insert 6,
          Op.insert 12, Op.insert 30, Op.remove 20, Op.insert 6]).traverse.length) :=
  ⟨by decide, by decide, remove_present 3 (by decide) _ 6 (by decide)⟩

/-- C3: on every tree reachable from the empty tree (`t ≥ 2`) by inserts and
removes, `remove k` for a key `k` that does not occur in the traversal leaves
the traversal unchanged. -/
theorem remove_absent (t : Nat) (ht : 2 ≤ t) (ops : List Op) (k : Int)
    (hk : k ∉ (BTree.run t ops).traverse) :
    ((BTree.run t ops).remove k).traverse = (BTree.run t ops).traverse := by
  rw [(BTree.remove_spec _ k (BTree.run_inv t ht ops)).2, List.erase_of_not_mem hk]

theorem remove_absent_witness :
    2 ≤ 2 ∧ (4 : Int) ∉ (BTree.run 2 [Op.insert 1, Op.insert 2, Op.insert 3, Op.insert 5,
      Op.insert 6, Op.insert 7, Op.remove 2]).traverse
    ∧ ((BTree.run 2 [Op.insert 1, Op.insert 2, Op.insert 3, Op.insert 5,
        Op.insert 6, Op.insert 7, Op.remove 2]).remove 4).traverse
      = (BTree.run 2 [Op.insert 1, Op.insert 2, Op.insert 3, Op.insert 5,
        Op.insert 6, Op.insert 7, Op.remove 2]).traverse :=
  ⟨by decide, by decide, remove_absent 2 (by decide) _ 4 (by decide)⟩


/-- C4: for every `t ≥ 2` and every sequence of insert and remove calls on an
initially empty tree, the resulting tree (hence the tree after every call of
the sequence) satisfies: every node holds at most `2t-1` keys, every node
other than the root holds at least `t-1` keys, every internal node with `n`
keys has exactly `n+1` children, and all leaves are at the same depth. -/
theorem shape_after_calls (t : Nat) (ht : 2 ≤ t) (ops : List Op) (r : BTreeNode)
    (hr : (BTree.run t ops).root = some r) :
    (∀ x ∈ r.nodes, x.n ≤ 2 * t - 1)
    ∧ (∀ x ∈ BTreeNode.nodesList r.C, t - 1 ≤ x.n)
    ∧ (∀ x ∈ r.nodes, x.leaf = false → x.C.length = x.n + 1)
    ∧ (∀ d₁ ∈ r.leafDepths, ∀ d₂ ∈ r.leafDepths, d₁ = d₂) := by
  obtain ⟨-, h⟩ := BTree.run_inv t ht ops
  obtain ⟨⟨h0, hwf⟩, -⟩ := h r hr
  rw [BTree.run_t] at hwf
  obtain ⟨w1, w2, w3⟩ := hwf.nodes_spec
  refine ⟨?_, w2, ?_, ?_⟩
  · intro x hx
    obtain ⟨m1, h1, hx1, -⟩ := w1 x hx
    exact hx1.n_le
  · intro x hx hl
    obtain ⟨m1, h1, hx1, -⟩ := w1 x hx
    cases hx1 with
    | leaf _ keys h1 h2 => simp at hl
    | node _ h keys C h1 h2 h3 h4 => simpa using h3
  · intro d₁ hd₁ d₂ hd₂
    rw [w3 d₁ hd₁, w3 d₂ hd₂]

theorem shape_after_calls_witness :
    2 ≤ 2
    ∧ (BTree.run 2 [Op.insert 1, Op.insert 2, Op.insert 3, Op.insert 4, Op.insert 5,
        Op.remove 1]).root
      = some (BTreeNode.mk 2 [3] [BTreeNode.mk 2 [2] [] true, BTreeNode.mk 2 [4, 5] [] true]
          false)
    ∧ ((∀ x ∈ (BTreeNode.mk 2 [3] [BTreeNode.mk 2 [2] [] true, BTreeNode.mk 2 [4, 5] [] true]
          false).nodes, x.n ≤ 2 * 2 - 1)
      ∧ (∀ x ∈ BTreeNode.nodesList (BTreeNode.mk 2 [3]
          [BTreeNode.mk 2 [2] [] true, BTreeNode.mk 2 [4, 5] [] true] false).C, 2 - 1 ≤ x.n)
      ∧ (∀ x ∈ (BTreeNode.mk 2 [3] [BTreeNode.mk 2 [2] [] true, BTreeNode.mk 2 [4, 5] [] true]
          false).nodes, x.leaf = false → x.C.length = x.n + 1)
      ∧ (∀ d₁ ∈ (BTreeNode.mk 2 [3] [BTreeNode.mk 2 [2] [] true,
            BTreeNode.mk 2 [4, 5] [] true] false).leafDepths,
          ∀ d₂ ∈ (BTreeNode.mk 2 [3] [BTreeNode.mk 2 [2] [] true,
            BTreeNode.mk 2 [4, 5] [] true] false).leafDepths, d₁ = d₂)) :=
  ⟨by decide, rfl, shape_after_calls 2 (by decide) [Op.insert 1, Op.insert 2, Op.insert 3,
    Op.insert 4, Op.insert 5, Op.remove 1] _ rfl⟩

/-- C5 fails as stated: with `t = 2`, after inserting the key `1` four times
the root holds the key `1` and its child `C[0]` holds the keys `1, 1`, which
are not strictly less than `keys[0]`. -/
theorem strict_order_counterexample :
    (BTree.run 2 [Op.insert 1, Op.insert 1, Op.insert 1, Op.insert 1]).root
      = some (BTreeNode.mk 2 [1] [BTreeNode.mk 2 [1, 1] [] true, BTreeNode.mk 2 [1] [] true]
          false)
    ∧ ¬ (∀ r, (BTree.run 2 [Op.insert 1, Op.insert 1, Op.insert 1, Op.insert 1]).root = some r →
        ∀ x ∈ r.nodes, x.leaf = false → BTreeNode.StrictAt x) := by
  refine ⟨rfl, ?_⟩
  intro h
  have h1 := h _ rfl _ (BTreeNode.self_mem_nodes _) rfl 0 (by decide)
  have h2 := h1.1 1 (by decide)
  exact absurd h2 (by decide)

/-- C5 (amended): for every `t ≥ 2` and every sequence of insert and remove
calls on an initially empty tree, every internal node of the resulting tree
satisfies the order invariant with equality admitted: every key of the
subtree `children[i]` is at most `keys[i]` and every key of the subtree
`children[i+1]` is at least `keys[i]`; the inequalities are strict whenever
no key occurs twice in the tree. -/
theorem order_after_calls (t : Nat) (ht : 2 ≤ t) (ops : List Op) (r : BTreeNode)
    (hr : (BTree.run t ops).root = some r) :
    (∀ x ∈ r.nodes, x.leaf = false → BTreeNode.OrderedAt x)
    ∧ (r.traverse.Nodup → ∀ x ∈ r.nodes, x.leaf = false → BTreeNode.StrictAt x) := by
  obtain ⟨-, h⟩ := BTree.run_inv t ht ops
  obtain ⟨⟨h0, hwf⟩, hs⟩ := h r hr
  obtain ⟨w1, -, -⟩ := hwf.nodes_spec
  constructor
  · intro x hx _
    obtain ⟨m1, h1, hx1, hsub⟩ := w1 x hx
    exact (BTreeNode.orderedAt_of_sorted hx1 (hs.sublist hsub)).1
  · intro hnd x hx hl
    obtain ⟨m1, h1, hx1, hsub⟩ := w1 x hx
    exact (BTreeNode.orderedAt_of_sorted hx1 (hs.sublist hsub)).2 (hnd.sublist hsub) hl

theorem order_after_calls_witness :
    2 ≤ 2
    ∧ (BTree.run 2 [Op.insert 1, Op.insert 2, Op.insert 3, Op.insert 4, Op.insert 5,
        Op.remove 1]).root
      = some (BTreeNode.mk 2 [3] [BTreeNode.mk 2 [2] [] true, BTreeNode.mk 2 [4, 5] [] true]
          false)
    ∧ (BTreeNode.mk 2 [3] [BTreeNode.mk 2 [2] [] true, BTreeNode.mk 2 [4, 5] [] true]
          false).traverse.Nodup
    ∧ (∀ x ∈ (BTreeNode.mk 2 [3] [BTreeNode.mk 2 [2] [] true, BTreeNode.mk 2 [4, 5] [] true]
          false).nodes, x.leaf = false → BTreeNode.OrderedAt x)
    ∧ (∀ x ∈ (BTreeNode.mk 2 [3] [BTreeNode.mk 2 [2] [] true, BTreeNode.mk 2 [4, 5] [] true]
          false).nodes, x.leaf = false → BTreeNode.StrictAt x) :=
  ⟨by decide, rfl, by decide,
    (order_after_calls 2 (by decide) [Op.insert 1, Op.insert 2, Op.insert 3, Op.insert 4,
      Op.insert 5, Op.remove 1] _ rfl).1,
    (order_after_calls 2 (by decide) [Op.insert 1, Op.insert 2, Op.insert 3, Op.insert 4,
      Op.insert 5, Op.remove 1] _ rfl).2 (by decide)⟩

/-- C6: on every tree reachable from the empty tree (`t ≥ 2`) by inserts and
removes, `search k` returns a node exactly when `k` occurs in the traversal;
a node it returns is a node of the tree and holds `k` among its `n` keys; on
the empty tree it returns not-found. -/
theorem search_correct (t : Nat) (ht : 2 ≤ t) (ops : List Op) (k : Int) :
    (((BTree.run t ops).search k).isSome ↔ k ∈ (BTree.run t ops).traverse)
    ∧ (∀ y, (BTree.run t ops).search k = some y →
        k ∈ y.keys ∧ ∃ r, (BTree.run t ops).root = some r ∧ y ∈ r.nodes)
    ∧ (BTree.empty t).search k = none := by
  refine ⟨BTree.search_isSome_iff _ (BTree.run_inv t ht ops) k, ?_, rfl⟩
  intro y hy
  cases hr : (BTree.run t ops).root with
  | none => simp [BTree.search, hr] at hy
  | some r =>
    simp only [BTree.search, hr] at hy
    exact ⟨BTreeNode.search_keys _ _ _ _ hy, r, rfl, BTreeNode.search_mem_nodes _ _ _ _ hy⟩

theorem search_correct_witness :
    2 ≤ 3
    ∧ ((((BTree.run 3 [Op.insert 10, Op.insert 20, Op.insert 5, Op.insert 6, Op.insert 12,
          Op.insert 30, Op.insert 7, Op.insert 17]).search 12).isSome
        ↔ (12 : Int) ∈ (BTree.run 3 [Op.insert 10, Op.insert 20, Op.insert 5, Op.insert 6,
          Op.insert 12, Op.insert 30, Op.insert 7, Op.insert 17]).traverse)
      ∧ (∀ y, (BTree.run 3 [Op.insert 10, Op.insert 20, Op.insert 5, Op.insert 6, Op.insert 12,
          Op.insert 30, Op.insert 7, Op.insert 17]).search 12 = some y →
          (12 : Int) ∈ y.keys ∧ ∃ r, (BTree.run 3 [Op.insert 10, Op.insert 20, Op.insert 5,
            Op.insert 6, Op.insert 12, Op.insert 30, Op.insert 7, Op.insert 17]).root = some r
            ∧ y ∈ r.nodes)
      ∧ (BTree.empty 3).search 12 = none) :=
  ⟨by decide, search_correct 3 (by decide) _ 12⟩

/-- C8: on every tree reachable from the empty tree (`t ≥ 2`) by inserts and
removes, for a key `k` that occurs at most once in the tree, searching `k`
immediately after `remove k` returns not-found. -/
theorem search_after_remove (t : Nat) (ht : 2 ≤ t) (ops : List Op) (k : Int)
    (hk : (BTree.run t ops).traverse.count k ≤ 1) :
    ((BTree.run t ops).remove k).search k = none := by
  obtain ⟨w1, w2⟩ := BTree.remove_spec _ k (BTree.run_inv t ht ops)
  have h := BTree.search_isSome_iff _ w1 k
  have hnot : k ∉ ((BTree.run t ops).remove k).traverse := by
    rw [w2, ← List.count_eq_zero, List.count_erase_self]
    omega
  cases hs : ((BTree.run t ops).remove k).search k with
  | none => rfl
  | some y =>
    rw [hs] at h
    exact absurd (h.1 rfl) hnot

theorem search_after_remove_witness :
    2 ≤ 2
    ∧ (BTree.run 2 [Op.insert 4, Op.insert 2, Op.insert 9, Op.insert 7, Op.insert 2,
        Op.insert 5]).traverse.count 7 ≤ 1
    ∧ ((BTree.run 2 [Op.insert 4, Op.insert 2, Op.insert 9, Op.insert 7, Op.insert 2,
        Op.insert 5]).remove 7).search 7 = none :=
  ⟨by decide, by decide, search_after_remove 2 (by decide) _ 7 (by decide)⟩

/-- C9 (full drain): for every `t ≥ 2`, every list of keys and every
permutation of that list, inserting all keys of the list into an empty tree
and then removing each key of the permutation once leaves the tree empty: the
root is null and `traverse` emits nothing. -/
theorem full_drain (t : Nat) (ht : 2 ≤ t) (ks ks₁ : List Int) (hp : ks₁.Perm ks) :
    (BTree.run t (ks.map Op.insert ++ ks₁.map Op.remove)).root = none
    ∧ (BTree.run t (ks.map Op.insert ++ ks₁.map Op.remove)).traverse = [] := by
  have hinv := BTree.run_inv t ht (ks.map Op.insert ++ ks₁.map Op.remove)
  have htr : (BTree.run t (ks.map Op.insert ++ ks₁.map Op.remove)).traverse = [] := by
    by_cases hT : 2 * t ≤ INT_MAX
    · have : BTree.run t (ks.map Op.insert ++ ks₁.map Op.remove)
          = (ks₁.map Op.remove).foldl BTree.apply (BTree.run t (ks.map Op.insert)) := by
        simp [BTree.run, List.foldl_append]
      rw [this]
      exact BTree.removes_drain ks₁ _ (BTree.run_inv t ht _)
        ((BTree.run_inserts_perm t ht hT ks).trans hp.symm)
    · rw [BTree.run_overflow t hT]
      rfl
  exact ⟨BTree.root_none_of_traverse_nil _ hinv htr, htr⟩

theorem full_drain_witness :
    2 ≤ 3
    ∧ List.Perm [6, 13, 7, 4, 2, 12, 30, 10, 20, 5, 3, 1, 9, 8, 11, 14, 17, 40, 50, 60]
        [10, 20, 5, 6, 12, 30, 7, 17, 3, 4, 2, 40, 50, 60, 1, 8, 9, 11, 13, 14]
    ∧ ((BTree.run 3
          (([10, 20, 5, 6, 12, 30, 7, 17, 3, 4, 2, 40, 50, 60, 1, 8, 9, 11, 13, 14] :
              List Int).map Op.insert
            ++ ([6, 13, 7, 4, 2, 12, 30, 10, 20, 5, 3, 1, 9, 8, 11, 14, 17, 40, 50, 60] :
              List Int).map Op.remove)).root = none
      ∧ (BTree.run 3
          (([10, 20, 5, 6, 12, 30, 7, 17, 3, 4, 2, 40, 50, 60, 1, 8, 9, 11, 13, 14] :
              List Int).map Op.insert
            ++ ([6, 13, 7, 4, 2, 12, 30, 10, 20, 5, 3, 1, 9, 8, 11, 14, 17, 40, 50, 60] :
              List Int).map Op.remove)).traverse = []) :=
  ⟨by decide, by decide,
    full_drain 3 (by decide) [10, 20, 5, 6, 12, 30, 7, 17, 3, 4, 2, 40, 50, 60, 1, 8, 9, 11, 13, 14]
      [6, 13, 7, 4, 2, 12, 30, 10, 20, 5, 3, 1, 9, 8, 11, 14, 17, 40, 50, 60] (by decide)⟩

/-- C10: constructing a `BTree` with minimum degree `t` raises the
invalid-configuration error, and produces no tree, exactly when `t < 2`; for
every `t ≥ 2` construction succeeds, and the tree it yields is empty: null
root, empty traversal, every search not-found. -/
theorem new_spec (t : Int) :
    ((∃ e, BTree.new t = Except.error e) ↔ t < 2)
    ∧ ((∃ b, BTree.new t = Except.ok b) ↔ 2 ≤ t)
    ∧ (∀ b, BTree.new t = Except.ok b →
        b.root = none ∧ b.t = t.toNat ∧ b.traverse = [] ∧ ∀ k, b.search k = none) := by
  by_cases h : t < 2
  · simp [BTree.new, h]
  · have h2 : 2 ≤ t := by omega
    simp only [BTree.new, h, if_false, Except.ok.injEq, exists_eq', iff_true, h2,
      exists_false, false_iff, not_false_eq_true, true_and, reduceCtorEq, not_lt]
    intro b hb
    subst hb
    exact ⟨rfl, rfl, rfl, fun _ => rfl⟩

theorem new_spec_witness :
    BTree.new 3 = Except.ok (BTree.empty 3)
    ∧ (BTree.empty 3).root = none ∧ (BTree.empty 3).t = (3 : Int).toNat
    ∧ (BTree.empty 3).traverse = [] ∧ ∀ k, (BTree.empty 3).search k = none :=
  ⟨rfl, (new_spec 3).2.2 (BTree.empty 3) rfl⟩

/-! ## `splitChild` and `merge` on a node with a full child -/

namespace BTreeNode

theorem mk_eta (x : BTreeNode) : mk x.t x.keys x.C x.leaf = x := by
  cases x; rfl

theorem traverseLoop_leaf (ks : List Int) (C : List BTreeNode) : traverseLoop ks C true = ks := by
  induction ks generalizing C with
  | nil => cases C <;> simp [traverseLoop]
  | cons k ks ih => cases C <;> simp [traverseLoop, ih]

theorem keys_split (t : Nat) (keys : List Int) (hl : keys.length = 2 * t - 1) (ht : 1 ≤ t) :
    keys = keys.take (t - 1) ++ keys.getD (t - 1) 0 :: (keys.drop t).take (t - 1)
    ∧ (keys.drop t).take (t - 1) = keys.drop t := by
  obtain ⟨A, a, B, rfl, hA⟩ := exists_window keys (t - 1) (by omega)
  have hB : B.length = t - 1 := by simp at hl; omega
  have hd : (A ++ a :: B).drop t = B := by
    have : A ++ a :: B = (A ++ [a]) ++ B := by simp
    rw [this]; exact drop_at (by simp; omega)
  rw [take_at hA, getD_at _ _ hA, hd, ← hB]
  simp

/-- The traversal of a full node is the traversal of its first half, its
median key, and the traversal of its second half. -/
theorem split_traverse (t : Nat) (ht : 1 ≤ t) (y : BTreeNode) (hn : y.n = 2 * t - 1)
    (hC : y.leaf = false → y.C.length = 2 * t) :
    y.traverse = (mk y.t (y.keys.take (t - 1)) (y.C.take t) y.leaf).traverse
      ++ y.key (t - 1) :: (mk y.t ((y.keys.drop t).take (t - 1))
        (if !y.leaf then (y.C.drop t).take t else []) y.leaf).traverse := by
  obtain ⟨ty, keys, C, lf⟩ := y
  simp only [n_mk, leaf_mk, C_mk] at hn hC
  simp only [t_mk, keys_mk, C_mk, leaf_mk, key, traverse_mk]
  cases lf with
  | true =>
    simp only [traverseLoop_leaf]
    exact (keys_split t keys hn ht).1
  | false =>
    have hCl := hC rfl
    have hC2 : C = C.take t ++ (C.drop t).take t := by
      have : (C.drop t).take t = C.drop t := by
        apply List.take_of_length_le; simp; omega
      rw [this]; simp
    conv_lhs => rw [(keys_split t keys hn ht).1, hC2]
    rw [traverseLoop_cut_key _ _ _ _ _ (by simp; omega)]
    simp

end BTreeNode

/-! ## Calls made by `insertNonFull` -/

namespace BTreeNode

theorem insertNonFullT_leaf (fuel t : Nat) (keys : List Int) (C : List BTreeNode) (k : Int) :
    insertNonFullT (fuel + 1) (mk t keys C true) k
      = (mk t (keys.take (scanDown keys k keys.length) ++ k
          :: keys.drop (scanDown keys k keys.length)) C true,
        [InsertCall.insertNonFull (mk t keys C true) k]) := by
  simp [insertNonFullT]

theorem insertNonFullT_full (fuel t : Nat) (keys : List Int) (C : List BTreeNode) (k : Int)
    (i : Nat) (hi : i = scanDown keys k keys.length)
    (hfull : ((mk t keys C false).child i).n = 2 * t - 1) :
    insertNonFullT (fuel + 1) (mk t keys C false) k
      = (((mk t keys C false).splitChild i ((mk t keys C false).child i)).setChild
            (if ((mk t keys C false).splitChild i ((mk t keys C false).child i)).key i < k
              then i + 1 else i)
            (insertNonFullT fuel
              (((mk t keys C false).splitChild i ((mk t keys C false).child i)).child
                (if ((mk t keys C false).splitChild i ((mk t keys C false).child i)).key i < k
                  then i + 1 else i)) k).1,
          InsertCall.insertNonFull (mk t keys C false) k
            :: InsertCall.splitChild (mk t keys C false) i ((mk t keys C false).child i)
            :: (insertNonFullT fuel
              (((mk t keys C false).splitChild i ((mk t keys C false).child i)).child
                (if ((mk t keys C false).splitChild i ((mk t keys C false).child i)).key i < k
                  then i + 1 else i)) k).2) := by
  subst hi
  rw [insertNonFullT]
  simp only [leaf_mk, keys_mk, n_mk, t_mk, hfull]
  simp

theorem insertNonFullT_nonfull (fuel t : Nat) (keys : List Int) (C : List BTreeNode) (k : Int)
    (i : Nat) (hi : i = scanDown keys k keys.length)
    (hfull : ¬ ((mk t keys C false).child i).n = 2 * t - 1) :
    insertNonFullT (fuel + 1) (mk t keys C false) k
      = ((mk t keys C false).setChild i
            (insertNonFullT fuel ((mk t keys C false).child i) k).1,
          InsertCall.insertNonFull (mk t keys C false) k
            :: (insertNonFullT fuel ((mk t keys C false).child i) k).2) := by
  subst hi
  rw [insertNonFullT]
  simp only [leaf_mk, keys_mk, n_mk, t_mk, hfull]
  simp

/-- Method `insertNonFull` on a well-formed node that is not full: the node
stays well formed at the same height, every call of `insertNonFull` made on
the way is on a node that is not full, and every call of `splitChild` is on a
node that is not full, for a child that is full. -/
theorem insertNonFullT_spec (t : Nat) (ht : 2 ≤ t) (k : Int) (fuel : Nat) :
    ∀ (h m : Nat) (x : BTreeNode), WF t m h x → x.n < 2 * t - 1 → h < fuel →
      WF t m h (insertNonFullT fuel x k).1
      ∧ (∀ y k1, InsertCall.insertNonFull y k1 ∈ (insertNonFullT fuel x k).2 →
          y.n < 2 * t - 1)
      ∧ (∀ y i c, InsertCall.splitChild y i c ∈ (insertNonFullT fuel x k).2 →
          y.n < 2 * t - 1 ∧ y.leaf = false ∧ y.C.length = y.n + 1 ∧ i ≤ y.n
            ∧ c = y.child i ∧ c.n = 2 * t - 1 ∧ (c.leaf = false → c.C.length = 2 * t)) := by
  induction fuel with
  | zero => intro h m x _ _ hf; omega
  | succ fuel ih =>
    intro h m x hx hn hf
    cases hx with
    | leaf _ keys h1 h2 =>
      obtain ⟨K1, K2, rfl, hi, -, -⟩ := scanDown_window keys k
      rw [insertNonFullT_leaf, ← hi, take_at rfl, drop_at rfl]
      refine ⟨WF.leaf _ _ (by simp at h1 ⊢; omega) (by simp at hn ⊢; omega), ?_, ?_⟩
      · intro y k1 hy
        simp only [List.mem_singleton, InsertCall.insertNonFull.injEq] at hy
        rw [hy.1]; exact hn
      · intro y i c hy
        simp at hy
    | node _ h keys C h1 h2 h3 h4 =>
      have hx : WF t m (h + 1) (mk t keys C false) := WF.node _ _ _ _ h1 h2 h3 h4
      obtain ⟨K1, K2, rfl, hi, -, -⟩ := scanDown_window keys k
      obtain ⟨C1, c, C2, rfl, hC1⟩ := exists_window C K1.length (by simp at h3 ⊢; omega)
      have hc : WF t (t - 1) h c := h4 c (by simp)
      have hchild := child_window t (K1 ++ K2) C1 C2 c false K1.length hC1
      by_cases hfull : c.n = 2 * t - 1
      · rw [insertNonFullT_full fuel t _ _ k K1.length hi (by rw [hchild]; exact hfull),
          hchild, splitChild_window t K1 K2 C1 C2 c false K1.length rfl hC1,
          key_window _ _ _ _ _ _ _ rfl]
        obtain ⟨a1, a2, -⟩ := split_halves t (t - 1) h (by omega) c hc hfull
        have n1 : (mk c.t (c.keys.take (t - 1)) (c.C.take t) c.leaf).n < 2 * t - 1 := by
          simp only [n_mk, List.length_take]; omega
        have n2 : (mk c.t ((c.keys.drop t).take (t - 1))
            (if !c.leaf then (c.C.drop t).take t else []) c.leaf).n < 2 * t - 1 := by
          simp only [n_mk, List.length_take]; omega
        have hx1 : WF t m (h + 1) (mk t (K1 ++ c.key (t - 1) :: K2)
            (C1 ++ mk c.t (c.keys.take (t - 1)) (c.C.take t) c.leaf
              :: mk c.t ((c.keys.drop t).take (t - 1))
                (if !c.leaf then (c.C.drop t).take t else []) c.leaf :: C2) false) := by
          refine WF.node _ _ _ _ (by simp at h1 ⊢; omega) (by simp at hn ⊢; omega)
            (by simp at h3 ⊢; omega) ?_
          intro d hd
          simp only [List.mem_append, List.mem_cons] at hd
          rcases hd with hd | rfl | rfl | hd
          · exact h4 d (by simp [hd])
          · exact a1
          · exact a2
          · exact h4 d (by simp [hd])
        have hsplit : ∀ y i c1, InsertCall.splitChild y i c1
              = InsertCall.splitChild (mk t (K1 ++ K2) (C1 ++ c :: C2) false) K1.length c →
            y.n < 2 * t - 1 ∧ y.leaf = false ∧ y.C.length = y.n + 1 ∧ i ≤ y.n
              ∧ c1 = y.child i ∧ c1.n = 2 * t - 1 ∧ (c1.leaf = false → c1.C.length = 2 * t) := by
          intro y i c1 e
          simp only [InsertCall.splitChild.injEq] at e
          obtain ⟨rfl, rfl, rfl⟩ := e
          refine ⟨hn, rfl, h3, by simp, hchild.symm, hfull, ?_⟩
          intro hl
          cases hc with
          | leaf _ keys h1 h2 => simp at hl
          | node _ _ keys D g1 g2 g3 g4 =>
            simp only [n_mk] at hfull
            simp only [C_mk, g3, hfull]; omega
        by_cases hlt : c.key (t - 1) < k
        · simp only [hlt, if_true]
          rw [child_window_succ _ _ _ _ _ _ _ _ hC1, setChild_window_succ _ _ _ _ _ _ _ _ _ hC1]
          obtain ⟨w1, w2, w3⟩ := ih h (t - 1) _ a2 n2 (by omega)
          have hx2 : WF t m (h + 1) (mk t (K1 ++ c.key (t - 1) :: K2)
              ((C1 ++ [mk c.t (c.keys.take (t - 1)) (c.C.take t) c.leaf])
                ++ mk c.t ((c.keys.drop t).take (t - 1))
                  (if !c.leaf then (c.C.drop t).take t else []) c.leaf :: C2) false) := by
            simpa using hx1
          have hx3 := WF.replace_child hx2 w1
          simp only [List.append_assoc, List.singleton_append] at hx3
          refine ⟨hx3, ?_, ?_⟩
          · intro y k1 hy
            simp only [List.mem_cons, InsertCall.insertNonFull.injEq, reduceCtorEq,
              false_or] at hy
            rcases hy with ⟨rfl, -⟩ | hy
            · exact hn
            · exact w2 y k1 hy
          · intro y i c1 hy
            simp only [List.mem_cons, reduceCtorEq, false_or] at hy
            rcases hy with hy | hy
            · exact hsplit y i c1 hy
            · exact w3 y i c1 hy
        · simp only [hlt, if_false]
          rw [child_window _ _ _ _ _ _ _ hC1, setChild_window _ _ _ _ _ _ _ _ hC1]
          obtain ⟨w1, w2, w3⟩ := ih h (t - 1) _ a1 n1 (by omega)
          refine ⟨WF.replace_child hx1 w1, ?_, ?_⟩
          · intro y k1 hy
            simp only [List.mem_cons, InsertCall.insertNonFull.injEq, reduceCtorEq,
              false_or] at hy
            rcases hy with ⟨rfl, -⟩ | hy
            · exact hn
            · exact w2 y k1 hy
          · intro y i c1 hy
            simp only [List.mem_cons, reduceCtorEq, false_or] at hy
            rcases hy with hy | hy
            · exact hsplit y i c1 hy
            · exact w3 y i c1 hy
      · rw [insertNonFullT_nonfull fuel t _ _ k K1.length hi (by rw [hchild]; exact hfull),
          hchild, setChild_window _ _ _ _ _ _ _ _ hC1]
        obtain ⟨w1, w2, w3⟩ := ih h (t - 1) c hc (by have := hc.n_le; omega) (by omega)
        refine ⟨WF.replace_child hx w1, ?_, ?_⟩
        · intro y k1 hy
          simp only [List.mem_cons, InsertCall.insertNonFull.injEq] at hy
          rcases hy with ⟨rfl, -⟩ | hy
          · exact hn
          · exact w2 y k1 hy
        · intro y i c1 hy
          simp only [List.mem_cons, reduceCtorEq, false_or] at hy
          exact w3 y i c1 hy

end BTreeNode

namespace BTree

open BTreeNode

theorem insertT_full (t : Nat) (r : BTreeNode) (k : Int) (hfull : r.n = 2 * t - 1) :
    (insertNonFullT (r.height + 1) (BTreeNode.mk t [] [r] false) k).1
        = ((BTree.mk (some r) t).insertT k).1.root.getD r
    ∧ (insertNonFullT (r.height + 1) (BTreeNode.mk t [] [r] false) k).2
        = InsertCall.insertNonFull (BTreeNode.mk t [] [r] false) k
          :: ((BTree.mk (some r) t).insertT k).2 := by
  have h0 : ((BTreeNode.mk t [] [r] false).child 0).n = 2 * t - 1 := by
    simpa [child] using hfull
  rw [insertNonFullT_full (r.height) t [] [r] k 0 (by simp [scanDown]) h0]
  simp [BTree.insertT, hfull, child]

theorem insertT_nonfull (t : Nat) (r : BTreeNode) (k : Int) (hfull : ¬ r.n = 2 * t - 1) :
    (BTree.mk (some r) t).insertT k
      = (⟨some (insertNonFullT r.height r k).1, t⟩, (insertNonFullT r.height r k).2) := by
  simp [BTree.insertT, hfull]

end BTree

/-! ## Number of keys and height -/

namespace BTreeNode

theorem length_traverseLoop (keys : List Int) (C : List BTreeNode)
    (h : C.length = keys.length + 1) :
    (traverseLoop keys C false).length + 1
      = (C.map (fun c => c.traverse.length + 1)).sum := by
  induction keys generalizing C with
  | nil =>
    match C, h with
    | [c], _ => simp [traverseLoop]
  | cons k ks ih =>
    match C, h with
    | c :: c1 :: cs, h =>
      have := ih (c1 :: cs) (by simpa using h)
      simp only [traverseLoop, Bool.not_false, if_true, List.length_append, List.length_cons,
        List.map_cons, List.sum_cons] at this ⊢
      omega

theorem sum_ge_of_forall_ge (C : List BTreeNode) (f : BTreeNode → Nat) (a : Nat)
    (h : ∀ c ∈ C, a ≤ f c) : C.length * a ≤ (C.map f).sum := by
  induction C with
  | nil => simp
  | cons c cs ih =>
    have h1 := h c (by simp)
    have h2 := ih (fun d hd => h d (List.mem_cons_of_mem _ hd))
    simp only [List.length_cons, List.map_cons, List.sum_cons]
    rw [Nat.add_mul]
    omega

/-- A well-formed subtree whose leaves are `h` levels down and whose top node
holds at least `m` keys holds at least `(m+1) * t^h - 1` keys. -/
theorem WF.count {t m h : Nat} {x : BTreeNode} (hx : WF t m h x) (ht : 1 ≤ t) :
    (m + 1) * t ^ h ≤ x.traverse.length + 1 := by
  induction hx with
  | leaf m keys h1 h2 => simp; omega
  | node m h keys C h1 h2 h3 h4 ih =>
    rw [traverse_mk, length_traverseLoop keys C h3]
    have h5 := sum_ge_of_forall_ge C (fun c => c.traverse.length + 1) (t ^ (h + 1))
      (fun c hc => by
        have := ih c hc
        rw [Nat.sub_add_cancel ht, ← pow_succ'] at this
        exact this)
    calc (m + 1) * t ^ (h + 1) ≤ C.length * t ^ (h + 1) :=
          Nat.mul_le_mul_right _ (by omega)
      _ ≤ _ := h5

theorem WF.leafDepths_ne_nil {t m h : Nat} {x : BTreeNode} (hx : WF t m h x) :
    x.leafDepths ≠ [] := by
  induction hx with
  | leaf m keys h1 h2 => simp [leafDepths]
  | node m h keys C h1 h2 h3 h4 ih =>
    cases C with
    | nil => simp at h3
    | cons c cs =>
      have := ih c (by simp)
      simp [leafDepths, leafDepthsList, this]

/-! ## Order inside the nodes and the descent rule -/

theorem keys_sublist_traverseLoop (keys : List Int) (C : List BTreeNode) (lf : Bool) :
    keys.Sublist (traverseLoop keys C lf) := by
  induction keys generalizing C with
  | nil => exact List.nil_sublist _
  | cons k ks ih =>
    cases C with
    | nil => simp
    | cons c cs =>
      simp only [traverseLoop]
      exact (List.Sublist.cons₂ k (ih cs)).trans (List.sublist_append_right _ _)

theorem keys_sublist_traverse (x : BTreeNode) : x.keys.Sublist x.traverse := by
  cases x; simp only [keys_mk, traverse_mk]; exact keys_sublist_traverseLoop _ _ _

theorem reach_eq_search (fuel : Nat) :
    ∀ (x : BTreeNode) (k : Int), reach fuel x k = (search fuel x k).isSome := by
  induction fuel with
  | zero => intro x k; rfl
  | succ fuel ih =>
    intro x k
    simp only [reach, search, findKey, searchIdx_eq_findKeyLoop]
    split_ifs <;> simp [ih, findKey]

/-! ## `remove` of an absent key along a path of nodes with at least `t` keys -/

theorem key_mem_keys (x : BTreeNode) (i : Nat) (hi : i < x.n) : x.key i ∈ x.keys := by
  rw [key, List.getD_eq_getElem _ _ hi]
  exact List.getElem_mem _

theorem setChild_child (x : BTreeNode) (i : Nat) (hi : i < x.C.length) :
    x.setChild i (x.child i) = x := by
  obtain ⟨t, keys, C, lf⟩ := x
  simp only [C_mk] at hi
  obtain ⟨C1, c, C2, rfl, hC1⟩ := exists_window C i hi
  rw [child_window _ _ _ _ _ _ _ hC1, setChild_window _ _ _ _ _ _ _ _ hC1]

theorem remove_rich (t : Nat) (k : Int) (fuel : Nat) :
    ∀ (h m : Nat) (x : BTreeNode), WF t m h x → h < fuel → k ∉ x.traverse →
      richPath fuel x k = true → remove fuel x k = x := by
  induction fuel with
  | zero => intro h m x _ hf; omega
  | succ fuel ih =>
    intro h m x hx hf hk hrich
    have hnf : ¬ (x.findKey k < x.n ∧ x.key (x.findKey k) = k) := by
      rintro ⟨h1, h2⟩
      exact hk ((keys_sublist_traverse x).subset (h2 ▸ key_mem_keys x _ h1))
    cases hx with
    | leaf _ keys h1 h2 =>
      rw [remove]
      simp only [hnf, if_false, leaf_mk, if_true]
    | node _ h keys C h1 h2 h3 h4 =>
      have hx : WF t m (h + 1) (mk t keys C false) := WF.node _ _ _ _ h1 h2 h3 h4
      have hidx : findKeyLoop k keys ≤ keys.length := by
        rw [← searchIdx_eq_findKeyLoop]; exact searchIdx_le k keys
      have hc := hx.child (findKeyLoop k keys) hidx
      simp only [richPath, leaf_mk, Bool.false_or, Bool.and_eq_true, decide_eq_true_eq,
        findKey, keys_mk, t_mk] at hrich
      obtain ⟨hr1, hr2⟩ := hrich
      have hsub : ((mk t keys C false).child (findKeyLoop k keys)).traverse.Sublist
          (mk t keys C false).traverse := by
        obtain ⟨w, -, -⟩ := hx.nodes_spec
        have hmem : (mk t keys C false).child (findKeyLoop k keys)
            ∈ (mk t keys C false).nodes := by
          rw [nodes_eq]
          refine List.mem_cons_of_mem _ (mem_nodesList.2 ⟨_, child_mem _ _ (by simp; omega),
            self_mem_nodes _⟩)
        obtain ⟨_, _, _, hs⟩ := w _ hmem
        exact hs
      have hnf1 : ¬ (findKeyLoop k keys < keys.length
          ∧ keys.getD (findKeyLoop k keys) 0 = k) := by
        simpa [findKey, key] using hnf
      rw [remove_notfound_idx fuel t keys C k (findKeyLoop k keys) rfl hnf1]
      simp only [Nat.not_lt.2 hr1, if_false, n_mk]
      rw [if_neg (by omega),
        ih h _ _ hc (by omega) (fun hmem => hk (hsub.subset hmem)) hr2]
      exact setChild_child _ _ (by simp; omega)

end BTreeNode

/-! ## The child `remove` descends into -/

namespace BTreeNode

theorem n_borrowFromPrev (x : BTreeNode) (idx : Nat) : (x.borrowFromPrev idx).n = x.n := by
  simp [borrowFromPrev, n]

theorem n_borrowFromNext (x : BTreeNode) (idx : Nat) : (x.borrowFromNext idx).n = x.n := by
  simp [borrowFromNext, n]

theorem n_merge (x : BTreeNode) (i : Nat) (hi : i < x.n) : (x.merge i).n = x.n - 1 := by
  have hi1 : i < x.keys.length := hi
  simp [merge, n, List.length_eraseIdx, hi1]

/-- The five ways `remove` prepares its descent from an internal node that
does not hold the key: which rebuilding `fill` performs, if any, which call of
`merge` it makes, and the index of the child descended into afterwards. -/
theorem descent_cases (x : BTreeNode) (idx : Nat) (hn : 1 ≤ x.n) :
    (x.t ≤ (x.child idx).n →
      x.fillBefore idx = x ∧ x.descentIdx idx = idx
      ∧ (if (x.child idx).n < x.t then x.fillT idx else (x, [])).2 = [])
    ∧ ((x.child idx).n < x.t → idx ≠ 0 ∧ x.t ≤ (x.child (idx - 1)).n →
      x.fillBefore idx = x.borrowFromPrev idx ∧ x.descentIdx idx = idx
      ∧ (if (x.child idx).n < x.t then x.fillT idx else (x, [])).2 = [])
    ∧ ((x.child idx).n < x.t → ¬ (idx ≠ 0 ∧ x.t ≤ (x.child (idx - 1)).n) →
      idx ≠ x.n ∧ x.t ≤ (x.child (idx + 1)).n →
      x.fillBefore idx = x.borrowFromNext idx ∧ x.descentIdx idx = idx
      ∧ (if (x.child idx).n < x.t then x.fillT idx else (x, [])).2 = [])
    ∧ ((x.child idx).n < x.t → ¬ (idx ≠ 0 ∧ x.t ≤ (x.child (idx - 1)).n) →
      idx ≠ x.n → ¬ x.t ≤ (x.child (idx + 1)).n →
      x.fillBefore idx = x.merge idx ∧ x.descentIdx idx = idx
      ∧ (if (x.child idx).n < x.t then x.fillT idx else (x, [])).2
          = [RemoveCall.merge x idx])
    ∧ ((x.child idx).n < x.t → ¬ (idx ≠ 0 ∧ x.t ≤ (x.child (idx - 1)).n) →
      idx = x.n →
      x.fillBefore idx = x.merge (idx - 1) ∧ x.descentIdx idx = idx - 1
      ∧ (if (x.child idx).n < x.t then x.fillT idx else (x, [])).2
          = [RemoveCall.merge x (idx - 1)]) := by
  refine ⟨?_, ?_, ?_, ?_, ?_⟩
  · intro h1
    have e : x.fillBefore idx = x := by simp [fillBefore, Nat.not_lt.2 h1]
    refine ⟨e, ?_, by simp [Nat.not_lt.2 h1]⟩
    rw [descentIdx, e, if_neg (by omega)]
  · intro h1 h2
    have e : x.fillBefore idx = x.borrowFromPrev idx := by
      simp only [fillBefore, fill, ge_iff_le]
      rw [if_pos h1, if_pos h2]
    refine ⟨e, ?_, ?_⟩
    · rw [descentIdx, e, n_borrowFromPrev, if_neg (by omega)]
    · simp only [fillT, ge_iff_le]
      rw [if_pos h1, if_pos h2]
  · intro h1 h2 h3
    have e : x.fillBefore idx = x.borrowFromNext idx := by
      simp only [fillBefore, fill, ge_iff_le]
      rw [if_pos h1, if_neg h2, if_pos h3]
    refine ⟨e, ?_, ?_⟩
    · rw [descentIdx, e, n_borrowFromNext, if_neg (by omega)]
    · simp only [fillT, ge_iff_le]
      rw [if_pos h1, if_neg h2, if_pos h3]
  · intro h1 h2 h3 h4
    have h5 : ¬ (idx ≠ x.n ∧ x.t ≤ (x.child (idx + 1)).n) := fun h => h4 h.2
    have e : x.fillBefore idx = x.merge idx := by
      simp only [fillBefore, fill, ge_iff_le]
      rw [if_pos h1, if_neg h2, if_neg h5, if_pos h3]
    refine ⟨e, ?_, ?_⟩
    · rw [descentIdx, if_neg (by omega)]
    · simp only [fillT, ge_iff_le]
      rw [if_pos h1, if_neg h2, if_neg h5, if_pos h3]
  · intro h1 h2 h3
    have h5 : ¬ (idx ≠ x.n ∧ x.t ≤ (x.child (idx + 1)).n) := fun h => h.1 h3
    have e : x.fillBefore idx = x.merge (idx - 1) := by
      simp only [fillBefore, fill, ge_iff_le]
      rw [if_pos h1, if_neg h2, if_neg h5, if_neg (not_not.2 h3)]
    refine ⟨e, ?_, ?_⟩
    · rw [descentIdx, e, n_merge _ _ (by omega), if_pos (by omega)]
    · simp only [fillT, ge_iff_le]
      rw [if_pos h1, if_neg h2, if_neg h5, if_neg (not_not.2 h3)]

/-- The child rebuilt by `borrowFromPrev` holds the keys of the child before. -/
theorem borrowed_prev_mem (c d : BTreeNode) (s : Int) :
    ∀ a ∈ c.traverse,
      a ∈ (mk c.t (s :: c.keys) (if !c.leaf then d :: c.C else c.C) c.leaf).traverse := by
  obtain ⟨tc, Kc, Cc, lf⟩ := c
  intro a ha
  cases lf with
  | true =>
    simp only [traverse_mk, traverseLoop_leaf, t_mk, keys_mk, leaf_mk] at ha ⊢
    exact List.mem_cons_of_mem _ ha
  | false =>
    simp only [traverse_mk, t_mk, keys_mk, leaf_mk, C_mk, Bool.not_false, if_true,
      traverseLoop] at ha ⊢
    simp [ha]

/-- The child rebuilt by `borrowFromNext` holds the keys of the child before. -/
theorem borrowed_next_mem (c d : BTreeNode) (s : Int)
    (hC : c.leaf = false → c.C.length = c.n + 1) :
    ∀ a ∈ c.traverse,
      a ∈ (mk c.t (c.keys ++ [s]) (if !c.leaf then c.C ++ [d] else c.C) c.leaf).traverse := by
  obtain ⟨tc, Kc, Cc, lf⟩ := c
  intro a ha
  cases lf with
  | true =>
    simp only [traverse_mk, traverseLoop_leaf, t_mk, keys_mk, leaf_mk] at ha ⊢
    exact List.mem_append.2 (Or.inl ha)
  | false =>
    have := hC rfl
    simp only [C_mk, n_mk] at this
    simp only [traverse_mk, t_mk, keys_mk, leaf_mk, C_mk, Bool.not_false, if_true] at ha ⊢
    rw [traverseLoop_cut_key Kc [] s Cc [d] this]
    exact List.mem_append.2 (Or.inl ha)

end BTreeNode

namespace BTreeNode

theorem WF.C_length {t m h : Nat} {x : BTreeNode} (hx : WF t m h x) (hl : x.leaf = false) :
    x.C.length = x.n + 1 := by
  cases hx with
  | leaf _ keys h1 h2 => simp at hl
  | node _ _ keys C h1 h2 h3 h4 => simpa using h3

/-- What holds once `remove` has prepared its descent from a node `x` of a
well-formed tree at child index `idx`: the child it descends into has at
least `t` keys and sits at a valid index, it holds every key the child at
`idx` held before, and the only calls `fill` made are calls of `merge` on two
neighbouring children of `x` with `t - 1` keys each. -/
theorem descent_spec (t m h : Nat) (ht : 2 ≤ t) (hm : 1 ≤ m) (x : BTreeNode) (idx : Nat)
    (hx : WF t m (h + 1) x) (hidx : idx ≤ x.n) :
    WF t t h ((x.fillBefore idx).child (x.descentIdx idx))
    ∧ x.descentIdx idx ≤ (x.fillBefore idx).n
    ∧ WF t (m - 1) (h + 1) (x.fillBefore idx)
    ∧ (∀ a ∈ (x.child idx).traverse,
        a ∈ ((x.fillBefore idx).child (x.descentIdx idx)).traverse)
    ∧ (∀ y i, RemoveCall.merge y i ∈ (if (x.child idx).n < x.t then x.fillT idx else (x, [])).2 →
        y = x ∧ i < x.n ∧ (x.child i).n = t - 1 ∧ (x.child (i + 1)).n = t - 1)
    ∧ (∀ y k, RemoveCall.remove y k ∉
        (if (x.child idx).n < x.t then x.fillT idx else (x, [])).2) := by
  cases hx with
  | node _ _ keys C hmK hMK hCl hch =>
  have hx : WF t m (h + 1) (mk t keys C false) := WF.node _ _ _ _ hmK hMK hCl hch
  simp only [n_mk] at hidx
  obtain ⟨K1, K2, rfl, hK1⟩ := exists_split keys idx hidx
  obtain ⟨C1, c, C2, rfl, hC1⟩ := exists_window C idx (by omega)
  subst hK1
  have hC := hC1
  have hcx : (mk t (K1 ++ K2) (C1 ++ c :: C2) false).child K1.length = c :=
    child_window _ _ _ _ _ _ _ hC1
  have hc : WF t (t - 1) h c := hch c (by simp)
  obtain ⟨DA, DB, DC, DD, DE⟩ := descent_cases (mk t (K1 ++ K2) (C1 ++ c :: C2) false) K1.length
    (by simp only [n_mk]; omega)
  have hF : WF t (m - 1) (h + 1) ((mk t (K1 ++ K2) (C1 ++ c :: C2) false).fillBefore K1.length) := by
    rw [fillBefore, hcx, t_mk]
    by_cases hcn : c.n < t
    · rw [if_pos hcn]; exact (fill_spec t m h ht hm K1 K2 C1 C2 c hx hC1 hcn).1
    · rw [if_neg hcn]; exact hx.weaken (by omega)
  suffices key : WF t t h (((mk t (K1 ++ K2) (C1 ++ c :: C2) false).fillBefore K1.length).child
        ((mk t (K1 ++ K2) (C1 ++ c :: C2) false).descentIdx K1.length))
      ∧ (mk t (K1 ++ K2) (C1 ++ c :: C2) false).descentIdx K1.length
          ≤ ((mk t (K1 ++ K2) (C1 ++ c :: C2) false).fillBefore K1.length).n
      ∧ (∀ a ∈ c.traverse,
          a ∈ (((mk t (K1 ++ K2) (C1 ++ c :: C2) false).fillBefore K1.length).child
            ((mk t (K1 ++ K2) (C1 ++ c :: C2) false).descentIdx K1.length)).traverse)
      ∧ (∀ y i, RemoveCall.merge y i ∈ (if c.n < t
            then (mk t (K1 ++ K2) (C1 ++ c :: C2) false).fillT K1.length
            else (mk t (K1 ++ K2) (C1 ++ c :: C2) false, [])).2 →
          y = mk t (K1 ++ K2) (C1 ++ c :: C2) false
          ∧ i < (mk t (K1 ++ K2) (C1 ++ c :: C2) false).n
          ∧ ((mk t (K1 ++ K2) (C1 ++ c :: C2) false).child i).n = t - 1
          ∧ ((mk t (K1 ++ K2) (C1 ++ c :: C2) false).child (i + 1)).n = t - 1)
      ∧ (∀ y k, RemoveCall.remove y k ∉ (if c.n < t
            then (mk t (K1 ++ K2) (C1 ++ c :: C2) false).fillT K1.length
            else (mk t (K1 ++ K2) (C1 ++ c :: C2) false, [])).2) by
    rw [hcx, t_mk]
    exact ⟨key.1, key.2.1, hF, key.2.2⟩
  rw [hcx] at DA DB DC DD DE
  simp only [t_mk] at DA DB DC DD DE
  by_cases hcn : t ≤ c.n
  · obtain ⟨f1, f2, f3⟩ := DA hcn
    rw [f1, f2, f3, hcx]
    exact ⟨hc.mono hcn, by simp only [n_mk]; omega, fun a ha => ha, by simp, by simp⟩
  have hcn0 : c.n < t := by omega
  have hcn1 : c.n = t - 1 := by have := hc.le_n; omega
  by_cases hA : K1.length ≠ 0
      ∧ t ≤ ((mk t (K1 ++ K2) (C1 ++ c :: C2) false).child (K1.length - 1)).n
  · obtain ⟨f1, f2, f3⟩ := DB hcn0 hA
    rw [f1, f2, f3]
    obtain ⟨hne, han⟩ := hA
    rcases eq_nil_or_snoc K1 with rfl | ⟨K0, s, rfl⟩
    · simp at hne
    rcases eq_nil_or_snoc C1 with rfl | ⟨C0, a, rfl⟩
    · simp at hC
    have hC0 : C0.length = K0.length := by simpa using hC
    have e1 : (K0 ++ [s]) ++ K2 = K0 ++ s :: K2 := by simp
    have e2 : (C0 ++ [a]) ++ c :: C2 = C0 ++ a :: c :: C2 := by simp
    have e3 : (K0 ++ [s]).length = K0.length + 1 := by simp
    rw [e1, e2, e3, Nat.add_sub_cancel, child_window _ _ _ _ _ _ _ hC0] at han
    rw [e2] at hch
    have ha : WF t (t - 1) h a := hch a (by simp)
    obtain ⟨-, b2, -, -⟩ := borrowed_prev t h (by omega) a c s ha hc han hcn1
    rw [e1, e2, e3, borrowFromPrev_window _ _ _ _ _ _ _ _ _ _ rfl hC0,
      child_window_succ _ _ _ _ _ _ _ _ hC0]
    exact ⟨b2, by simp, borrowed_prev_mem c _ s, by simp, by simp⟩
  · cases K2 with
    | nil =>
      obtain rfl : C2 = [] := by
        cases C2 with
        | nil => rfl
        | cons d C2 => simp at hCl; omega
      obtain ⟨f1, f2, f3⟩ := DE hcn0 hA (by simp)
      rw [f1, f2, f3]
      rcases eq_nil_or_snoc K1 with rfl | ⟨K0, s, rfl⟩
      · simp at hmK; omega
      rcases eq_nil_or_snoc C1 with rfl | ⟨C0, a, rfl⟩
      · simp at hC
      have hC0 : C0.length = K0.length := by simpa using hC
      have e1 : (K0 ++ [s]) ++ [] = K0 ++ [s] := by simp
      have e2 : (C0 ++ [a]) ++ [c] = C0 ++ [a, c] := by simp
      have e3 : (K0 ++ [s]).length = K0.length + 1 := by simp
      have e4 : C0 ++ [a, c] = C0 ++ a :: [c] := rfl
      have han : ¬ t ≤ a.n := by
        intro han
        apply hA
        refine ⟨by simp, ?_⟩
        rw [e1, e2, e3, Nat.add_sub_cancel, e4, child_window _ _ _ _ _ _ _ hC0]
        exact han
      rw [e2] at hch
      have ha : WF t (t - 1) h a := hch a (by simp)
      obtain ⟨b1, b2⟩ := merged_node t h (by omega) a c s ha hc
        (by have := ha.le_n; omega) hcn1
      rw [e1, e2, e3, Nat.add_sub_cancel, merge_window _ _ _ _ _ _ _ _ _ _ rfl hC0,
        child_window _ _ _ _ _ _ _ hC0]
      refine ⟨b1, by simp, ?_, ?_, by simp⟩
      · intro p hp; rw [b2]; simp [hp]
      · intro y i hy
        simp only [List.mem_singleton, RemoveCall.merge.injEq] at hy
        obtain ⟨rfl, rfl⟩ := hy
        rw [e4, child_window _ _ _ _ _ _ _ hC0, child_window_succ _ _ _ _ _ _ _ _ hC0]
        exact ⟨rfl, by simp, by have := ha.le_n; omega, hcn1⟩
    | cons s K2 =>
      cases C2 with
      | nil => simp at hCl; omega
      | cons d C2 =>
        have hd : WF t (t - 1) h d := hch d (by simp)
        have hne : K1.length ≠ (mk t (K1 ++ s :: K2) (C1 ++ c :: d :: C2) false).n := by simp
        by_cases hdn : t ≤ d.n
        · obtain ⟨f1, f2, f3⟩ := DC hcn0 hA
            ⟨hne, by rw [child_window_succ _ _ _ _ _ _ _ _ hC]; exact hdn⟩
          obtain ⟨b1, -, -, -⟩ := borrowed_next t h (by omega) c d s hc hd hcn1 hdn
          rw [f1, f2, f3, borrowFromNext_window _ _ _ _ _ _ _ _ _ _ rfl hC,
            child_window _ _ _ _ _ _ _ hC]
          exact ⟨b1, by simp, borrowed_next_mem c _ s hc.C_length, by simp, by simp⟩
        · obtain ⟨f1, f2, f3⟩ := DD hcn0 hA hne
            (by rw [child_window_succ _ _ _ _ _ _ _ _ hC]; exact hdn)
          obtain ⟨b1, b2⟩ := merged_node t h (by omega) c d s hc hd hcn1
            (by have := hd.le_n; omega)
          rw [f1, f2, f3, merge_window _ _ _ _ _ _ _ _ _ _ rfl hC,
            child_window _ _ _ _ _ _ _ hC]
          refine ⟨b1, by simp, ?_, ?_, by simp⟩
          · intro p hp; rw [b2]; simp [hp]
          · intro y i hy
            simp only [List.mem_singleton, RemoveCall.merge.injEq] at hy
            obtain ⟨rfl, rfl⟩ := hy
            rw [child_window _ _ _ _ _ _ _ hC, child_window_succ _ _ _ _ _ _ _ _ hC]
            exact ⟨rfl, by simp, hcn1, by have := hd.le_n; omega⟩

end BTreeNode

namespace BTreeNode

/-- The not-found branch of `remove` on an internal node, written with the
node after `fill` and the recomputed index. -/
theorem remove_descent (fuel : Nat) (x : BTreeNode) (k : Int) (hl : x.leaf = false)
    (hnf : ¬ (x.findKey k < x.n ∧ x.key (x.findKey k) = k)) :
    remove (fuel + 1) x k
      = (x.fillBefore (x.findKey k)).setChild (x.descentIdx (x.findKey k))
          (remove fuel ((x.fillBefore (x.findKey k)).child (x.descentIdx (x.findKey k))) k) := by
  rw [remove]
  simp only [hnf, if_false, hl, Bool.false_eq_true, decide_eq_true_eq]
  by_cases hc : x.findKey k = x.n ∧ x.findKey k > (x.fillBefore (x.findKey k)).n
  · have hc1 := hc
    rw [fillBefore] at hc1
    rw [if_pos hc1, descentIdx, if_pos hc, fillBefore]
  · have hc1 := hc
    rw [fillBefore] at hc1
    rw [if_neg hc1, descentIdx, if_neg hc, fillBefore]

theorem removeT_descent (fuel : Nat) (x : BTreeNode) (k : Int) (hl : x.leaf = false)
    (hnf : ¬ (x.findKey k < x.n ∧ x.key (x.findKey k) = k)) :
    (removeT (fuel + 1) x k).2
      = (if (x.child (x.findKey k)).n < x.t then x.fillT (x.findKey k) else (x, [])).2
        ++ RemoveCall.remove ((x.fillBefore (x.findKey k)).child (x.descentIdx (x.findKey k))) k
        :: (removeT fuel ((x.fillBefore (x.findKey k)).child (x.descentIdx (x.findKey k))) k).2 := by
  have hf : (if (x.child (x.findKey k)).n < x.t then x.fillT (x.findKey k) else (x, [])).1
      = x.fillBefore (x.findKey k) := by
    rw [fillBefore]
    split_ifs <;> simp [fillT_fst]
  rw [removeT]
  simp only [hnf, if_false, hl, Bool.false_eq_true, decide_eq_true_eq, hf]
  by_cases hc : x.findKey k = x.n ∧ x.findKey k > (x.fillBefore (x.findKey k)).n
  · rw [if_pos hc, descentIdx, if_pos hc]
  · rw [if_neg hc, descentIdx, if_neg hc]

theorem removeT_leaf (fuel : Nat) (x : BTreeNode) (k : Int) (hl : x.leaf = true) :
    (removeT fuel x k).2 = [] := by
  cases fuel with
  | zero => rfl
  | succ fuel =>
    rw [removeT]
    simp only [hl, if_true]
    split_ifs <;> rfl

theorem removeT_found (fuel : Nat) (x : BTreeNode) (k : Int) (hl : x.leaf = false)
    (hf : x.findKey k < x.n ∧ x.key (x.findKey k) = k) :
    removeT (fuel + 1) x k = removeFromNonLeafT (removeT fuel) fuel x (x.findKey k) := by
  rw [removeT]
  simp only [hf, hl, and_self, if_true, Bool.false_eq_true, if_false]

theorem removeFromNonLeafT_pred (rm : BTreeNode → Int → BTreeNode × List RemoveCall)
    (fuel t : Nat) (K1 K2 : List Int) (s : Int) (C1 C2 : List BTreeNode) (c d : BTreeNode)
    (hC : C1.length = K1.length) (hcn : t ≤ c.n) :
    (removeFromNonLeafT rm fuel (mk t (K1 ++ s :: K2) (C1 ++ c :: d :: C2) false) K1.length).2
      = RemoveCall.remove c (lastKey fuel c) :: (rm c (lastKey fuel c)).2 := by
  simp only [removeFromNonLeafT, t_mk, keys_mk, C_mk, leaf_mk, child_window _ _ _ _ _ _ _ hC,
    ge_iff_le, hcn, if_true, getPred, set_at _ _ rfl, setChild_window _ _ _ _ _ _ _ _ hC]

theorem removeFromNonLeafT_succ (rm : BTreeNode → Int → BTreeNode × List RemoveCall)
    (fuel t : Nat) (K1 K2 : List Int) (s : Int) (C1 C2 : List BTreeNode) (c d : BTreeNode)
    (hC : C1.length = K1.length) (hcn : ¬ t ≤ c.n) (hdn : t ≤ d.n) :
    (removeFromNonLeafT rm fuel (mk t (K1 ++ s :: K2) (C1 ++ c :: d :: C2) false) K1.length).2
      = RemoveCall.remove d (firstKey fuel d) :: (rm d (firstKey fuel d)).2 := by
  simp only [removeFromNonLeafT, t_mk, keys_mk, C_mk, leaf_mk, child_window _ _ _ _ _ _ _ hC,
    child_window_succ _ _ _ _ _ _ _ _ hC, ge_iff_le, hcn, hdn, if_true, if_false, getSucc,
    set_at _ _ rfl, setChild_window_succ _ _ _ _ _ _ _ _ _ hC]

theorem removeFromNonLeafT_merge (rm : BTreeNode → Int → BTreeNode × List RemoveCall)
    (fuel t : Nat) (K1 K2 : List Int) (s : Int) (C1 C2 : List BTreeNode) (c d : BTreeNode)
    (hC : C1.length = K1.length) (hcn : ¬ t ≤ c.n) (hdn : ¬ t ≤ d.n) :
    (removeFromNonLeafT rm fuel (mk t (K1 ++ s :: K2) (C1 ++ c :: d :: C2) false) K1.length).2
      = RemoveCall.merge (mk t (K1 ++ s :: K2) (C1 ++ c :: d :: C2) false) K1.length
        :: RemoveCall.remove
            (mk c.t (c.keys ++ s :: d.keys) (if !c.leaf then c.C ++ d.C else c.C) c.leaf) s
        :: (rm (mk c.t (c.keys ++ s :: d.keys) (if !c.leaf then c.C ++ d.C else c.C) c.leaf)
            s).2 := by
  simp only [removeFromNonLeafT, t_mk, keys_mk, C_mk, leaf_mk, child_window _ _ _ _ _ _ _ hC,
    child_window_succ _ _ _ _ _ _ _ _ hC, ge_iff_le, hcn, hdn, if_false,
    merge_window _ _ _ _ _ _ _ _ _ _ rfl hC, key_window _ _ _ _ _ _ _ rfl,
    setChild_window _ _ _ _ _ _ _ _ hC]

end BTreeNode

namespace BTreeNode

/-- Every recursive call of `remove` made while `remove` runs on a node of a
well-formed tree is made on a node with at least `t` keys, and every call of
`merge` is made on a node at two neighbouring children with `t - 1` keys
each. -/
theorem removeT_spec (t : Nat) (ht : 2 ≤ t) (fuel : Nat) :
    ∀ (h m : Nat) (x : BTreeNode) (k : Int), WF t m h x → 1 ≤ m → h < fuel →
      (∀ y k1, RemoveCall.remove y k1 ∈ (removeT fuel x k).2 → t ≤ y.n)
      ∧ (∀ y i, RemoveCall.merge y i ∈ (removeT fuel x k).2 →
          i < y.n ∧ y.C.length = y.n + 1
          ∧ (y.child i).n = t - 1 ∧ (y.child (i + 1)).n = t - 1) := by
  induction fuel with
  | zero => intro h m x k _ _ hf; omega
  | succ fuel ih =>
    intro h m x k hx hm hf
    cases hx with
    | leaf _ keys h1 h2 =>
      rw [removeT_leaf _ (mk t keys [] true) _ rfl]
      simp
    | node _ h keys C h1 h2 h3 h4 =>
      have hx : WF t m (h + 1) (mk t keys C false) := WF.node _ _ _ _ h1 h2 h3 h4
      obtain ⟨K1, K2, rfl, hi, -, -⟩ := findKeyLoop_window keys k
      obtain ⟨C1, c, C2, rfl, hC1⟩ := exists_window C K1.length (by simp at h3 ⊢; omega)
      have hc : WF t (t - 1) h c := h4 c (by simp)
      have hfk : (mk t (K1 ++ K2) (C1 ++ c :: C2) false).findKey k = K1.length := by
        simp [findKey, hi]
      have hfi : ((mk t (K1 ++ K2) (C1 ++ c :: C2) false).findKey k
            < (mk t (K1 ++ K2) (C1 ++ c :: C2) false).n
          ∧ (mk t (K1 ++ K2) (C1 ++ c :: C2) false).key
              ((mk t (K1 ++ K2) (C1 ++ c :: C2) false).findKey k) = k)
          ↔ K2.head? = some k := by
        rw [hfk]
        simp only [n_mk, key, keys_mk]
        exact found_iff K1 K2 k
      by_cases hfd : K2.head? = some k
      · rw [removeT_found _ (mk t (K1 ++ K2) (C1 ++ c :: C2) false) _ rfl (hfi.2 hfd), hfk]
        cases K2 with
        | nil => simp at hfd
        | cons b K2 =>
          cases C2 with
          | nil => simp at h3; omega
          | cons d C2 =>
            have hd : WF t (t - 1) h d := h4 d (by simp)
            by_cases hcn : t ≤ c.n
            · rw [removeFromNonLeafT_pred _ _ _ _ _ _ _ _ _ _ hC1 hcn]
              obtain ⟨i1, i2⟩ := ih h t c (lastKey fuel c) (hc.mono hcn) (by omega) (by omega)
              refine ⟨?_, ?_⟩
              · intro y k1 hy
                simp only [List.mem_cons, RemoveCall.remove.injEq] at hy
                rcases hy with ⟨rfl, rfl⟩ | hy
                · exact hcn
                · exact i1 _ _ hy
              · intro y i hy
                simp only [List.mem_cons, reduceCtorEq, false_or] at hy
                exact i2 _ _ hy
            · by_cases hdn : t ≤ d.n
              · rw [removeFromNonLeafT_succ _ _ _ _ _ _ _ _ _ _ hC1 hcn hdn]
                obtain ⟨i1, i2⟩ := ih h t d (firstKey fuel d) (hd.mono hdn) (by omega)
                  (by omega)
                refine ⟨?_, ?_⟩
                · intro y k1 hy
                  simp only [List.mem_cons, RemoveCall.remove.injEq] at hy
                  rcases hy with ⟨rfl, rfl⟩ | hy
                  · exact hdn
                  · exact i1 _ _ hy
                · intro y i hy
                  simp only [List.mem_cons, reduceCtorEq, false_or] at hy
                  exact i2 _ _ hy
              · obtain ⟨b1, -⟩ := merged_node t h (by omega) c d b hc hd
                  (by have := hc.le_n; omega) (by have := hd.le_n; omega)
                rw [removeFromNonLeafT_merge _ _ _ _ _ _ _ _ _ _ hC1 hcn hdn]
                obtain ⟨i1, i2⟩ := ih h t _ b b1 (by omega) (by omega)
                refine ⟨?_, ?_⟩
                · intro y k1 hy
                  simp only [List.mem_cons, RemoveCall.remove.injEq, reduceCtorEq,
                    false_or] at hy
                  rcases hy with ⟨rfl, rfl⟩ | hy
                  · exact b1.le_n
                  · exact i1 _ _ hy
                · intro y i hy
                  simp only [List.mem_cons, RemoveCall.merge.injEq, reduceCtorEq,
                    false_or] at hy
                  rcases hy with ⟨rfl, rfl⟩ | hy
                  · rw [child_window _ _ _ _ _ _ _ hC1,
                      child_window_succ _ _ _ _ _ _ _ _ hC1]
                    refine ⟨by simp, by simpa using h3, ?_, ?_⟩
                    · have := hc.le_n; omega
                    · have := hd.le_n; omega
                  · exact i2 _ _ hy
      · have hnf := fun hh => hfd (hfi.1 hh)
        rw [removeT_descent _ (mk t (K1 ++ K2) (C1 ++ c :: C2) false) _ rfl hnf, hfk]
        obtain ⟨d1, -, -, -, d5, d6⟩ := descent_spec t m h ht hm _ K1.length hx (by simp)
        obtain ⟨i1, i2⟩ := ih h t _ k d1 (by omega) (by omega)
        refine ⟨?_, ?_⟩
        · intro y k1 hy
          simp only [List.mem_append, List.mem_cons, RemoveCall.remove.injEq] at hy
          rcases hy with hy | ⟨rfl, rfl⟩ | hy
          · exact absurd hy (d6 _ _)
          · exact d1.le_n
          · exact i1 _ _ hy
        · intro y i hy
          simp only [List.mem_append, List.mem_cons, reduceCtorEq, false_or] at hy
          rcases hy with hy | hy
          · obtain ⟨rfl, e1, e2, e3⟩ := d5 _ _ hy
            exact ⟨e1, by simpa using h3, e2, e3⟩
          · exact i2 _ _ hy

theorem findKey_le (x : BTreeNode) (k : Int) : x.findKey k ≤ x.n := by
  obtain ⟨K1, K2, e, hi, -, -⟩ := findKeyLoop_window x.keys k
  have := congrArg List.length e
  simp only [List.length_append] at this
  simp only [findKey, n, ← hi]
  omega

theorem WF.leaf_false {t m h : Nat} {x : BTreeNode} (hx : WF t m (h + 1) x) :
    x.leaf = false := by
  cases hx; rfl

theorem not_found_of_not_mem (x : BTreeNode) (k : Int) (hk : k ∉ x.keys) :
    ¬ (x.findKey k < x.n ∧ x.key (x.findKey k) = k) := by
  rintro ⟨q1, q2⟩
  exact hk (q2 ▸ key_mem_keys _ _ q1)

end BTreeNode

/-! ## Further properties of the public interface and of the node methods -/

open BTreeNode

/-- C11: with `t = 3`, inserting 10, 20, 5, 6, 12, 30, 7, 17 in that order
into an empty tree gives the traversal 5 6 7 10 12 17 20 30; `remove 6` then
gives 5 7 10 12 17 20 30; `remove 30` then gives 5 7 10 12 17 20; and on that
tree `search 100` is not-found and `search 12` is found. -/
theorem scenario_t3 :
    (BTree.run 3 ([10, 20, 5, 6, 12, 30, 7, 17].map Op.insert)).traverse
      = [5, 6, 7, 10, 12, 17, 20, 30]
    ∧ ((BTree.run 3 ([10, 20, 5, 6, 12, 30, 7, 17].map Op.insert)).remove 6).traverse
      = [5, 7, 10, 12, 17, 20, 30]
    ∧ (((BTree.run 3 ([10, 20, 5, 6, 12, 30, 7, 17].map Op.insert)).remove 6).remove 30).traverse
      = [5, 7, 10, 12, 17, 20]
    ∧ ((((BTree.run 3 ([10, 20, 5, 6, 12, 30, 7, 17].map Op.insert)).remove 6).remove 30).search
        100).isSome = false
    ∧ ((((BTree.run 3 ([10, 20, 5, 6, 12, 30, 7, 17].map Op.insert)).remove 6).remove 30).search
        12).isSome = true := by
  decide

/-- C12 fails as stated: with `t = 2`, after inserting 1, 2, 3, 4 the root
holds the key 2 over the leaves `[1]` and `[3, 4]`; `remove 0`, for the absent
key 0, fills the leaf `[1]` by borrowing from its right sibling before going
down, and leaves the root with the key 3 over the leaves `[1, 2]` and `[4]`. -/
theorem remove_absent_restructures :
    (0 : Int) ∉ (BTree.run 2 [Op.insert 1, Op.insert 2, Op.insert 3, Op.insert 4]).traverse
    ∧ (BTree.run 2 [Op.insert 1, Op.insert 2, Op.insert 3, Op.insert 4]).root
      = some (BTreeNode.mk 2 [2] [BTreeNode.mk 2 [1] [] true, BTreeNode.mk 2 [3, 4] [] true]
          false)
    ∧ ((BTree.run 2 [Op.insert 1, Op.insert 2, Op.insert 3, Op.insert 4]).remove 0).root
      = some (BTreeNode.mk 2 [3] [BTreeNode.mk 2 [1, 2] [] true, BTreeNode.mk 2 [4] [] true]
          false)
    ∧ (BTree.run 2 [Op.insert 1, Op.insert 2, Op.insert 3, Op.insert 4]).remove 0
      ≠ BTree.run 2 [Op.insert 1, Op.insert 2, Op.insert 3, Op.insert 4] := by
  refine ⟨by decide, rfl, rfl, ?_⟩
  intro h
  have h1 := congrArg (fun b : BTree => b.root.map BTreeNode.keys) h
  exact absurd h1 (by decide)

/-- C12 (amended): on every tree reachable from the empty tree (`t ≥ 2`) by
inserts and removes, `remove k` for a key `k` that does not occur in the tree
leaves the traversal unchanged; and the tree after the call is identical to
the tree before (same shape, same keys in the same nodes) whenever every child
on the descent path of `k` holds at least `t` keys, so that `fill` is not
called. -/
theorem remove_absent_tree (t : Nat) (ht : 2 ≤ t) (ops : List Op) (k : Int)
    (hk : k ∉ (BTree.run t ops).traverse) :
    ((BTree.run t ops).remove k).traverse = (BTree.run t ops).traverse
    ∧ ((∀ r, (BTree.run t ops).root = some r → r.richPath r.height k = true) →
        (BTree.run t ops).remove k = BTree.run t ops) := by
  have hinv := BTree.run_inv t ht ops
  refine ⟨by rw [(BTree.remove_spec _ k hinv).2, List.erase_of_not_mem hk], ?_⟩
  intro hrich
  generalize BTree.run t ops = b at hk hinv hrich
  obtain ⟨root, t1⟩ := b
  cases root with
  | none => rfl
  | some r =>
    obtain ⟨⟨h, hwf⟩, -⟩ := hinv.2 r rfl
    have hh := hwf.height_eq
    have := remove_rich t1 k r.height h 1 r hwf (by omega) hk (hrich r rfl)
    simp only [BTree.remove, this]
    have hn := hwf.le_n
    rw [if_neg (by omega)]

theorem remove_absent_tree_witness :
    2 ≤ 2
    ∧ (5 : Int) ∉ (BTree.run 2 [Op.insert 1, Op.insert 2, Op.insert 3, Op.insert 4]).traverse
    ∧ ((BTree.run 2 [Op.insert 1, Op.insert 2, Op.insert 3, Op.insert 4]).remove 5).traverse
        = (BTree.run 2 [Op.insert 1, Op.insert 2, Op.insert 3, Op.insert 4]).traverse
    ∧ (BTree.run 2 [Op.insert 1, Op.insert 2, Op.insert 3, Op.insert 4]).remove 5
        = BTree.run 2 [Op.insert 1, Op.insert 2, Op.insert 3, Op.insert 4] :=
  ⟨by decide, by decide,
    (remove_absent_tree 2 (by decide) [Op.insert 1, Op.insert 2, Op.insert 3, Op.insert 4] 5
      (by decide)).1,
    (remove_absent_tree 2 (by decide) [Op.insert 1, Op.insert 2, Op.insert 3, Op.insert 4] 5
      (by decide)).2 (fun r hr => by
        have e : (BTree.run 2 [Op.insert 1, Op.insert 2, Op.insert 3, Op.insert 4]).root
            = some (BTreeNode.mk 2 [2]
                [BTreeNode.mk 2 [1] [] true, BTreeNode.mk 2 [3, 4] [] true] false) := rfl
        rw [e] at hr
        cases hr
        decide)⟩

/-- C13: `splitChild` on a non-full internal node `x` (with `n` keys and `n+1`
children) whose child `y = C[i]` holds exactly `2t-1` keys (and `2t` children
if it is internal).  Afterwards the child at index `i` keeps the first `t-1`
keys of `y` and, if internal, its first `t` children; the node at index `i+1`
holds the last `t-1` keys of `y` and, if internal, its last `t` children; the
former median `y.keys[t-1]` is `keys[i]` of `x`; the key count of `x` has
grown by exactly one, within capacity, its other keys and children being
shifted right in order; and the traversal of `x` is unchanged. -/
theorem splitChild_post (x : BTreeNode) (i : Nat) (ht : 1 ≤ x.t) (hleaf : x.leaf = false)
    (hC : x.C.length = x.n + 1) (hn : x.n < 2 * x.t - 1) (hi : i ≤ x.n)
    (hy : (x.child i).n = 2 * x.t - 1)
    (hyC : (x.child i).leaf = false → (x.child i).C.length = 2 * x.t) :
    ((x.splitChild i (x.child i)).child i).keys = (x.child i).keys.take (x.t - 1)
    ∧ ((x.splitChild i (x.child i)).child i).n = x.t - 1
    ∧ ((x.splitChild i (x.child i)).child i).leaf = (x.child i).leaf
    ∧ ((x.child i).leaf = false →
        ((x.splitChild i (x.child i)).child i).C = (x.child i).C.take x.t
        ∧ ((x.splitChild i (x.child i)).child i).C.length = x.t)
    ∧ ((x.splitChild i (x.child i)).child (i + 1)).keys = (x.child i).keys.drop x.t
    ∧ ((x.splitChild i (x.child i)).child (i + 1)).n = x.t - 1
    ∧ ((x.splitChild i (x.child i)).child (i + 1)).leaf = (x.child i).leaf
    ∧ ((x.child i).leaf = false →
        ((x.splitChild i (x.child i)).child (i + 1)).C = (x.child i).C.drop x.t
        ∧ ((x.splitChild i (x.child i)).child (i + 1)).C.length = x.t)
    ∧ (x.splitChild i (x.child i)).key i = (x.child i).key (x.t - 1)
    ∧ (x.splitChild i (x.child i)).n = x.n + 1
    ∧ (x.splitChild i (x.child i)).n ≤ 2 * x.t - 1
    ∧ (x.splitChild i (x.child i)).C.length ≤ 2 * x.t
    ∧ (x.splitChild i (x.child i)).keys
        = x.keys.take i ++ (x.child i).key (x.t - 1) :: x.keys.drop i
    ∧ (x.splitChild i (x.child i)).C
        = x.C.take i ++ (x.splitChild i (x.child i)).child i
          :: (x.splitChild i (x.child i)).child (i + 1) :: x.C.drop (i + 1)
    ∧ (x.splitChild i (x.child i)).traverse = x.traverse := by
  obtain ⟨t, keys, C, lf⟩ := x
  simp only [t_mk, leaf_mk, C_mk, n_mk] at ht hleaf hC hn hi hy hyC ⊢
  subst hleaf
  obtain ⟨K1, K2, rfl, hK1⟩ := exists_split keys i hi
  obtain ⟨C1, y, C2, rfl, hC1⟩ := exists_window C i (by omega)
  have hC2 : K2.length = C2.length := by simp at hC; omega
  rw [child_window _ _ _ _ _ _ _ hC1] at hy hyC ⊢
  rw [splitChild_window t K1 K2 C1 C2 y false i hK1 hC1,
    child_window _ _ _ _ _ _ _ hC1, child_window_succ _ _ _ _ _ _ _ _ hC1,
    key_window _ _ _ _ _ _ _ hK1]
  have hk := keys_split t y.keys hy ht
  have hyn : y.keys.length = 2 * t - 1 := hy
  simp only [keys_mk, n_mk, leaf_mk, C_mk, take_at hK1, drop_at hK1, take_at hC1]
  have hd : (C1 ++ y :: C2).drop (i + 1) = C2 := by
    have : C1 ++ y :: C2 = (C1 ++ [y]) ++ C2 := by simp
    rw [this]; exact drop_at (by simp [hC1])
  refine ⟨trivial, by simp; omega, trivial, ?_, hk.2, by simp; omega, trivial, ?_, trivial,
    by simp; omega, by simp at hn ⊢; omega, by simp at hC hn ⊢; omega, trivial, by rw [hd],
    ?_⟩
  · intro hl
    exact ⟨trivial, by simp; have := hyC hl; omega⟩
  · intro hl
    have := hyC hl
    simp only [hl, Bool.not_false, if_true]
    refine ⟨?_, by simp; omega⟩
    apply List.take_of_length_le; simp; omega
  · rw [traverse_window t K1 (_ :: K2) C1 (_ :: C2) _ (by omega) (by simp [hC2]),
      traverse_window t K1 K2 C1 C2 y (by omega) hC2, suf_cons,
      split_traverse t ht y hy hyC]
    simp

theorem splitChild_post_witness :
    (BTreeNode.mk 2 [10] [BTreeNode.mk 2 [1, 2, 3] [] true, BTreeNode.mk 2 [11] [] true]
        false).n < 2 * 2 - 1
    ∧ ((BTreeNode.mk 2 [10] [BTreeNode.mk 2 [1, 2, 3] [] true, BTreeNode.mk 2 [11] [] true]
        false).child 0).n = 2 * 2 - 1
    ∧ (((BTreeNode.mk 2 [10] [BTreeNode.mk 2 [1, 2, 3] [] true, BTreeNode.mk 2 [11] [] true]
        false).splitChild 0 (BTreeNode.mk 2 [1, 2, 3] [] true)).child 0).keys = [1]
    ∧ (((BTreeNode.mk 2 [10] [BTreeNode.mk 2 [1, 2, 3] [] true, BTreeNode.mk 2 [11] [] true]
        false).splitChild 0 (BTreeNode.mk 2 [1, 2, 3] [] true)).child 0).n = 1 :=
  ⟨by decide, rfl,
    (splitChild_post (BTreeNode.mk 2 [10]
      [BTreeNode.mk 2 [1, 2, 3] [] true, BTreeNode.mk 2 [11] [] true] false) 0
      (by decide) rfl rfl (by decide) (by decide) rfl (by decide)).1,
    (splitChild_post (BTreeNode.mk 2 [10]
      [BTreeNode.mk 2 [1, 2, 3] [] true, BTreeNode.mk 2 [11] [] true] false) 0
      (by decide) rfl rfl (by decide) (by decide) rfl (by decide)).2.1⟩

/-- C14: `merge` undoes `splitChild`.  On a non-full internal node `x` (with
`n` keys and `n+1` children) whose child `C[i]` holds exactly `2t-1` keys (and
`2t` children if it is internal), `splitChild(i, C[i])` followed by `merge(i)`
gives back `x`: the same keys and children in `x`, and at index `i` a child
with the original `2t-1` keys and, if internal, the original `2t` children. -/
theorem merge_splitChild (x : BTreeNode) (i : Nat) (ht : 1 ≤ x.t) (hleaf : x.leaf = false)
    (hC : x.C.length = x.n + 1) (hn : x.n < 2 * x.t - 1) (hi : i ≤ x.n)
    (hy : (x.child i).n = 2 * x.t - 1)
    (hyC : (x.child i).leaf = false → (x.child i).C.length = 2 * x.t)
    (hyL : (x.child i).leaf = true → (x.child i).C = []) :
    (x.splitChild i (x.child i)).merge i = x
    ∧ ((x.splitChild i (x.child i)).merge i).child i = x.child i
    ∧ (((x.splitChild i (x.child i)).merge i).child i).n = 2 * x.t - 1 := by
  obtain ⟨t, keys, C, lf⟩ := x
  simp only [t_mk, leaf_mk, C_mk, n_mk] at ht hleaf hC hn hi hy hyC hyL ⊢
  subst hleaf
  obtain ⟨K1, K2, rfl, hK1⟩ := exists_split keys i hi
  obtain ⟨C1, y, C2, rfl, hC1⟩ := exists_window C i (by omega)
  rw [child_window _ _ _ _ _ _ _ hC1] at hy hyC hyL ⊢
  have hk := keys_split t y.keys hy ht
  have key : ((mk t (K1 ++ K2) (C1 ++ y :: C2) false).splitChild i y).merge i
      = mk t (K1 ++ K2) (C1 ++ y :: C2) false := by
    rw [splitChild_window t K1 K2 C1 C2 y false i hK1 hC1,
      merge_window _ _ _ _ _ _ _ _ _ _ hK1 hC1]
    simp only [t_mk, keys_mk, C_mk, leaf_mk, key]
    have e1 : y.keys.take (t - 1) ++ y.keys.getD (t - 1) 0 :: (y.keys.drop t).take (t - 1)
        = y.keys := hk.1.symm
    have e2 : (if !y.leaf then y.C.take t ++ (if !y.leaf then (y.C.drop t).take t else [])
        else y.C.take t) = y.C := by
      cases hl : y.leaf with
      | true => simp [hyL hl]
      | false =>
        have := hyC hl
        simp only [Bool.not_false, if_true]
        have : (y.C.drop t).take t = y.C.drop t := by
          apply List.take_of_length_le; simp; omega
        rw [this]; simp
    rw [e1, e2, mk_eta]
  rw [key, child_window _ _ _ _ _ _ _ hC1]
  exact ⟨rfl, rfl, hy⟩

theorem merge_splitChild_witness :
    (BTreeNode.mk 2 [10] [BTreeNode.mk 2 [1, 2, 3] [] true, BTreeNode.mk 2 [11] [] true]
        false).n < 2 * 2 - 1
    ∧ ((BTreeNode.mk 2 [10] [BTreeNode.mk 2 [1, 2, 3] [] true, BTreeNode.mk 2 [11] [] true]
        false).child 0).n = 2 * 2 - 1
    ∧ ((BTreeNode.mk 2 [10] [BTreeNode.mk 2 [1, 2, 3] [] true, BTreeNode.mk 2 [11] [] true]
        false).splitChild 0 (BTreeNode.mk 2 [1, 2, 3] [] true)).merge 0
      = BTreeNode.mk 2 [10] [BTreeNode.mk 2 [1, 2, 3] [] true, BTreeNode.mk 2 [11] [] true]
        false :=
  ⟨by decide, rfl,
    (merge_splitChild (BTreeNode.mk 2 [10]
      [BTreeNode.mk 2 [1, 2, 3] [] true, BTreeNode.mk 2 [11] [] true] false) 0
      (by decide) rfl rfl (by decide) (by decide) rfl (by decide) (fun _ => rfl)).1⟩

/-- C15: top-down insertion never touches a full node.  On every tree whose
nodes satisfy the key-count invariants (`t ≥ 2`), while `insert k` runs every
call of `insertNonFull` is made on a node with fewer than `2t-1` keys, and
every call of `splitChild(i, y)` is made on a node with fewer than `2t-1` keys
and `n+1` children whose child `y = C[i]` holds exactly `2t-1` keys; so the
key the call adds to the node and the child `splitChild` adds stay within the
capacities `2t-1` and `2t`.  The instrumented method builds the same tree as
`insert`. -/
theorem insert_calls_nonfull (b : BTree) (ht : 2 ≤ b.t)
    (hb : ∀ r, b.root = some r → ∃ m h, WF b.t m h r) (k : Int) :
    (b.insertT k).1 = b.insert k
    ∧ (∀ y k₁, InsertCall.insertNonFull y k₁ ∈ (b.insertT k).2 →
        y.n < 2 * b.t - 1 ∧ y.n + 1 ≤ 2 * b.t - 1)
    ∧ (∀ y i c, InsertCall.splitChild y i c ∈ (b.insertT k).2 →
        y.n < 2 * b.t - 1 ∧ c = y.child i ∧ i ≤ y.n ∧ c.n = 2 * b.t - 1
          ∧ y.n + 1 ≤ 2 * b.t - 1 ∧ y.C.length + 1 ≤ 2 * b.t) := by
  refine ⟨BTree.insertT_fst b k, ?_⟩
  obtain ⟨root, t⟩ := b
  simp only at ht hb ⊢
  cases root with
  | none =>
    simp only [BTree.insertT]
    split_ifs <;> simp
  | some r =>
    obtain ⟨m, h, hwf⟩ := hb r rfl
    have hh := hwf.height_eq
    have key : ∀ (calls : List InsertCall),
        (∀ y k1, InsertCall.insertNonFull y k1 ∈ calls → y.n < 2 * t - 1) →
        (∀ y i c, InsertCall.splitChild y i c ∈ calls →
          y.n < 2 * t - 1 ∧ y.leaf = false ∧ y.C.length = y.n + 1 ∧ i ≤ y.n
            ∧ c = y.child i ∧ c.n = 2 * t - 1 ∧ (c.leaf = false → c.C.length = 2 * t)) →
        (∀ y k₁, InsertCall.insertNonFull y k₁ ∈ calls →
          y.n < 2 * t - 1 ∧ y.n + 1 ≤ 2 * t - 1)
        ∧ (∀ y i c, InsertCall.splitChild y i c ∈ calls →
          y.n < 2 * t - 1 ∧ c = y.child i ∧ i ≤ y.n ∧ c.n = 2 * t - 1
            ∧ y.n + 1 ≤ 2 * t - 1 ∧ y.C.length + 1 ≤ 2 * t) := by
      intro calls h1 h2
      constructor
      · intro y k₁ hy
        have := h1 y k₁ hy
        omega
      · intro y i c hy
        obtain ⟨a1, a2, a3, a4, a5, a6, a7⟩ := h2 y i c hy
        exact ⟨a1, a5, a4, a6, by omega, by omega⟩
    by_cases hfull : r.n = 2 * t - 1
    · have hws : WF t 0 (h + 1) (BTreeNode.mk t [] [r] false) :=
        WF.node _ _ _ _ (by simp) (by simp) (by simp)
          (fun c hc => by
            simp only [List.mem_singleton] at hc
            subst hc
            exact hwf.mono (by omega))
      obtain ⟨-, w2, w3⟩ := insertNonFullT_spec t ht k (r.height + 1) (h + 1) 0 _ hws
        (by simp; omega) (by omega)
      rw [(BTree.insertT_full t r k hfull).2] at w2 w3
      exact key _ (fun y k1 hy => w2 y k1 (List.mem_cons_of_mem _ hy))
        (fun y i c hy => w3 y i c (List.mem_cons_of_mem _ hy))
    · rw [BTree.insertT_nonfull t r k hfull]
      obtain ⟨-, w2, w3⟩ := insertNonFullT_spec t ht k r.height h m r hwf
        (by have := hwf.n_le; omega) (by omega)
      exact key _ w2 w3

theorem insert_calls_nonfull_witness :
    2 ≤ (BTree.run 2 [Op.insert 1, Op.insert 2, Op.insert 3]).t
    ∧ (BTree.run 2 [Op.insert 1, Op.insert 2, Op.insert 3]).root
        = some (BTreeNode.mk 2 [1, 2, 3] [] true)
    ∧ ((BTree.run 2 [Op.insert 1, Op.insert 2, Op.insert 3]).insertT 4).1
        = (BTree.run 2 [Op.insert 1, Op.insert 2, Op.insert 3]).insert 4
    ∧ (∀ y k₁, InsertCall.insertNonFull y k₁
          ∈ ((BTree.run 2 [Op.insert 1, Op.insert 2, Op.insert 3]).insertT 4).2 →
        y.n < 2 * 2 - 1 ∧ y.n + 1 ≤ 2 * 2 - 1)
    ∧ (∀ y i c, InsertCall.splitChild y i c
          ∈ ((BTree.run 2 [Op.insert 1, Op.insert 2, Op.insert 3]).insertT 4).2 →
        y.n < 2 * 2 - 1 ∧ c = y.child i ∧ i ≤ y.n ∧ c.n = 2 * 2 - 1
          ∧ y.n + 1 ≤ 2 * 2 - 1 ∧ y.C.length + 1 ≤ 2 * 2) :=
  ⟨by decide, rfl,
    insert_calls_nonfull (BTree.run 2 [Op.insert 1, Op.insert 2, Op.insert 3]) (by decide)
      (fun r hr =>
        ⟨1, ((BTree.run_inv 2 (by decide) [Op.insert 1, Op.insert 2, Op.insert 3]).2 r hr).1⟩)
      4⟩

/-- C16: deletion descent guarantee.  On a tree satisfying the B-tree
invariants (`t ≥ 2`), for every key `k`: every recursive call of
`BTreeNode::remove` made on a child while `remove k` runs (from the not-found
branch after `fill`, and from the three cases of `removeFromNonLeaf`) is made
on a node holding at least `t` keys at the moment of the call; every call of
`merge(i)` is made on a node at two existing neighbouring children `C[i]`,
`C[i+1]` holding exactly `t-1` keys each; and when `k` is not in an internal
root, the child descended into after `fill` holds at least `t` keys.  The
instrumented method computes the same node as `remove`. -/
theorem remove_calls_rich (b : BTree) (hb : b.Inv) (k : Int) :
    (∀ r, b.root = some r →
      (r.removeT r.height k).1 = r.remove r.height k
      ∧ b.removeCalls k = (r.removeT r.height k).2)
    ∧ (∀ y k₁, RemoveCall.remove y k₁ ∈ b.removeCalls k → b.t ≤ y.n)
    ∧ (∀ y i, RemoveCall.merge y i ∈ b.removeCalls k →
        i < y.n ∧ y.C.length = y.n + 1
        ∧ (y.child i).n = b.t - 1 ∧ (y.child (i + 1)).n = b.t - 1)
    ∧ (∀ r, b.root = some r → r.leaf = false → k ∉ r.keys →
        b.t ≤ ((r.fillBefore (r.findKey k)).child (r.descentIdx (r.findKey k))).n
        ∧ RemoveCall.remove
            ((r.fillBefore (r.findKey k)).child (r.descentIdx (r.findKey k))) k
          ∈ b.removeCalls k) := by
  obtain ⟨root, t⟩ := b
  obtain ⟨ht, hr⟩ := hb
  simp only at ht hr ⊢
  cases root with
  | none => simp [BTree.removeCalls]
  | some r =>
    obtain ⟨⟨h, hwf⟩, -⟩ := hr r rfl
    have hh := hwf.height_eq
    obtain ⟨s1, s2⟩ := removeT_spec t ht r.height h 1 r k hwf (le_refl 1) (by omega)
    refine ⟨?_, ?_, ?_, ?_⟩
    · intro r1 hr1
      cases hr1
      exact ⟨removeT_fst _ _ _, rfl⟩
    · exact s1
    · exact s2
    · intro r1 hr1 hl hk
      cases hr1
      cases hwf with
      | leaf _ keys h1 h2 => simp at hl
      | node _ h keys C h1 h2 h3 h4 =>
        have hx : WF t 1 (h + 1) (mk t keys C false) := WF.node _ _ _ _ h1 h2 h3 h4
        have hnf := not_found_of_not_mem _ k hk
        have hle := findKey_le (mk t keys C false) k
        obtain ⟨d1, -⟩ := descent_spec t 1 h ht (le_refl 1) _ _ hx hle
        refine ⟨d1.le_n, ?_⟩
        simp only [BTree.removeCalls]
        rw [hh, removeT_descent _ (mk t keys C false) _ rfl hnf]
        simp

theorem remove_calls_rich_witness :
    (BTree.run 2 [Op.insert 1, Op.insert 2, Op.insert 3, Op.insert 4, Op.remove 4]).root
      = some (BTreeNode.mk 2 [2] [BTreeNode.mk 2 [1] [] true, BTreeNode.mk 2 [3] [] true]
          false)
    ∧ (∀ y k₁, RemoveCall.remove y k₁
          ∈ (BTree.run 2 [Op.insert 1, Op.insert 2, Op.insert 3, Op.insert 4,
              Op.remove 4]).removeCalls 3 → 2 ≤ y.n)
    ∧ (∀ y i, RemoveCall.merge y i
          ∈ (BTree.run 2 [Op.insert 1, Op.insert 2, Op.insert 3, Op.insert 4,
              Op.remove 4]).removeCalls 3 →
        i < y.n ∧ y.C.length = y.n + 1
        ∧ (y.child i).n = 2 - 1 ∧ (y.child (i + 1)).n = 2 - 1) :=
  ⟨rfl,
    (remove_calls_rich
      (BTree.run 2 [Op.insert 1, Op.insert 2, Op.insert 3, Op.insert 4, Op.remove 4])
      (BTree.run_inv 2 (by decide) _) 3).2.1,
    (remove_calls_rich
      (BTree.run 2 [Op.insert 1, Op.insert 2, Op.insert 3, Op.insert 4, Op.remove 4])
      (BTree.run_inv 2 (by decide) _) 3).2.2.1⟩

/-- C17: descent-index recomputation in `BTreeNode::remove`.  Let `x` be an
internal node of a well-formed tree with at least one key whose keys do not
contain `k`, and `idx = findKey(k)`.  Then `remove` continues into the child
at the recomputed index of the node as `fill` left it; that index is `idx - 1`
exactly when `idx` is the last child index and both `C[idx]` and its left
sibling hold fewer than `t` keys, in which case `fill` ran `merge(idx - 1)`,
and it is `idx` when no `fill` ran, when `fill` borrowed from the left or the
right sibling, and when it ran `merge(idx)`; the index is a valid child index
of the node after `fill`, and the subtree of the chosen child holds every key
the subtree of `C[idx]` held before `fill`. -/
theorem descent_index (t m h : Nat) (ht : 2 ≤ t) (hm : 1 ≤ m) (x : BTreeNode) (k : Int)
    (hx : WF t m (h + 1) x) (hk : k ∉ x.keys) (fuel : Nat) :
    remove (fuel + 1) x k
      = (x.fillBefore (x.findKey k)).setChild (x.descentIdx (x.findKey k))
          (remove fuel ((x.fillBefore (x.findKey k)).child (x.descentIdx (x.findKey k))) k)
    ∧ (x.descentIdx (x.findKey k) ≠ x.findKey k ↔
        x.findKey k = x.n ∧ (x.child (x.findKey k)).n < t
          ∧ (x.child (x.findKey k - 1)).n < t)
    ∧ (x.descentIdx (x.findKey k) ≠ x.findKey k →
        x.descentIdx (x.findKey k) = x.findKey k - 1
        ∧ x.fillBefore (x.findKey k) = x.merge (x.findKey k - 1))
    ∧ (x.descentIdx (x.findKey k) = x.findKey k →
        (t ≤ (x.child (x.findKey k)).n ∧ x.fillBefore (x.findKey k) = x)
        ∨ ((x.child (x.findKey k)).n < t ∧ x.findKey k ≠ 0
            ∧ t ≤ (x.child (x.findKey k - 1)).n
            ∧ x.fillBefore (x.findKey k) = x.borrowFromPrev (x.findKey k))
        ∨ ((x.child (x.findKey k)).n < t ∧ x.findKey k ≠ x.n
            ∧ t ≤ (x.child (x.findKey k + 1)).n
            ∧ x.fillBefore (x.findKey k) = x.borrowFromNext (x.findKey k))
        ∨ ((x.child (x.findKey k)).n < t ∧ x.findKey k ≠ x.n
            ∧ (x.child (x.findKey k + 1)).n < t
            ∧ x.fillBefore (x.findKey k) = x.merge (x.findKey k)))
    ∧ x.descentIdx (x.findKey k) < (x.fillBefore (x.findKey k)).C.length
    ∧ (∀ a ∈ (x.child (x.findKey k)).traverse,
        a ∈ ((x.fillBefore (x.findKey k)).child (x.descentIdx (x.findKey k))).traverse) := by
  have hl : x.leaf = false := hx.leaf_false
  have htx : x.t = t := hx.t_eq
  have hn : 1 ≤ x.n := by have := hx.le_n; omega
  have hnf := not_found_of_not_mem x k hk
  have hle := findKey_le x k
  have hrm := remove_descent fuel x k hl hnf
  obtain ⟨-, d2, d3, d4, -, -⟩ := descent_spec t m h ht hm x _ hx hle
  obtain ⟨DA, DB, DC, DD, DE⟩ := descent_cases x (x.findKey k) hn
  rw [htx] at DA DB DC DD DE
  generalize x.findKey k = idx at *
  have hlen : (x.fillBefore idx).C.length = (x.fillBefore idx).n + 1 := d3.C_length d3.leaf_false
  refine ⟨hrm, ?_, ?_, ?_, by omega, d4⟩
  · constructor
    · intro hne
      by_cases hcn : t ≤ (x.child idx).n
      · exact absurd (DA hcn).2.1 hne
      have hcn0 : (x.child idx).n < t := by omega
      by_cases hA : idx ≠ 0 ∧ t ≤ (x.child (idx - 1)).n
      · exact absurd (DB hcn0 hA).2.1 hne
      by_cases hlast : idx = x.n
      · refine ⟨hlast, hcn0, ?_⟩
        have : ¬ t ≤ (x.child (idx - 1)).n := fun q => hA ⟨by omega, q⟩
        omega
      by_cases hdn : t ≤ (x.child (idx + 1)).n
      · exact absurd (DC hcn0 hA ⟨hlast, hdn⟩).2.1 hne
      · exact absurd (DD hcn0 hA hlast hdn).2.1 hne
    · rintro ⟨hlast, hcn0, hpn⟩
      rw [(DE hcn0 (fun q => by omega) hlast).2.1]
      omega
  · intro hne
    by_cases hcn : t ≤ (x.child idx).n
    · exact absurd (DA hcn).2.1 hne
    have hcn0 : (x.child idx).n < t := by omega
    by_cases hA : idx ≠ 0 ∧ t ≤ (x.child (idx - 1)).n
    · exact absurd (DB hcn0 hA).2.1 hne
    by_cases hlast : idx = x.n
    · obtain ⟨f1, f2, -⟩ := DE hcn0 hA hlast
      exact ⟨f2, f1⟩
    by_cases hdn : t ≤ (x.child (idx + 1)).n
    · exact absurd (DC hcn0 hA ⟨hlast, hdn⟩).2.1 hne
    · exact absurd (DD hcn0 hA hlast hdn).2.1 hne
  · intro heq
    by_cases hcn : t ≤ (x.child idx).n
    · exact Or.inl ⟨hcn, (DA hcn).1⟩
    have hcn0 : (x.child idx).n < t := by omega
    by_cases hA : idx ≠ 0 ∧ t ≤ (x.child (idx - 1)).n
    · exact Or.inr (Or.inl ⟨hcn0, hA.1, hA.2, (DB hcn0 hA).1⟩)
    by_cases hlast : idx = x.n
    · have := (DE hcn0 hA hlast).2.1
      omega
    by_cases hdn : t ≤ (x.child (idx + 1)).n
    · exact Or.inr (Or.inr (Or.inl ⟨hcn0, hlast, hdn, (DC hcn0 hA ⟨hlast, hdn⟩).1⟩))
    · exact Or.inr (Or.inr (Or.inr ⟨hcn0, hlast, by omega, (DD hcn0 hA hlast hdn).1⟩))

theorem descent_index_witness :
    (5 : Int) ∉ (BTreeNode.mk 2 [2] [BTreeNode.mk 2 [1] [] true, BTreeNode.mk 2 [3] [] true]
        false).keys
    ∧ (BTreeNode.mk 2 [2] [BTreeNode.mk 2 [1] [] true, BTreeNode.mk 2 [3] [] true]
        false).findKey 5 = 1
    ∧ (BTreeNode.mk 2 [2] [BTreeNode.mk 2 [1] [] true, BTreeNode.mk 2 [3] [] true]
        false).descentIdx 1 = 0
    ∧ BTreeNode.remove (1 + 1)
        (BTreeNode.mk 2 [2] [BTreeNode.mk 2 [1] [] true, BTreeNode.mk 2 [3] [] true] false) 5
      = ((BTreeNode.mk 2 [2] [BTreeNode.mk 2 [1] [] true, BTreeNode.mk 2 [3] [] true]
          false).fillBefore 1).setChild 0
          (BTreeNode.remove 1
            (((BTreeNode.mk 2 [2] [BTreeNode.mk 2 [1] [] true, BTreeNode.mk 2 [3] [] true]
              false).fillBefore 1).child 0) 5) :=
  ⟨by decide, by decide, by decide,
    (descent_index 2 1 0 (by decide) (by decide)
      (BTreeNode.mk 2 [2] [BTreeNode.mk 2 [1] [] true, BTreeNode.mk 2 [3] [] true] false) 5
      (WF.node 1 0 [2] [BTreeNode.mk 2 [1] [] true, BTreeNode.mk 2 [3] [] true]
        (by decide) (by decide) (by decide)
        (fun c hc => by
          simp only [List.mem_cons, List.mem_singleton, List.not_mem_nil, or_false] at hc
          rcases hc with rfl | rfl <;> exact WF.leaf _ _ (by decide) (by decide)))
      (by decide) 1).1⟩

/-- C18: on every non-empty tree that satisfies the shape invariants
(`t ≥ 2`), `insert` increases the height of the tree by exactly one if the
root held `2t-1` keys before the call, the new root having, before the
descent, exactly one key and two children of `t-1` keys each; otherwise it
leaves the height unchanged. -/
theorem insert_height (b : BTree) (ht : 2 ≤ b.t) (r : BTreeNode) (hr : b.root = some r)
    (hwf : ∃ h, WF b.t 1 h r) (k : Int) :
    (r.n = 2 * b.t - 1 →
      (b.insert k).height = b.height + 1
      ∧ ((BTreeNode.mk b.t [] [r] false).splitChild 0 r).n = 1
      ∧ ((BTreeNode.mk b.t [] [r] false).splitChild 0 r).C.length = 2
      ∧ (((BTreeNode.mk b.t [] [r] false).splitChild 0 r).child 0).n = b.t - 1
      ∧ (((BTreeNode.mk b.t [] [r] false).splitChild 0 r).child 1).n = b.t - 1)
    ∧ (r.n ≠ 2 * b.t - 1 → (b.insert k).height = b.height) := by
  obtain ⟨root, t⟩ := b
  simp only at ht hr hwf ⊢
  subst hr
  obtain ⟨h, hwf⟩ := hwf
  have hh := hwf.height_eq
  constructor
  · intro hfull
    have hws : WF t 0 (h + 1) (BTreeNode.mk t [] [r] false) :=
      WF.node _ _ _ _ (by simp) (by simp) (by simp)
        (fun c hc => by
          simp only [List.mem_singleton] at hc
          subst hc
          exact hwf.mono (by omega))
    obtain ⟨w1, -, -⟩ := insertNonFullT_spec t ht k (r.height + 1) (h + 1) 0 _ hws
      (by simp; omega) (by omega)
    rw [insertNonFullT_fst] at w1
    refine ⟨?_, ?_⟩
    · rw [BTree.insert_full _ _ _ hfull]
      simp only [BTree.height]
      rw [w1.height_eq, hh]
    · have hrn : r.keys.length = 2 * t - 1 := hfull
      have e := splitChild_window t [] [] [] [] r false 0 rfl rfl
      simp only [List.nil_append] at e
      rw [e]
      simp only [List.nil_append, n_mk, List.length_cons, List.length_nil, child, C_mk,
        List.getD_cons_zero, List.getD_cons_succ, keys_mk, List.length_take, List.length_drop]
      exact ⟨trivial, trivial, min_eq_left (by omega), min_eq_left (by omega)⟩
  · intro hfull
    obtain ⟨w1, -, -⟩ := insertNonFullT_spec t ht k r.height h 1 r hwf
      (by have := hwf.n_le; omega) (by omega)
    rw [insertNonFullT_fst] at w1
    rw [BTree.insert_nonfull _ _ _ hfull]
    simp only [BTree.height]
    rw [w1.height_eq, hh]

theorem insert_height_witness :
    2 ≤ (BTree.run 2 [Op.insert 1, Op.insert 2, Op.insert 3]).t
    ∧ (BTree.run 2 [Op.insert 1, Op.insert 2, Op.insert 3]).root
        = some (BTreeNode.mk 2 [1, 2, 3] [] true)
    ∧ (BTreeNode.mk 2 [1, 2, 3] [] true).n = 2 * 2 - 1
    ∧ ((BTree.run 2 [Op.insert 1, Op.insert 2, Op.insert 3]).insert 4).height
        = (BTree.run 2 [Op.insert 1, Op.insert 2, Op.insert 3]).height + 1 :=
  ⟨by decide, rfl, rfl,
    ((insert_height (BTree.run 2 [Op.insert 1, Op.insert 2, Op.insert 3]) (by decide)
      (BTreeNode.mk 2 [1, 2, 3] [] true) rfl
      ((BTree.run_inv 2 (by decide) [Op.insert 1, Op.insert 2, Op.insert 3]).2 _ rfl).1
      4).1 rfl).1⟩

/-- C19: for every `t ≥ 2` and every non-empty tree reachable from the empty
tree by inserts and removes, with `N` keys and all leaves at depth `h` (`0`
for a lone leaf root, so that the tree has `h + 1` levels): `N ≥ 2 * t^h - 1`,
hence the number `h` of descents of `search`, `insert` and `remove` is at most
`log_t ((N+1)/2)`. -/
theorem height_logarithmic (t : Nat) (ht : 2 ≤ t) (ops : List Op) (r : BTreeNode)
    (hr : (BTree.run t ops).root = some r) :
    ∃ h, r.leafDepths ≠ [] ∧ (∀ d ∈ r.leafDepths, d = h) ∧ r.height = h + 1
      ∧ 2 * t ^ h - 1 ≤ r.traverse.length
      ∧ h ≤ Nat.log t ((r.traverse.length + 1) / 2) := by
  obtain ⟨-, hinv⟩ := BTree.run_inv t ht ops
  obtain ⟨⟨h, hwf⟩, -⟩ := hinv r hr
  rw [BTree.run_t] at hwf
  have hc := hwf.count (by omega)
  refine ⟨h, hwf.leafDepths_ne_nil, hwf.nodes_spec.2.2, hwf.height_eq, by omega, ?_⟩
  apply Nat.le_log_of_pow_le (by omega)
  rw [Nat.le_div_iff_mul_le (by omega)]
  omega

theorem height_logarithmic_witness :
    2 ≤ 2
    ∧ (BTree.run 2 [Op.insert 1, Op.insert 2, Op.insert 3, Op.insert 4]).root
      = some (BTreeNode.mk 2 [2] [BTreeNode.mk 2 [1] [] true, BTreeNode.mk 2 [3, 4] [] true]
          false)
    ∧ ∃ h, (BTreeNode.mk 2 [2] [BTreeNode.mk 2 [1] [] true, BTreeNode.mk 2 [3, 4] [] true]
          false).leafDepths ≠ []
      ∧ (∀ d ∈ (BTreeNode.mk 2 [2] [BTreeNode.mk 2 [1] [] true,
          BTreeNode.mk 2 [3, 4] [] true] false).leafDepths, d = h)
      ∧ (BTreeNode.mk 2 [2] [BTreeNode.mk 2 [1] [] true, BTreeNode.mk 2 [3, 4] [] true]
          false).height = h + 1
      ∧ 2 * 2 ^ h - 1 ≤ (BTreeNode.mk 2 [2] [BTreeNode.mk 2 [1] [] true,
          BTreeNode.mk 2 [3, 4] [] true] false).traverse.length
      ∧ h ≤ Nat.log 2 (((BTreeNode.mk 2 [2] [BTreeNode.mk 2 [1] [] true,
          BTreeNode.mk 2 [3, 4] [] true] false).traverse.length + 1) / 2) :=
  ⟨by decide, rfl,
    height_logarithmic 2 (by decide) [Op.insert 1, Op.insert 2, Op.insert 3, Op.insert 4] _
      rfl⟩

/-- C20: for every `t ≥ 2` and every sequence of inserts and removes on an
initially empty tree (duplicate keys allowed), in every node of the resulting
tree the keys are non-decreasing, every key of the subtree `children[i]` is
at most `keys[i]` and every key of the subtree `children[i+1]` is at least
`keys[i]`; consequently every key `k` present in the tree is reached by the
descent rule of `search` and `remove` (first index with `keys[idx] >= k`):
the descent succeeds, `search k` returns a node, and `remove k` takes one
occurrence of `k` out of the tree. -/
theorem nonstrict_order_and_descent (t : Nat) (ht : 2 ≤ t) (ops : List Op) (r : BTreeNode)
    (hr : (BTree.run t ops).root = some r) :
    (∀ x ∈ r.nodes, List.Sorted (· ≤ ·) x.keys)
    ∧ (∀ x ∈ r.nodes, x.leaf = false → ∀ i, i < x.n →
        (∀ a ∈ (x.child i).traverse, a ≤ x.key i)
        ∧ (∀ a ∈ (x.child (i + 1)).traverse, x.key i ≤ a))
    ∧ (∀ x ∈ r.nodes, ∀ k, x.findKey k = BTreeNode.searchIdx k x.keys)
    ∧ (∀ k, k ∈ r.traverse →
        r.reach r.height k = true
        ∧ ((BTree.run t ops).search k).isSome = true
        ∧ ((BTree.run t ops).remove k).traverse.count k + 1
            = (BTree.run t ops).traverse.count k) := by
  have hinv := BTree.run_inv t ht ops
  obtain ⟨⟨h, hwf⟩, hs⟩ := hinv.2 r hr
  obtain ⟨w1, -, -⟩ := hwf.nodes_spec
  have htr : (BTree.run t ops).traverse = r.traverse := by simp [BTree.traverse, hr]
  refine ⟨?_, ?_, ?_, ?_⟩
  · intro x hx
    obtain ⟨m1, h1, hx1, hsub⟩ := w1 x hx
    exact (hs.sublist hsub).sublist (keys_sublist_traverse x)
  · intro x hx _
    obtain ⟨m1, h1, hx1, hsub⟩ := w1 x hx
    exact (orderedAt_of_sorted hx1 (hs.sublist hsub)).1
  · intro x _ k
    rw [findKey, searchIdx_eq_findKeyLoop]
  · intro k hk
    have h1 : ((BTree.run t ops).search k).isSome = true :=
      (BTree.search_isSome_iff _ hinv k).2 (htr ▸ hk)
    refine ⟨?_, h1, ?_⟩
    · rw [reach_eq_search]
      simpa [BTree.search, hr] using h1
    · rw [(BTree.remove_spec _ k hinv).2, List.count_erase_self, htr]
      have := List.count_pos_iff.2 hk
      omega

theorem nonstrict_order_and_descent_witness :
    2 ≤ 2
    ∧ (BTree.run 2 [Op.insert 1, Op.insert 1, Op.insert 1, Op.insert 1]).root
      = some (BTreeNode.mk 2 [1] [BTreeNode.mk 2 [1, 1] [] true, BTreeNode.mk 2 [1] [] true]
          false)
    ∧ (∀ x ∈ (BTreeNode.mk 2 [1] [BTreeNode.mk 2 [1, 1] [] true, BTreeNode.mk 2 [1] [] true]
          false).nodes, List.Sorted (· ≤ ·) x.keys)
    ∧ (∀ x ∈ (BTreeNode.mk 2 [1] [BTreeNode.mk 2 [1, 1] [] true, BTreeNode.mk 2 [1] [] true]
          false).nodes, x.leaf = false → ∀ i, i < x.n →
        (∀ a ∈ (x.child i).traverse, a ≤ x.key i)
        ∧ (∀ a ∈ (x.child (i + 1)).traverse, x.key i ≤ a))
    ∧ (∀ k, k ∈ (BTreeNode.mk 2 [1] [BTreeNode.mk 2 [1, 1] [] true,
          BTreeNode.mk 2 [1] [] true] false).traverse →
        (BTreeNode.mk 2 [1] [BTreeNode.mk 2 [1, 1] [] true, BTreeNode.mk 2 [1] [] true]
          false).reach (BTreeNode.mk 2 [1] [BTreeNode.mk 2 [1, 1] [] true,
            BTreeNode.mk 2 [1] [] true] false).height k = true
        ∧ ((BTree.run 2 [Op.insert 1, Op.insert 1, Op.insert 1, Op.insert 1]).search
            k).isSome = true
        ∧ ((BTree.run 2 [Op.insert 1, Op.insert 1, Op.insert 1, Op.insert 1]).remove
            k).traverse.count k + 1
          = (BTree.run 2 [Op.insert 1, Op.insert 1, Op.insert 1, Op.insert 1]).traverse.count
              k) :=
  ⟨by decide, rfl,
    (nonstrict_order_and_descent 2 (by decide)
      [Op.insert 1, Op.insert 1, Op.insert 1, Op.insert 1] _ rfl).1,
    (nonstrict_order_and_descent 2 (by decide)
      [Op.insert 1, Op.insert 1, Op.insert 1, Op.insert 1] _ rfl).2.1,
    (nonstrict_order_and_descent 2 (by decide)
      [Op.insert 1, Op.insert 1, Op.insert 1, Op.insert 1] _ rfl).2.2.2⟩
